import Mathlib

/-!
# BadgerDB buffer manager (`src/buffer.cpp`)

A shallow embedding of `BufMgr`: the descriptor table, the frame pool, the
page index, the clock hand and the statistics are an explicit state, every
member function is a state transformer that returns the new state together
with either a result or the exception it raised (the mutations made before a
`throw` stay visible, as in the C++ code).

`buffer.cpp` is the only translation unit available.  What it uses from
`buffer.h`, `bufHashTbl.h`, `file.h`, `page.h` and `types.h` is modelled from
the specification and marked so.
-/

namespace BadgerDB

/-! Modelled from the spec: `FrameId` and `PageId` (declared in `types.h`) and
the `File*` handles are natural numbers: a frame number is an "integer cursor
in [0, N)", a file is an "opaque handle with stable identity", its address,
with `0` the null pointer.  The counters and the bound `2*numBufs` of the
sweep are computed in the naturals: the declarations of `numBufs`, `FrameId`
and `BufStats` are not in `buffer.cpp`; with 32-bit declarations this is the
code on pools of fewer than `2^31` frames and before any counter wraps. -/

/-- Modelled from the spec: the `Page` value type (`page.h`), a "fixed-size
payload with an embedded `page_number()`". -/
structure Page where
  page_number : Nat
  payload : List Nat
deriving DecidableEq, Repr

instance : Inhabited Page := ⟨⟨0, []⟩⟩

/-- Modelled from the spec: the frame descriptor `BufDesc` (`buffer.h`), with
the fields of section 3. -/
structure BufDesc where
  file : Nat
  pageNo : Nat
  frameNo : Nat
  pinCnt : Nat
  dirty : Bool
  valid : Bool
  refbit : Bool
deriving DecidableEq, Repr

/-- Modelled from the spec: `BufDesc::Clear()`, "resets all fields to the
unoccupied state" and nulls the file pointer; `frameNo` is "stable for its
lifetime". -/
def BufDesc.Clear (d : BufDesc) : BufDesc :=
  { d with file := 0, pageNo := 0, pinCnt := 0, dirty := false, valid := false, refbit := false }

/-- Modelled from the spec: `BufDesc::Set(file, pageNo)`, the occupied state
"with `pinCnt = 1`, `valid = true`, `refbit = true`, `dirty = false`". -/
def BufDesc.Set (d : BufDesc) (file : Nat) (pageNo : Nat) : BufDesc :=
  { d with file := file, pageNo := pageNo, pinCnt := 1, dirty := false, valid := true, refbit := true }

instance : Inhabited BufDesc := ⟨⟨0, 0, 0, 0, false, false, false⟩⟩

/-- Modelled from the spec: `BufStats` (`buffer.h`), the three counters. -/
structure BufStats where
  accesses : Nat
  diskreads : Nat
  diskwrites : Nat
deriving DecidableEq, Repr

/-- One entry of the page index: key `(file, pageNo)`, value `frameNo`. -/
structure HashEntry where
  file : Nat
  pageNo : Nat
  frameNo : Nat
deriving DecidableEq, Repr

/-- Modelled from the spec: the page index `BufHashTbl` (`bufHashTbl.h`), a
mapping with composite key `(file, pageNo)` and value `frameId`, kept as the
chain of its entries, newest first. -/
abbrev BufHashTbl := List HashEntry

/-- Modelled from the spec: `BufHashTbl::lookup`, "`lookup(file, pageNo) →
frameId` or fails with NotFound" (`none`). -/
def BufHashTbl.lookup : BufHashTbl → Nat → Nat → Option Nat
  | [], _, _ => none
  | e :: es, file, pageNo =>
    if e.file = file ∧ e.pageNo = pageNo then some e.frameNo
    else BufHashTbl.lookup es file pageNo

/-- Modelled from the spec: `BufHashTbl::insert`, whose precondition (no
entry for the key) is the caller's duty: the entry is added. -/
def BufHashTbl.insert (ht : BufHashTbl) (file : Nat) (pageNo : Nat)
    (frameNo : Nat) : BufHashTbl :=
  ⟨file, pageNo, frameNo⟩ :: ht

/-- Modelled from the spec: `BufHashTbl::remove`, "fails with NotFound if
absent" (`none`), otherwise drops the entry of the key. -/
def BufHashTbl.remove : BufHashTbl → Nat → Nat → Option BufHashTbl
  | [], _, _ => none
  | e :: es, file, pageNo =>
    if e.file = file ∧ e.pageNo = pageNo then some es
    else (BufHashTbl.remove es file pageNo).map (fun r => e :: r)

/-- Modelled from the spec: the `File` collaborator (`file.h`), section 6:
`readPage` and `writePage` may fail (`none`), `allocatePage` "chooses and
returns a fresh page", `deletePage` "removes a page from the file",
`filename` is used for diagnostics only.  `D` is the state of the file
store. -/
structure FileLayer (D : Type) where
  readPage : D → Nat → Nat → Option Page
  writePage : D → Nat → Page → Option D
  allocatePage : D → Nat → Page × D
  deletePage : D → Nat → Nat → D
  filename : Nat → String

/-- A call made on the `File` collaborator, with its arguments. -/
inductive FileCall where
  | readPage (file : Nat) (pageNo : Nat)
  | writePage (file : Nat) (page : Page)
  | allocatePage (file : Nat)
  | deletePage (file : Nat) (pageNo : Nat)
deriving DecidableEq, Repr

/-- The exceptions that leave the member functions of `BufMgr`.
`FileFailure` stands for any exception of the `File` layer, `FuelExhausted`
is the embedding's own marker for a loop cut short (shown unreachable). -/
inductive BufError where
  | BufferExceeded
  | PageNotPinned (filename : String) (pageNo : Nat) (frameNo : Nat)
  | PagePinned (filename : String) (pageNo : Nat) (frameNo : Nat)
  | BadBuffer (frameNo : Nat) (dirty valid refbit : Bool)
  | HashNotFound
  | FileFailure
  | FuelExhausted
deriving DecidableEq, Repr

/-- Outcome of a member function: a normal return or a raised exception. -/
inductive Outcome (α : Type) where
  | ok (a : α)
  | raise (e : BufError)
deriving DecidableEq, Repr

/-- The data members of `BufMgr`. -/
structure BufMgr where
  numBufs : Nat
  bufDescTable : List BufDesc
  bufPool : List Page
  hashTable : BufHashTbl
  clockHand : Nat
  bufStats : BufStats
deriving DecidableEq, Repr

/-- A buffer manager together with the file store it talks to and the log
of the `File` calls made so far (oldest first). -/
structure World (D : Type) where
  mgr : BufMgr
  disk : D
  calls : List FileCall

/-- The descriptor `bufDescTable[i]`. -/
def BufMgr.desc (m : BufMgr) (i : Nat) : BufDesc := m.bufDescTable.getD i default

/-- The frame `bufPool[i]`. -/
def BufMgr.page (m : BufMgr) (i : Nat) : Page := m.bufPool.getD i default

/-- Assignment `bufDescTable[i] = d`. -/
def BufMgr.setDesc (m : BufMgr) (i : Nat) (d : BufDesc) : BufMgr :=
  { m with bufDescTable := m.bufDescTable.set i d }

/-- Assignment `bufPool[i] = p`. -/
def BufMgr.setPage (m : BufMgr) (i : Nat) (p : Page) : BufMgr :=
  { m with bufPool := m.bufPool.set i p }

/-- `BufMgr::BufMgr(bufs)`: every descriptor unoccupied with its own
`frameNo`, an empty index, the hand on the last frame. -/
def BufMgr.new (bufs : Nat) : BufMgr :=
  { numBufs := bufs
    bufDescTable := (List.range bufs).map (fun i => { (default : BufDesc) with frameNo := i })
    bufPool := List.replicate bufs default
    hashTable := []
    clockHand := bufs - 1
    bufStats := ⟨0, 0, 0⟩ }

/-- `BufMgr::advanceClock`. -/
def advanceClock (m : BufMgr) : BufMgr :=
  { m with clockHand := (m.clockHand + 1) % m.numBufs }

/-- The branch `bufDescTable[clockHand].refbit = false; bufStats.accesses++`
of the sweep. -/
def clearRefbit (m : BufMgr) : BufMgr :=
  let d := m.desc m.clockHand
  { m.setDesc m.clockHand { d with refbit := false } with
    bufStats := { m.bufStats with accesses := m.bufStats.accesses + 1 } }

/-- The `do ... while (numFrame < 2*numBufs)` loop of `BufMgr::allocBuf`.
Returns the state at loop exit with the final `numFrame` and `isAvailable`,
or the exception of `hashTable->remove`.  `fuel` bounds the iterations. -/
def allocBufLoop : Nat → BufMgr → Nat → BufMgr × Outcome (Nat × Bool)
  | 0, m, _ => (m, .raise .FuelExhausted)
  | fuel + 1, m, numFrame =>
    let m1 := advanceClock m
    let numFrame1 := numFrame + 1
    if (m1.desc m1.clockHand).valid = false then
      (m1, .ok (numFrame1, false))
    else if (m1.desc m1.clockHand).refbit = true then
      let m2 := clearRefbit m1
      if numFrame1 < 2 * m2.numBufs then allocBufLoop fuel m2 numFrame1
      else (m2, .ok (numFrame1, false))
    else if (m1.desc m1.clockHand).pinCnt = 0 then
      match m1.hashTable.remove (m1.desc m1.clockHand).file (m1.desc m1.clockHand).pageNo with
      | none => (m1, .raise .HashNotFound)
      | some ht => ({ m1 with hashTable := ht }, .ok (numFrame1, true))
    else if numFrame1 < 2 * m1.numBufs then allocBufLoop fuel m1 numFrame1
    else (m1, .ok (numFrame1, false))

/-- `BufMgr::allocBuf`: the clock sweep, the `BufferExceeded` test, the
writeback of a dirty frame, `Clear()`, and the frame number returned. -/
def allocBuf {D : Type} (fl : FileLayer D) (w : World D) : World D × Outcome Nat :=
  match allocBufLoop (2 * w.mgr.numBufs + 1) w.mgr 0 with
  | (m1, .raise e) => ({ w with mgr := m1 }, .raise e)
  | (m1, .ok (numFrame, isAvailable)) =>
    if numFrame ≥ 2 * m1.numBufs ∧ isAvailable = false then
      ({ w with mgr := m1 }, .raise .BufferExceeded)
    else if (m1.desc m1.clockHand).dirty = true then
      let call := FileCall.writePage (m1.desc m1.clockHand).file (m1.page m1.clockHand)
      match fl.writePage w.disk (m1.desc m1.clockHand).file (m1.page m1.clockHand) with
      | none => ({ mgr := m1, disk := w.disk, calls := w.calls ++ [call] }, .raise .FileFailure)
      | some disk1 =>
        let m2 : BufMgr :=
          { m1 with bufStats := { m1.bufStats with diskwrites := m1.bufStats.diskwrites + 1 } }
        ({ mgr := m2.setDesc m2.clockHand (m2.desc m2.clockHand).Clear, disk := disk1,
           calls := w.calls ++ [call] }, .ok m2.clockHand)
    else
      ({ w with mgr := m1.setDesc m1.clockHand (m1.desc m1.clockHand).Clear }, .ok m1.clockHand)

/-- `BufMgr::readPage`: the hit path inside `try`, the miss path inside the
`catch` of `HashNotFoundException`.  The result is the frame number `i` of
the returned `&bufPool[i]`. -/
def readPage {D : Type} (fl : FileLayer D) (w : World D) (file : Nat) (pageNo : Nat) :
    World D × Outcome Nat :=
  match w.mgr.hashTable.lookup file pageNo with
  | some frameNo =>
    let d := w.mgr.desc frameNo
    ({ w with mgr := w.mgr.setDesc frameNo { d with refbit := true, pinCnt := d.pinCnt + 1 } },
      .ok frameNo)
  | none =>
    match allocBuf fl w with
    | (w1, .raise e) => (w1, .raise e)
    | (w1, .ok frameNo) =>
      let calls1 := w1.calls ++ [FileCall.readPage file pageNo]
      match fl.readPage w1.disk file pageNo with
      | none => ({ w1 with calls := calls1 }, .raise .FileFailure)
      | some pg =>
        let m2 := w1.mgr.setPage frameNo pg
        let m3 : BufMgr :=
          { m2 with bufStats := { m2.bufStats with diskreads := m2.bufStats.diskreads + 1 } }
        let m4 : BufMgr := { m3 with hashTable := m3.hashTable.insert file pageNo frameNo }
        ({ mgr := m4.setDesc frameNo ((m4.desc frameNo).Set file pageNo), disk := w1.disk,
           calls := calls1 }, .ok frameNo)

/-- `BufMgr::unPinPage`. -/
def unPinPage {D : Type} (fl : FileLayer D) (w : World D) (file : Nat) (pageNo : Nat)
    (dirty : Bool) : World D × Outcome Unit :=
  match w.mgr.hashTable.lookup file pageNo with
  | none => (w, .ok ())
  | some frameNo =>
    let d0 := w.mgr.desc frameNo
    let m1 : BufMgr := if dirty = true then w.mgr.setDesc frameNo { d0 with dirty := true } else w.mgr
    if (m1.desc frameNo).pinCnt = 0 then
      ({ w with mgr := m1 }, .raise (.PageNotPinned (fl.filename file) pageNo frameNo))
    else
      let d := m1.desc frameNo
      ({ w with mgr := m1.setDesc frameNo { d with pinCnt := d.pinCnt - 1 } }, .ok ())

/-- `BufMgr::allocPage`: the result is the new page number and the frame
number `i` of the returned `&bufPool[i]`. -/
def allocPage {D : Type} (fl : FileLayer D) (w : World D) (file : Nat) :
    World D × Outcome (Nat × Nat) :=
  let newPage := (fl.allocatePage w.disk file).1
  let w0 : World D :=
    { w with disk := (fl.allocatePage w.disk file).2,
             calls := w.calls ++ [FileCall.allocatePage file] }
  match allocBuf fl w0 with
  | (w1, .raise e) => (w1, .raise e)
  | (w1, .ok frameNo) =>
    let m2 := w1.mgr.setPage frameNo newPage
    let pageNo := newPage.page_number
    let m3 : BufMgr := { m2 with hashTable := m2.hashTable.insert file pageNo frameNo }
    ({ w1 with mgr := m3.setDesc frameNo ((m3.desc frameNo).Set file pageNo) },
      .ok (pageNo, frameNo))

/-- The body of the `for` loop of `BufMgr::flushFile`, run over the frame
numbers still to visit. -/
def flushFileLoop {D : Type} (fl : FileLayer D) (file : Nat) :
    List Nat → World D → World D × Outcome Unit
  | [], w => (w, .ok ())
  | i :: rest, w =>
    let d := w.mgr.desc i
    if d.file = file then
      if d.valid = false then
        (w, .raise (.BadBuffer d.frameNo d.dirty d.valid d.refbit))
      else if d.pinCnt > 0 then
        (w, .raise (.PagePinned (fl.filename file) d.pageNo d.frameNo))
      else if d.dirty = true then
        let calls1 := w.calls ++ [FileCall.writePage d.file (w.mgr.page i)]
        match fl.writePage w.disk d.file (w.mgr.page i) with
        | none => ({ w with calls := calls1 }, .raise .FileFailure)
        | some disk1 =>
          let m1 := w.mgr.setDesc i { d with dirty := false }
          match m1.hashTable.remove file (m1.desc i).pageNo with
          | none => ({ mgr := m1, disk := disk1, calls := calls1 }, .raise .HashNotFound)
          | some ht =>
            let m2 : BufMgr := { m1 with hashTable := ht }
            flushFileLoop fl file rest
              { mgr := m2.setDesc i (m2.desc i).Clear, disk := disk1, calls := calls1 }
      else
        match w.mgr.hashTable.remove file d.pageNo with
        | none => (w, .raise .HashNotFound)
        | some ht =>
          let m2 : BufMgr := { w.mgr with hashTable := ht }
          flushFileLoop fl file rest { w with mgr := m2.setDesc i (m2.desc i).Clear }
    else flushFileLoop fl file rest w

/-- `BufMgr::flushFile`: the loop over `i = 0 .. numBufs - 1`. -/
def flushFile {D : Type} (fl : FileLayer D) (w : World D) (file : Nat) :
    World D × Outcome Unit :=
  flushFileLoop fl file (List.range w.mgr.numBufs) w

/-- `BufMgr::disposePage`: `Clear()`, `remove` and `deletePage` all sit inside
the `try`; the handler of `HashNotFoundException` returns. -/
def disposePage {D : Type} (fl : FileLayer D) (w : World D) (file : Nat) (PageNo : Nat) :
    World D × Outcome Unit :=
  match w.mgr.hashTable.lookup file PageNo with
  | none => (w, .ok ())
  | some frameNo =>
    let m1 := w.mgr.setDesc frameNo (w.mgr.desc frameNo).Clear
    match m1.hashTable.remove file PageNo with
    | none => ({ w with mgr := m1 }, .ok ())
    | some ht =>
      ({ mgr := { m1 with hashTable := ht }, disk := fl.deletePage w.disk file PageNo,
         calls := w.calls ++ [FileCall.deletePage file PageNo] }, .ok ())

/-! ## The data-model invariants of section 3, as predicates on a state -/

/-- The arrays have exactly `numBufs >= 1` slots (invariant 6). -/
def BufMgr.SizeOK (m : BufMgr) : Prop :=
  0 < m.numBufs ∧ m.bufDescTable.length = m.numBufs ∧ m.bufPool.length = m.numBufs

instance (m : BufMgr) : Decidable m.SizeOK := by
  unfold BufMgr.SizeOK; infer_instance

/-- Invariant 1, descriptor part: an unoccupied frame has `pinCnt = 0` and
`dirty = false`. -/
def BufMgr.Inv1 (m : BufMgr) : Prop :=
  ∀ i, i < m.numBufs → (m.desc i).valid = false → (m.desc i).pinCnt = 0 ∧ (m.desc i).dirty = false

instance (m : BufMgr) : Decidable m.Inv1 := by
  unfold BufMgr.Inv1; infer_instance

/-- Invariant 2: the index maps the key of every valid frame to that frame. -/
def BufMgr.Indexed (m : BufMgr) : Prop :=
  ∀ i, i < m.numBufs → (m.desc i).valid = true →
    m.hashTable.lookup (m.desc i).file (m.desc i).pageNo = some i

instance (m : BufMgr) : Decidable m.Indexed := by
  unfold BufMgr.Indexed; infer_instance

/-- Invariant 4: no two valid frames share the same `(file, pageNo)`. -/
def BufMgr.UniqueKeys (m : BufMgr) : Prop :=
  ∀ i, i < m.numBufs → ∀ j, j < m.numBufs →
    ((m.desc i).valid = true ∧ (m.desc j).valid = true ∧
      (m.desc i).file = (m.desc j).file ∧ (m.desc i).pageNo = (m.desc j).pageNo) → i = j

instance (m : BufMgr) : Decidable m.UniqueKeys := by
  unfold BufMgr.UniqueKeys; infer_instance

/-- Frame `i` is pinned. -/
def BufMgr.Pinned (m : BufMgr) (i : Nat) : Prop := 0 < (m.desc i).pinCnt

instance (m : BufMgr) (i : Nat) : Decidable (m.Pinned i) := by
  unfold BufMgr.Pinned; infer_instance

/-- Frame `i` may be taken by the sweep: unoccupied, or occupied and
unpinned. -/
def BufMgr.Evictable (m : BufMgr) (i : Nat) : Prop :=
  (m.desc i).valid = false ∨ ((m.desc i).valid = true ∧ (m.desc i).pinCnt = 0)

instance (m : BufMgr) (i : Nat) : Decidable (m.Evictable i) := by
  unfold BufMgr.Evictable; infer_instance

/-- Descriptor `d2` is `d1` up to a cleared `refbit`. -/
def BufDesc.SameButRef (d1 d2 : BufDesc) : Prop :=
  d2.file = d1.file ∧ d2.pageNo = d1.pageNo ∧ d2.frameNo = d1.frameNo ∧ d2.pinCnt = d1.pinCnt ∧
  d2.dirty = d1.dirty ∧ d2.valid = d1.valid ∧ (d2.refbit = true → d1.refbit = true)

/-- What a pinned frame `g` keeps from state `m` to state `m2`: its
descriptor up to a cleared `refbit`, its page contents, its index entry. -/
def BufMgr.Kept (m m2 : BufMgr) (g : Nat) : Prop :=
  (m.desc g).SameButRef (m2.desc g) ∧ m2.page g = m.page g ∧
  (⟨(m.desc g).file, (m.desc g).pageNo, g⟩ ∈ m.hashTable →
    ⟨(m.desc g).file, (m.desc g).pageNo, g⟩ ∈ m2.hashTable)

/-- The index still maps the key of frame `g`, as it stood in `m`, to `g`
in `m2` if it did in `m`. -/
def BufMgr.StillMapped (m m2 : BufMgr) (g : Nat) : Prop :=
  m.hashTable.lookup (m.desc g).file (m.desc g).pageNo = some g →
    m2.hashTable.lookup (m.desc g).file (m.desc g).pageNo = some g

/-! ## A small in-memory file store, to run the scenarios of section 8 -/

/-- Modelled from the spec: a file store holding `(file, page)` pairs, an
instance of the `File` contract of section 6. -/
def memFile : FileLayer (List (Nat × Page)) where
  readPage disk file pageNo :=
    (disk.find? (fun e => e.1 = file ∧ e.2.page_number = pageNo)).map (fun e => e.2)
  writePage disk file pg :=
    if disk.any (fun e => e.1 = file ∧ e.2.page_number = pg.page_number) then
      some ((file, pg) :: disk.filter (fun e => ¬ (e.1 = file ∧ e.2.page_number = pg.page_number)))
    else none
  allocatePage disk file :=
    let n := (disk.map (fun e => e.2.page_number)).foldl max 0 + 1
    (⟨n, []⟩, (file, ⟨n, []⟩) :: disk)
  deletePage disk file pageNo :=
    disk.filter (fun e => ¬ (e.1 = file ∧ e.2.page_number = pageNo))
  filename file := if file = 1 then "F" else "G"

/-- A fresh pool of `bufs` frames over the given file store. -/
def World.new {D : Type} (bufs : Nat) (disk : D) : World D :=
  { mgr := BufMgr.new bufs, disk := disk, calls := [] }

/-- File `F` (handle `1`) with pages 1, 2, 10, 20 and 30 on disk. -/
def diskF : List (Nat × Page) :=
  [(1, ⟨1, [11]⟩), (1, ⟨2, [22]⟩), (1, ⟨10, [100]⟩), (1, ⟨20, [200]⟩), (1, ⟨30, [300]⟩)]

/-! ## Relations between states and intermediate states used in the statements -/

/-- What the sweep may change between two states: only the hand, `accesses`,
cleared refbits and the index. -/
def BufMgr.SweepRel (m m2 : BufMgr) : Prop :=
  m2.numBufs = m.numBufs ∧ m2.bufPool = m.bufPool ∧
  m2.bufDescTable.length = m.bufDescTable.length ∧
  m2.bufStats.diskreads = m.bufStats.diskreads ∧
  m2.bufStats.diskwrites = m.bufStats.diskwrites ∧
  ∀ i, (m.desc i).SameButRef (m2.desc i)

/-- The state a frame is left in once a page has been placed in it:
contents, index entry, `Set`. -/
def fillFrame (m : BufMgr) (frameNo : Nat) (file : Nat) (pg : Page) (pageNo : Nat) :
    BufMgr :=
  let m2 := m.setPage frameNo pg
  let m3 : BufMgr := { m2 with hashTable := m2.hashTable.insert file pageNo frameNo }
  m3.setDesc frameNo ((m3.desc frameNo).Set file pageNo)

/-- The world `allocPage` hands to `allocBuf`: the page has been allocated
in the file. -/
def afterAllocate {D : Type} (fl : FileLayer D) (w : World D) (file : Nat) : World D :=
  { w with disk := (fl.allocatePage w.disk file).2,
           calls := w.calls ++ [FileCall.allocatePage file] }

/-- Every frame is occupied and pinned. -/
def BufMgr.AllPinned (m : BufMgr) : Prop :=
  ∀ i, i < m.numBufs → (m.desc i).valid = true ∧ 0 < (m.desc i).pinCnt

instance (m : BufMgr) : Decidable m.AllPinned := by
  unfold BufMgr.AllPinned; infer_instance

/-- The sweep stops on frame `i` if it visits it now: unoccupied, or
`refbit = false` and `pinCnt = 0`. -/
def BufMgr.Stoppable (m : BufMgr) (i : Nat) : Prop :=
  (m.desc i).valid = false ∨ ((m.desc i).refbit = false ∧ (m.desc i).pinCnt = 0)

/-- The index has an entry for the key of every valid frame, so that
`remove` on a victim succeeds. -/
def BufMgr.Removable (m : BufMgr) : Prop :=
  ∀ i, i < m.numBufs → (m.desc i).valid = true →
    m.hashTable.lookup (m.desc i).file (m.desc i).pageNo ≠ none

/-- The frame numbers stored in the index are frame numbers of the pool. -/
def BufMgr.IndexInRange (m : BufMgr) : Prop :=
  ∀ e, e ∈ m.hashTable → e.frameNo < m.numBufs

instance (m : BufMgr) : Decidable m.IndexInRange := by
  unfold BufMgr.IndexInRange; infer_instance

/-- The state `unPinPage` works on once the dirty flag has been applied. -/
def markDirty (m : BufMgr) (frameNo : Nat) (dirty : Bool) : BufMgr :=
  if dirty = true then m.setDesc frameNo { (m.desc frameNo) with dirty := true } else m

/-! ## States of the scenarios -/

/-- Scenario S3: a pool of one frame after `readPage(F, 1)`, page 1 still
pinned. -/
def poolOnePinned : World (List (Nat × Page)) :=
  (readPage memFile (World.new 1 diskF) 1 1).1

/-- A pool of two frames: frame 0 holds page 1 of `F`, pinned; frame 1 holds
page 2 of `F`, unpinned and dirty. -/
def poolPinnedAndDirty : World (List (Nat × Page)) :=
  (unPinPage memFile
    (readPage memFile (readPage memFile (World.new 2 diskF) 1 1).1 1 2).1 1 2 true).1

/-- The same pool over a file store that has lost its pages: the writeback
of page 2 fails. -/
def poolWriteFails : World (List (Nat × Page)) :=
  { poolPinnedAndDirty with disk := [] }

/-- The index is a mapping: no two entries have the same key. -/
def BufMgr.KeysDistinct (m : BufMgr) : Prop :=
  m.hashTable.Pairwise (fun a b => ¬ (a.file = b.file ∧ a.pageNo = b.pageNo))

instance (m : BufMgr) : Decidable m.KeysDistinct := by
  unfold BufMgr.KeysDistinct; infer_instance

/-- Scenario S6: `allocPage(F)` on a fresh pool, then `unPinPage(F, p, true)`:
page `p = 31` sits dirty and unpinned in frame 0. -/
def poolS6 : World (List (Nat × Page)) :=
  (unPinPage memFile (allocPage memFile (World.new 2 diskF) 1).1 1 31 true).1

/-- Index/descriptor consistency (invariants 1, 2 and 4 on the index side):
every index entry names a frame of the pool that is valid and holds the
entry's key, the index maps the key of every valid frame to that frame, and
no two entries have the same key. -/
def BufMgr.Coherent (m : BufMgr) : Prop :=
  (∀ e, e ∈ m.hashTable → e.frameNo < m.numBufs ∧ (m.desc e.frameNo).valid = true ∧
    (m.desc e.frameNo).file = e.file ∧ (m.desc e.frameNo).pageNo = e.pageNo) ∧
  m.Indexed ∧ m.KeysDistinct

instance (m : BufMgr) : Decidable m.Coherent := by
  unfold BufMgr.Coherent; infer_instance

/-- Frame `i` given up: its index entry dropped, its descriptor cleared. -/
def releaseFrame (m : BufMgr) (i : Nat) : BufMgr :=
  { m with hashTable := m.hashTable.filter (fun e => e.frameNo ≠ i),
           bufDescTable := m.bufDescTable.set i (m.desc i).Clear }

/-- The `writePage` calls a flush of `file` owes over `frames`: one per frame
that is owned by the file, valid and dirty, in order, with the contents of
that frame. -/
def flushWrites (m : BufMgr) (file : Nat) (frames : List Nat) : List FileCall :=
  (frames.filter (fun i =>
      decide ((m.desc i).file = file) && ((m.desc i).valid && (m.desc i).dirty))).map
    (fun i => FileCall.writePage file (m.page i))

/-- State `m2` is state `m` after the frames of `frames` owned by `file` have
been flushed: their descriptors cleared, their index entries dropped, nothing
else touched. -/
def BufMgr.FlushedTo (m : BufMgr) (file : Nat) (frames : List Nat) (m2 : BufMgr) : Prop :=
  (∀ g, m2.desc g =
    if g ∈ frames ∧ (m.desc g).file = file then (m.desc g).Clear else m.desc g) ∧
  m2.hashTable = m.hashTable.filter (fun e => ¬ (e.frameNo ∈ frames ∧ e.file = file)) ∧
  m2.bufPool = m.bufPool ∧ m2.clockHand = m.clockHand ∧ m2.bufStats = m.bufStats ∧
  m2.numBufs = m.numBufs

/-- No unoccupied descriptor names `file`: every frame owned by the file is
valid (otherwise `flushFile` raises `BadBuffer`). -/
def BufMgr.OwnedValid (m : BufMgr) (file : Nat) : Prop :=
  ∀ i, i < m.numBufs → (m.desc i).file = file → (m.desc i).valid = true

instance (m : BufMgr) (file : Nat) : Decidable (m.OwnedValid file) := by
  unfold BufMgr.OwnedValid; infer_instance

/-- No frame owned by `file` is pinned. -/
def BufMgr.NonePinned (m : BufMgr) (file : Nat) : Prop :=
  ∀ i, i < m.numBufs → (m.desc i).file = file → (m.desc i).pinCnt = 0

instance (m : BufMgr) (file : Nat) : Decidable (m.NonePinned file) := by
  unfold BufMgr.NonePinned; infer_instance

/-- Scenario S1: a pool of three frames, three `allocPage(F)` calls giving
pages 31, 32 and 33 in frames 0, 1 and 2, page 32 unpinned dirty, pages 31 and
33 unpinned clean. -/
def poolS1 : World (List (Nat × Page)) :=
  let w1 := (allocPage memFile (World.new 3 diskF) 1).1
  let w2 := (allocPage memFile w1 1).1
  let w3 := (allocPage memFile w2 1).1
  let w4 := (unPinPage memFile w3 1 32 true).1
  let w5 := (unPinPage memFile w4 1 31 false).1
  (unPinPage memFile w5 1 33 false).1

/-- Every descriptor carries its own index in `frameNo`. -/
def BufMgr.FrameNoOK (m : BufMgr) : Prop :=
  ∀ i, i < m.numBufs → (m.desc i).frameNo = i

instance (m : BufMgr) : Decidable m.FrameNoOK := by
  unfold BufMgr.FrameNoOK; infer_instance

/-- A pool of two frames: frame 0 holds page 1 of `F`, unpinned and dirty;
frame 1 holds page 2 of `F`, pinned. -/
def poolDirtyThenPinned : World (List (Nat × Page)) :=
  (readPage memFile
    (unPinPage memFile (readPage memFile (World.new 2 diskF) 1 1).1 1 1 true).1 1 2).1

/-- The number of descriptors whose refbit is set. -/
def BufMgr.refCount (m : BufMgr) : Nat := m.bufDescTable.countP (fun d => d.refbit)

instance (m : BufMgr) (i : Nat) : Decidable (m.Stoppable i) := by
  unfold BufMgr.Stoppable; infer_instance

/-- Rules 2 and 3 of section 4.C.1, as the specification words them: the
hand advances one step; a valid frame with its refbit set has the refbit
cleared and `accesses` incremented; a valid frame with refbit clear and
`pinCnt > 0` is left as it is; in both cases the sweep goes on. -/
def passOver (m : BufMgr) : BufMgr :=
  let m1 := advanceClock m
  let d := m1.desc m1.clockHand
  if d.valid = true ∧ d.refbit = true then
    { m1.setDesc m1.clockHand { d with refbit := false } with
      bufStats := { m1.bufStats with accesses := m1.bufStats.accesses + 1 } }
  else m1

/-- The state of the reference sweep at the moment of a visit: `passed`
frames have been passed over and the hand has advanced onto the next one. -/
def atVisit (m : BufMgr) (passed : Nat) : BufMgr := advanceClock (passOver^[passed] m)

/-- Scenario S2 before the last read: two frames, page 10 in frame 0 unpinned
clean, page 20 in frame 1 unpinned dirty. -/
def poolS2 : World (List (Nat × Page)) :=
  let w1 := (readPage memFile (World.new 2 diskF) 1 10).1
  let w2 := (unPinPage memFile w1 1 10 false).1
  let w3 := (readPage memFile w2 1 20).1
  (unPinPage memFile w3 1 20 true).1

/-- Modelled from the spec: a file store that can be read but not written (a
full or write-protected medium): every `writePage` fails, the other
operations are those of `memFile`. -/
def readOnlyFile : FileLayer (List (Nat × Page)) where
  readPage := memFile.readPage
  writePage _ _ _ := none
  allocatePage := memFile.allocatePage
  deletePage := memFile.deletePage
  filename := memFile.filename

/-- Invariants 2 and 3 of section 3 read together: a frame with
`valid = false` is named by no index entry, a frame with `valid = true` by
exactly one, whose key is the frame's own `(file, pageNo)`. -/
def BufMgr.IndexConsistent (m : BufMgr) : Prop :=
  ∀ i, i < m.numBufs →
    m.hashTable.filter (fun e => e.frameNo = i) =
      if (m.desc i).valid = true then [⟨(m.desc i).file, (m.desc i).pageNo, i⟩] else []

instance (m : BufMgr) : Decidable m.IndexConsistent := by
  unfold BufMgr.IndexConsistent; infer_instance

/-- One frame over the unwritable store: `readPage(F, 1)`, then
`unPinPage(F, 1, true)`; page 1 sits dirty and unpinned in frame 0. -/
def poolDirtyUnwritable : World (List (Nat × Page)) :=
  (unPinPage readOnlyFile (readPage readOnlyFile (World.new 1 diskF) 1 1).1 1 1 true).1

/-- Two frames over the unwritable store: `readPage(F, 1)`,
`unPinPage(F, 1, true)`, `readPage(F, 2)`; page 1 sits dirty and unpinned in
frame 0, page 2 pinned in frame 1. -/
def poolTwoUnwritable : World (List (Nat × Page)) :=
  let w1 := (readPage readOnlyFile (World.new 2 diskF) 1 1).1
  let w2 := (unPinPage readOnlyFile w1 1 1 true).1
  (readPage readOnlyFile w2 1 2).1

/-- The same pool after `readPage(F, 10)`, whose writeback of page 1 fails,
and `unPinPage(F, 2, false)`. -/
def poolAfterFailedWriteback : World (List (Nat × Page)) :=
  (unPinPage readOnlyFile (readPage readOnlyFile poolTwoUnwritable 1 10).1 1 2 false).1

instance (d1 d2 : BufDesc) : Decidable (d1.SameButRef d2) := by
  unfold BufDesc.SameButRef; infer_instance

instance (m m2 : BufMgr) (g : Nat) : Decidable (m.Kept m2 g) := by
  unfold BufMgr.Kept; infer_instance

instance (m m2 : BufMgr) (g : Nat) : Decidable (m.StillMapped m2 g) := by
  unfold BufMgr.StillMapped; infer_instance

/-- The pool of two frames after the failed writeback and the second load of
page 1: frame 0 holds page 1 valid, dirty, unpinned and unindexed; frame 1
holds page 1 again, pinned, with the only index entry. -/
def poolDuplicateKey : World (List (Nat × Page)) :=
  (readPage readOnlyFile poolAfterFailedWriteback 1 1).1

/-- The pool of two frames right after the failed writeback of page 1:
frame 0 holds page 1 valid, dirty, unpinned and unindexed; frame 1 holds
page 2, pinned. -/
def poolOrphanThenPinned : World (List (Nat × Page)) :=
  (readPage readOnlyFile poolTwoUnwritable 1 10).1

theorem desc_setDesc_self (m : BufMgr) (i : Nat) (d : BufDesc)
    (h : i < m.bufDescTable.length) : (m.setDesc i d).desc i = d := by
  simp [BufMgr.desc, BufMgr.setDesc, List.getD_eq_getElem?_getD, List.getElem?_set_self h]

theorem desc_setDesc_ne (m : BufMgr) (i j : Nat) (d : BufDesc) (h : i ≠ j) :
    (m.setDesc i d).desc j = m.desc j := by
  simp [BufMgr.desc, BufMgr.setDesc, List.getD_eq_getElem?_getD, List.getElem?_set_ne h]

theorem desc_setDesc_same (m : BufMgr) (i : Nat) :
    (m.setDesc i (m.desc i)).desc = m.desc := by
  funext j
  by_cases hij : i = j
  · subst hij
    by_cases h : i < m.bufDescTable.length
    · exact desc_setDesc_self m i _ h
    · have h2 : m.bufDescTable.length ≤ i := Nat.le_of_not_lt h
      simp [BufMgr.desc, BufMgr.setDesc, List.getD_eq_getElem?_getD,
        List.getElem?_eq_none, h2]
  · exact desc_setDesc_ne m i j _ hij

theorem page_setPage_self (m : BufMgr) (i : Nat) (p : Page)
    (h : i < m.bufPool.length) : (m.setPage i p).page i = p := by
  simp [BufMgr.page, BufMgr.setPage, List.getD_eq_getElem?_getD, List.getElem?_set_self h]

theorem page_setPage_ne (m : BufMgr) (i j : Nat) (p : Page) (h : i ≠ j) :
    (m.setPage i p).page j = m.page j := by
  simp [BufMgr.page, BufMgr.setPage, List.getD_eq_getElem?_getD, List.getElem?_set_ne h]

theorem desc_out_of_range (m : BufMgr) (i : Nat) (h : m.bufDescTable.length ≤ i) :
    m.desc i = default := by
  simp [BufMgr.desc, List.getD_eq_getElem?_getD, List.getElem?_eq_none h]

theorem sameButRef_refl (d : BufDesc) : d.SameButRef d :=
  ⟨rfl, rfl, rfl, rfl, rfl, rfl, id⟩

theorem sameButRef_trans {a b c : BufDesc} (h1 : a.SameButRef b) (h2 : b.SameButRef c) :
    a.SameButRef c := by
  obtain ⟨fl1, pg1, fr1, pin1, dt1, vd1, rf1⟩ := h1
  obtain ⟨fl2, pg2, fr2, pin2, dt2, vd2, rf2⟩ := h2
  refine ⟨?_, ?_, ?_, ?_, ?_, ?_, fun h => rf1 (rf2 h)⟩
  · rw [fl2, fl1]
  · rw [pg2, pg1]
  · rw [fr2, fr1]
  · rw [pin2, pin1]
  · rw [dt2, dt1]
  · rw [vd2, vd1]

/-! ## The page index -/

theorem lookup_insert_self (ht : BufHashTbl) (file : Nat) (pageNo : Nat) (f : Nat) :
    (ht.insert file pageNo f).lookup file pageNo = some f := by
  simp [BufHashTbl.insert, BufHashTbl.lookup]

theorem lookup_insert_ne (ht : BufHashTbl) (file file2 : Nat) (pageNo pageNo2 : Nat)
    (f : Nat) (h : ¬ (file = file2 ∧ pageNo = pageNo2)) :
    (ht.insert file pageNo f).lookup file2 pageNo2 = ht.lookup file2 pageNo2 := by
  simp [BufHashTbl.insert, BufHashTbl.lookup, h]

theorem remove_isSome_of_lookup (ht : BufHashTbl) (file : Nat) (pageNo : Nat)
    (h : ht.lookup file pageNo ≠ none) : ∃ ht2, ht.remove file pageNo = some ht2 := by
  induction ht with
  | nil => simp [BufHashTbl.lookup] at h
  | cons e es ih =>
    by_cases hk : e.file = file ∧ e.pageNo = pageNo
    · exact ⟨es, by simp [BufHashTbl.remove, hk]⟩
    · have h2 : BufHashTbl.lookup es file pageNo ≠ none := by
        simpa [BufHashTbl.lookup, hk] using h
      obtain ⟨r, hr⟩ := ih h2
      exact ⟨e :: r, by simp [BufHashTbl.remove, hk, hr]⟩

theorem lookup_remove_ne (ht ht2 : BufHashTbl) (file file2 : Nat) (pageNo pageNo2 : Nat)
    (hr : ht.remove file pageNo = some ht2) (h : ¬ (file = file2 ∧ pageNo = pageNo2)) :
    ht2.lookup file2 pageNo2 = ht.lookup file2 pageNo2 := by
  induction ht generalizing ht2 with
  | nil => simp [BufHashTbl.remove] at hr
  | cons e es ih =>
    by_cases hk : e.file = file ∧ e.pageNo = pageNo
    · have h2 : ¬ (e.file = file2 ∧ e.pageNo = pageNo2) := by
        rintro ⟨h3, h4⟩; exact h ⟨hk.1 ▸ h3, hk.2 ▸ h4⟩
      simp [BufHashTbl.remove, hk] at hr
      subst hr
      simp [BufHashTbl.lookup, h2]
    · simp only [BufHashTbl.remove, hk, if_false, Option.map_eq_some'] at hr
      obtain ⟨r, hr1, hr2⟩ := hr
      subst hr2
      by_cases h2 : e.file = file2 ∧ e.pageNo = pageNo2
      · simp [BufHashTbl.lookup, h2]
      · simp [BufHashTbl.lookup, h2, ih r hr1]

theorem mem_remove_ne (ht ht2 : BufHashTbl) (file : Nat) (pageNo : Nat) (e0 : HashEntry)
    (hr : ht.remove file pageNo = some ht2) (h : ¬ (e0.file = file ∧ e0.pageNo = pageNo))
    (hm : e0 ∈ ht) : e0 ∈ ht2 := by
  induction ht generalizing ht2 with
  | nil => simp [BufHashTbl.remove] at hr
  | cons e es ih =>
    by_cases hk : e.file = file ∧ e.pageNo = pageNo
    · simp [BufHashTbl.remove, hk] at hr
      subst hr
      rcases List.mem_cons.1 hm with h1 | h1
      · subst h1; exact absurd hk h
      · exact h1
    · simp only [BufHashTbl.remove, hk, if_false, Option.map_eq_some'] at hr
      obtain ⟨r, hr1, hr2⟩ := hr
      subst hr2
      rcases List.mem_cons.1 hm with h1 | h1
      · subst h1; exact List.mem_cons_self _ _
      · exact List.mem_cons_of_mem _ (ih r hr1 h1)

theorem sweepRel_refl (m : BufMgr) : m.SweepRel m :=
  ⟨rfl, rfl, rfl, rfl, rfl, fun _ => sameButRef_refl _⟩

theorem sweepRel_trans {a b c : BufMgr} (h1 : a.SweepRel b) (h2 : b.SweepRel c) :
    a.SweepRel c := by
  obtain ⟨nb, pool, len, rd, wr, ds⟩ := h1
  obtain ⟨nb2, pool2, len2, rd2, wr2, ds2⟩ := h2
  refine ⟨?_, ?_, ?_, ?_, ?_, fun i => sameButRef_trans (ds i) (ds2 i)⟩
  · rw [nb2, nb]
  · rw [pool2, pool]
  · rw [len2, len]
  · rw [rd2, rd]
  · rw [wr2, wr]

theorem sweepRel_advanceClock (m : BufMgr) : m.SweepRel (advanceClock m) :=
  ⟨rfl, rfl, rfl, rfl, rfl, fun _ => sameButRef_refl _⟩

theorem desc_clearRefbit_ne (m : BufMgr) (j : Nat) (h : m.clockHand ≠ j) :
    (clearRefbit m).desc j = m.desc j :=
  desc_setDesc_ne m m.clockHand j _ h

theorem desc_clearRefbit_self (m : BufMgr) (h : m.clockHand < m.bufDescTable.length) :
    (clearRefbit m).desc m.clockHand = { m.desc m.clockHand with refbit := false } :=
  desc_setDesc_self m m.clockHand _ h

theorem sweepRel_clearRefbit (m : BufMgr) : m.SweepRel (clearRefbit m) := by
  refine ⟨rfl, rfl, ?_, rfl, rfl, ?_⟩
  · simp [clearRefbit, BufMgr.setDesc]
  · intro i
    by_cases hi : m.clockHand = i
    · subst hi
      by_cases hlen : m.clockHand < m.bufDescTable.length
      · rw [desc_clearRefbit_self m hlen]
        exact ⟨rfl, rfl, rfl, rfl, rfl, rfl, by simp⟩
      · have h1 := desc_out_of_range m m.clockHand (Nat.le_of_not_lt hlen)
        have h2 : (clearRefbit m).desc m.clockHand = default :=
          desc_out_of_range _ _ (by simpa [clearRefbit, BufMgr.setDesc] using Nat.le_of_not_lt hlen)
        rw [h1, h2]
        exact sameButRef_refl _
    · rw [desc_clearRefbit_ne m i hi]
      exact sameButRef_refl _

theorem sweepRel_hashTable (m : BufMgr) (ht : BufHashTbl) :
    m.SweepRel { m with hashTable := ht } :=
  ⟨rfl, rfl, rfl, rfl, rfl, fun _ => sameButRef_refl _⟩

/-- The loop only moves the hand, counts accesses, clears refbits and edits
the index. -/
theorem allocBufLoop_sweepRel (fuel : Nat) (m : BufMgr) (n : Nat) :
    m.SweepRel (allocBufLoop fuel m n).1 := by
  induction fuel generalizing m n with
  | zero => exact sweepRel_refl m
  | succ fuel ih =>
    simp only [allocBufLoop]
    have h1 := sweepRel_advanceClock m
    have h2 := sweepRel_trans h1 (sweepRel_clearRefbit (advanceClock m))
    split_ifs
    · exact h1
    · exact sweepRel_trans h2 (ih _ _)
    · exact h2
    · split
      · exact h1
      · exact sweepRel_trans h1 (sweepRel_hashTable _ _)
    · exact sweepRel_trans h1 (ih _ _)
    · exact h1

/-- The loop never runs out of fuel when given `2 * numBufs + 1` of it. -/
theorem allocBufLoop_fuel (fuel : Nat) (m : BufMgr) (n : Nat) (h0 : 0 < fuel)
    (h : 2 * m.numBufs < fuel + n) :
    (allocBufLoop fuel m n).2 ≠ .raise .FuelExhausted := by
  induction fuel generalizing m n with
  | zero => omega
  | succ fuel ih =>
    simp only [allocBufLoop]
    split_ifs with h1 h2 h3 h4 h5
    · simp
    · have h6 : n + 1 < 2 * m.numBufs := h3
      exact ih _ _ (by omega) (by show 2 * m.numBufs < fuel + (n + 1); omega)
    · simp
    · split <;> simp
    · have h6 : n + 1 < 2 * m.numBufs := h5
      exact ih _ _ (by omega) (by show 2 * m.numBufs < fuel + (n + 1); omega)
    · simp

theorem clockHand_advanceClock_lt (m : BufMgr) (hN : 0 < m.numBufs) :
    (advanceClock m).clockHand < m.numBufs :=
  Nat.mod_lt _ hN

/-- A normal exit of the loop: the hand is on a frame, and either a victim
was taken (`isAvailable`, its index entry removed), or the frame under the
hand is unoccupied, or the two revolutions are used up. -/
theorem allocBufLoop_ok (fuel : Nat) (m : BufMgr) (n : Nat) (m2 : BufMgr) (n2 : Nat)
    (avail : Bool) (hN : 0 < m.numBufs)
    (h : allocBufLoop fuel m n = (m2, .ok (n2, avail))) :
    n < n2 ∧ m2.clockHand < m.numBufs ∧
    (avail = true → (m2.desc m2.clockHand).valid = true ∧ (m2.desc m2.clockHand).refbit = false ∧
      (m2.desc m2.clockHand).pinCnt = 0 ∧
      m.hashTable.remove (m2.desc m2.clockHand).file (m2.desc m2.clockHand).pageNo
        = some m2.hashTable) ∧
    (avail = false → m2.hashTable = m.hashTable ∧
      ((m2.desc m2.clockHand).valid = false ∨ 2 * m.numBufs ≤ n2)) := by
  induction fuel generalizing m n with
  | zero => simp [allocBufLoop] at h
  | succ fuel ih =>
    have hlt := clockHand_advanceClock_lt m hN
    simp only [allocBufLoop] at h
    split_ifs at h with h1 h2 h3 h4 h5
    · simp only [Prod.mk.injEq, Outcome.ok.injEq] at h
      obtain ⟨rfl, rfl, rfl⟩ := h
      exact ⟨Nat.lt_succ_self n, hlt, by simp, fun _ => ⟨rfl, Or.inl h1⟩⟩
    · obtain ⟨a, b, c, d⟩ := ih (clearRefbit (advanceClock m)) (n + 1) hN h
      exact ⟨by omega, b, c, d⟩
    · simp only [Prod.mk.injEq, Outcome.ok.injEq] at h
      obtain ⟨rfl, rfl, rfl⟩ := h
      refine ⟨Nat.lt_succ_self n, hlt, by simp, fun _ => ⟨rfl, Or.inr ?_⟩⟩
      have h6 : ¬ n + 1 < 2 * m.numBufs := h3
      omega
    · split at h
      · simp at h
      · rename_i ht hrem
        simp only [Prod.mk.injEq, Outcome.ok.injEq] at h
        obtain ⟨rfl, rfl, rfl⟩ := h
        refine ⟨Nat.lt_succ_self n, hlt, fun _ => ⟨?_, ?_, h4, hrem⟩, by simp⟩
        · simpa using h1
        · simpa using h2
    · obtain ⟨a, b, c, d⟩ := ih (advanceClock m) (n + 1) hN h
      exact ⟨by omega, b, c, d⟩
    · simp only [Prod.mk.injEq, Outcome.ok.injEq] at h
      obtain ⟨rfl, rfl, rfl⟩ := h
      refine ⟨Nat.lt_succ_self n, hlt, by simp, fun _ => ⟨rfl, Or.inr ?_⟩⟩
      have h6 : ¬ n + 1 < 2 * m.numBufs := h5
      omega

/-- An exceptional exit of the loop leaves the index as it was. -/
theorem allocBufLoop_raise (fuel : Nat) (m : BufMgr) (n : Nat) (m2 : BufMgr) (e : BufError)
    (h : allocBufLoop fuel m n = (m2, .raise e)) : m2.hashTable = m.hashTable := by
  induction fuel generalizing m n with
  | zero =>
    simp only [allocBufLoop, Prod.mk.injEq] at h
    rw [← h.1]
  | succ fuel ih =>
    simp only [allocBufLoop] at h
    split_ifs at h with h1 h2 h3 h4 h5
    · simp at h
    · exact ih (clearRefbit (advanceClock m)) (n + 1) h
    · simp at h
    · split at h
      · simp only [Prod.mk.injEq] at h
        rw [← h.1]; rfl
      · simp at h
    · exact ih (advanceClock m) (n + 1) h
    · simp at h

/-! ## `allocBuf` by cases -/

/-- The five ways through `allocBuf`, each with the state it leaves. -/
theorem allocBuf_cases {D : Type} (fl : FileLayer D) (w : World D) :
    ∃ m1 lr, allocBufLoop (2 * w.mgr.numBufs + 1) w.mgr 0 = (m1, lr) ∧
      ((∃ e, lr = .raise e ∧ allocBuf fl w = ({ w with mgr := m1 }, .raise e)) ∨
       (∃ n, lr = .ok (n, false) ∧ 2 * m1.numBufs ≤ n ∧
          allocBuf fl w = ({ w with mgr := m1 }, .raise .BufferExceeded)) ∨
       (∃ n avail, lr = .ok (n, avail) ∧ (n < 2 * m1.numBufs ∨ avail = true) ∧
          (m1.desc m1.clockHand).dirty = false ∧
          allocBuf fl w =
            ({ w with mgr := m1.setDesc m1.clockHand (m1.desc m1.clockHand).Clear },
              .ok m1.clockHand)) ∨
       (∃ n avail, lr = .ok (n, avail) ∧ (n < 2 * m1.numBufs ∨ avail = true) ∧
          (m1.desc m1.clockHand).dirty = true ∧
          fl.writePage w.disk (m1.desc m1.clockHand).file (m1.page m1.clockHand) = none ∧
          allocBuf fl w =
            ({ mgr := m1, disk := w.disk,
               calls := w.calls ++
                 [FileCall.writePage (m1.desc m1.clockHand).file (m1.page m1.clockHand)] },
              .raise .FileFailure)) ∨
       (∃ n avail disk1, lr = .ok (n, avail) ∧ (n < 2 * m1.numBufs ∨ avail = true) ∧
          (m1.desc m1.clockHand).dirty = true ∧
          fl.writePage w.disk (m1.desc m1.clockHand).file (m1.page m1.clockHand) = some disk1 ∧
          allocBuf fl w =
            ({ mgr := ({ m1 with bufStats :=
                    { m1.bufStats with diskwrites := m1.bufStats.diskwrites + 1 } } : BufMgr).setDesc
                  m1.clockHand (m1.desc m1.clockHand).Clear,
               disk := disk1,
               calls := w.calls ++
                 [FileCall.writePage (m1.desc m1.clockHand).file (m1.page m1.clockHand)] },
              .ok m1.clockHand))) := by
  rcases hl : allocBufLoop (2 * w.mgr.numBufs + 1) w.mgr 0 with ⟨m1, lr⟩
  refine ⟨m1, lr, rfl, ?_⟩
  cases lr with
  | raise e =>
    left
    exact ⟨e, rfl, by simp only [allocBuf, hl]⟩
  | ok a =>
    obtain ⟨n, avail⟩ := a
    right
    by_cases hex : n ≥ 2 * m1.numBufs ∧ avail = false
    · left
      obtain ⟨h1, h2⟩ := hex
      subst h2
      refine ⟨n, rfl, h1, ?_⟩
      simp only [allocBuf, hl]
      simp [h1]
    · right
      have hsel : n < 2 * m1.numBufs ∨ avail = true := by
        by_cases h3 : n < 2 * m1.numBufs
        · exact Or.inl h3
        · right
          cases avail with
          | true => rfl
          | false => exact absurd ⟨Nat.le_of_not_lt h3, rfl⟩ hex
      by_cases hd : (m1.desc m1.clockHand).dirty = true
      · right
        rcases hw : fl.writePage w.disk (m1.desc m1.clockHand).file (m1.page m1.clockHand) with
          _ | disk1
        · left
          refine ⟨n, avail, rfl, hsel, hd, rfl, ?_⟩
          simp only [allocBuf, hl, if_neg hex, if_pos hd, hw]
        · right
          refine ⟨n, avail, disk1, rfl, hsel, hd, rfl, ?_⟩
          simp only [allocBuf, hl, if_neg hex, if_pos hd, hw]
          rfl
      · left
        refine ⟨n, avail, rfl, hsel, by simpa using hd, ?_⟩
        simp only [allocBuf, hl, if_neg hex, if_neg hd]

theorem setDesc_length (m : BufMgr) (i : Nat) (d : BufDesc) :
    (m.setDesc i d).bufDescTable.length = m.bufDescTable.length := by
  simp [BufMgr.setDesc]

theorem clear_sameButRef {d1 d2 : BufDesc} (h : d1.SameButRef d2) : d2.Clear = d1.Clear := by
  obtain ⟨_, _, h3, _⟩ := h
  simp [BufDesc.Clear, h3]

/-- `allocBuf` never touches the frame pool, the sizes or `diskreads`. -/
theorem allocBuf_shape {D : Type} (fl : FileLayer D) (w : World D) :
    (allocBuf fl w).1.mgr.numBufs = w.mgr.numBufs ∧
    (allocBuf fl w).1.mgr.bufPool = w.mgr.bufPool ∧
    (allocBuf fl w).1.mgr.bufDescTable.length = w.mgr.bufDescTable.length ∧
    (allocBuf fl w).1.mgr.bufStats.diskreads = w.mgr.bufStats.diskreads := by
  obtain ⟨m1, lr, hl, hc⟩ := allocBuf_cases fl w
  have hrel : w.mgr.SweepRel m1 := by
    have := allocBufLoop_sweepRel (2 * w.mgr.numBufs + 1) w.mgr 0
    rwa [hl] at this
  obtain ⟨r1, r2, r3, r4, _, _⟩ := hrel
  rcases hc with ⟨e, _, h⟩ | ⟨n, _, _, h⟩ | ⟨n, avail, _, _, _, h⟩ | ⟨n, avail, _, _, _, _, h⟩ |
    ⟨n, avail, disk1, _, _, _, _, h⟩ <;> rw [h] <;>
    refine ⟨r1, r2, ?_, r4⟩ <;> first | exact r3 | (rw [setDesc_length]; exact r3)

/-- A successful `allocBuf` returns the frame under the hand, one that was
unoccupied or unpinned before the call, and leaves it cleared. -/
theorem allocBuf_ok {D : Type} (fl : FileLayer D) (w : World D) (f : Nat)
    (hS : w.mgr.SizeOK) (h : (allocBuf fl w).2 = .ok f) :
    f < w.mgr.numBufs ∧ (allocBuf fl w).1.mgr.clockHand = f ∧ w.mgr.Evictable f ∧
    (allocBuf fl w).1.mgr.desc f = (w.mgr.desc f).Clear := by
  obtain ⟨hN, hlen, _⟩ := hS
  obtain ⟨m1, lr, hl, hc⟩ := allocBuf_cases fl w
  have hrel : w.mgr.SweepRel m1 := by
    have := allocBufLoop_sweepRel (2 * w.mgr.numBufs + 1) w.mgr 0
    rwa [hl] at this
  obtain ⟨r1, r2, r3, r4, r5, r6⟩ := hrel
  have key : ∀ n avail, lr = .ok (n, avail) → (n < 2 * m1.numBufs ∨ avail = true) →
      m1.clockHand < w.mgr.numBufs ∧ w.mgr.Evictable m1.clockHand := by
    intro n avail hlr hsel
    rw [hlr] at hl
    obtain ⟨_, b, c, d⟩ := allocBufLoop_ok _ _ _ _ _ _ hN hl
    refine ⟨b, ?_⟩
    obtain ⟨_, _, _, s4, _, s6, _⟩ := r6 m1.clockHand
    cases avail with
    | true =>
      obtain ⟨c1, _, c3, _⟩ := c rfl
      exact Or.inr ⟨by rw [← s6]; exact c1, by rw [← s4]; exact c3⟩
    | false =>
      rcases (d rfl).2 with d1 | d1
      · exact Or.inl (by rw [← s6]; exact d1)
      · rcases hsel with h1 | h1
        · rw [r1] at h1; omega
        · simp at h1
  rcases hc with ⟨e, _, h2⟩ | ⟨n, _, _, h2⟩ | ⟨n, avail, hlr, hsel, _, h2⟩ |
    ⟨n, avail, _, _, _, _, h2⟩ | ⟨n, avail, disk1, hlr, hsel, _, _, h2⟩
  · rw [h2] at h; simp at h
  · rw [h2] at h; simp at h
  · rw [h2] at h ⊢
    simp only [Outcome.ok.injEq] at h
    subst h
    obtain ⟨k1, k2⟩ := key n avail hlr hsel
    refine ⟨k1, rfl, k2, ?_⟩
    show (m1.setDesc m1.clockHand _).desc m1.clockHand = _
    rw [desc_setDesc_self _ _ _ (by rw [r3, hlen]; exact k1)]
    exact clear_sameButRef (r6 m1.clockHand)
  · rw [h2] at h; simp at h
  · rw [h2] at h ⊢
    simp only [Outcome.ok.injEq] at h
    subst h
    obtain ⟨k1, k2⟩ := key n avail hlr hsel
    refine ⟨k1, rfl, k2, ?_⟩
    show (BufMgr.setDesc _ m1.clockHand _).desc m1.clockHand = _
    rw [desc_setDesc_self _ _ _ (by show m1.clockHand < m1.bufDescTable.length; rw [r3, hlen]; exact k1)]
    exact clear_sameButRef (r6 m1.clockHand)

/-- Every descriptor but the returned one survives `allocBuf` up to a
cleared refbit; the index is untouched or loses the entry of one frame that
was valid and unpinned. -/
theorem allocBuf_effect {D : Type} (fl : FileLayer D) (w : World D) (hS : w.mgr.SizeOK) :
    (∀ g, (allocBuf fl w).2 ≠ .ok g →
      (w.mgr.desc g).SameButRef ((allocBuf fl w).1.mgr.desc g)) ∧
    ((allocBuf fl w).1.mgr.hashTable = w.mgr.hashTable ∨
      ∃ f, f < w.mgr.numBufs ∧ (w.mgr.desc f).valid = true ∧ (w.mgr.desc f).pinCnt = 0 ∧
        w.mgr.hashTable.remove (w.mgr.desc f).file (w.mgr.desc f).pageNo
          = some (allocBuf fl w).1.mgr.hashTable) := by
  obtain ⟨hN, hlen, _⟩ := hS
  obtain ⟨m1, lr, hl, hc⟩ := allocBuf_cases fl w
  have hrel : w.mgr.SweepRel m1 := by
    have := allocBufLoop_sweepRel (2 * w.mgr.numBufs + 1) w.mgr 0
    rwa [hl] at this
  obtain ⟨r1, r2, r3, r4, r5, r6⟩ := hrel
  have hht : m1.hashTable = w.mgr.hashTable ∨
      ∃ f, f < w.mgr.numBufs ∧ (w.mgr.desc f).valid = true ∧ (w.mgr.desc f).pinCnt = 0 ∧
        w.mgr.hashTable.remove (w.mgr.desc f).file (w.mgr.desc f).pageNo
          = some m1.hashTable := by
    cases lr with
    | raise e => exact Or.inl (allocBufLoop_raise _ _ _ _ _ hl)
    | ok a =>
      obtain ⟨n, avail⟩ := a
      obtain ⟨_, b, c, d⟩ := allocBufLoop_ok _ _ _ _ _ _ hN hl
      cases avail with
      | false => exact Or.inl (d rfl).1
      | true =>
        obtain ⟨c1, _, c3, c4⟩ := c rfl
        obtain ⟨s1, s2, _, s4, _, s6, _⟩ := r6 m1.clockHand
        exact Or.inr ⟨m1.clockHand, b, by rw [← s6]; exact c1, by rw [← s4]; exact c3,
          by rw [← s1, ← s2]; exact c4⟩
  have hother : ∀ g, m1.clockHand ≠ g → ∀ d,
      (w.mgr.desc g).SameButRef ((m1.setDesc m1.clockHand d).desc g) := by
    intro g hg d
    rw [desc_setDesc_ne _ _ _ _ hg]
    exact r6 g
  rcases hc with ⟨e, _, h⟩ | ⟨n, _, _, h⟩ | ⟨n, avail, _, _, _, h⟩ | ⟨n, avail, _, _, _, _, h⟩ |
    ⟨n, avail, disk1, _, _, _, _, h⟩ <;> rw [h]
  · exact ⟨fun g _ => r6 g, hht⟩
  · exact ⟨fun g _ => r6 g, hht⟩
  · refine ⟨fun g hg => hother g (fun h2 => hg (by rw [h2])) _, hht⟩
  · exact ⟨fun g _ => r6 g, hht⟩
  · refine ⟨fun g hg => ?_, hht⟩
    have hne : m1.clockHand ≠ g := fun h2 => hg (by rw [h2])
    show (w.mgr.desc g).SameButRef ((BufMgr.setDesc _ m1.clockHand _).desc g)
    rw [desc_setDesc_ne _ _ _ _ hne]
    exact r6 g

theorem pinned_lt (m : BufMgr) (g : Nat) (hS : m.SizeOK) (hp : m.Pinned g) :
    g < m.numBufs := by
  by_contra hge
  have h2 : m.desc g = default := desc_out_of_range m g (by rw [hS.2.1]; exact Nat.le_of_not_lt hge)
  unfold BufMgr.Pinned at hp
  rw [h2] at hp
  exact absurd hp (by decide)

theorem pinned_valid (m : BufMgr) (g : Nat) (hS : m.SizeOK) (h1 : m.Inv1)
    (hp : m.Pinned g) : (m.desc g).valid = true := by
  by_contra hv
  have h2 := (h1 g (pinned_lt m g hS hp) (by simpa using hv)).1
  unfold BufMgr.Pinned at hp
  omega

theorem pinned_not_evictable (m : BufMgr) (g : Nat) (hS : m.SizeOK) (h1 : m.Inv1)
    (hp : m.Pinned g) : ¬ m.Evictable g := by
  have hv := pinned_valid m g hS h1 hp
  unfold BufMgr.Pinned at hp
  rintro (h | ⟨_, h⟩)
  · rw [hv] at h; exact absurd h (by decide)
  · omega

/-- A pinned frame keeps its descriptor (up to the refbit), its contents
and its index entry across `allocBuf`, whatever the outcome. -/
theorem allocBuf_kept {D : Type} (fl : FileLayer D) (w : World D) (g : Nat)
    (hS : w.mgr.SizeOK) (h1 : w.mgr.Inv1) (h4 : w.mgr.UniqueKeys) (hp : w.mgr.Pinned g) :
    w.mgr.Kept (allocBuf fl w).1.mgr g ∧
    (allocBuf fl w).1.mgr.hashTable.lookup (w.mgr.desc g).file (w.mgr.desc g).pageNo
      = w.mgr.hashTable.lookup (w.mgr.desc g).file (w.mgr.desc g).pageNo := by
  obtain ⟨e1, e2⟩ := allocBuf_effect fl w hS
  have hne : (allocBuf fl w).2 ≠ .ok g := fun h =>
    pinned_not_evictable w.mgr g hS h1 hp (allocBuf_ok fl w g hS h).2.2.1
  have hpage : (allocBuf fl w).1.mgr.page g = w.mgr.page g := by
    unfold BufMgr.page
    rw [(allocBuf_shape fl w).2.1]
  rcases e2 with e2 | ⟨f, hf, hfv, hfp, hrem⟩
  · refine ⟨⟨e1 g hne, hpage, ?_⟩, ?_⟩
    · rw [e2]; exact id
    · rw [e2]
  · have hkey : ¬ ((w.mgr.desc f).file = (w.mgr.desc g).file ∧
        (w.mgr.desc f).pageNo = (w.mgr.desc g).pageNo) := by
      rintro ⟨k1, k2⟩
      have hfg := h4 f hf g (pinned_lt w.mgr g hS hp) ⟨hfv, pinned_valid w.mgr g hS h1 hp, k1, k2⟩
      subst hfg
      unfold BufMgr.Pinned at hp
      omega
    refine ⟨⟨e1 g hne, hpage, fun hm => ?_⟩, ?_⟩
    · refine mem_remove_ne _ _ _ _ _ hrem ?_ hm
      rintro ⟨k1, k2⟩
      exact hkey ⟨k1.symm, k2.symm⟩
    · exact lookup_remove_ne _ _ _ _ _ _ hrem hkey

/-- The three ways through the miss path of `readPage`. -/
theorem readPage_miss_cases {D : Type} (fl : FileLayer D) (w : World D) (file : Nat)
    (pageNo : Nat) (hmiss : w.mgr.hashTable.lookup file pageNo = none) :
    (∃ e, (allocBuf fl w).2 = .raise e ∧
      readPage fl w file pageNo = ((allocBuf fl w).1, .raise e)) ∨
    (∃ f, (allocBuf fl w).2 = .ok f ∧ fl.readPage (allocBuf fl w).1.disk file pageNo = none ∧
      readPage fl w file pageNo =
        ({ (allocBuf fl w).1 with
            calls := (allocBuf fl w).1.calls ++ [FileCall.readPage file pageNo] },
          .raise .FileFailure)) ∨
    (∃ f pg, (allocBuf fl w).2 = .ok f ∧
      fl.readPage (allocBuf fl w).1.disk file pageNo = some pg ∧
      readPage fl w file pageNo =
        ({ mgr := fillFrame
              { (allocBuf fl w).1.mgr with bufStats :=
                  { (allocBuf fl w).1.mgr.bufStats with
                    diskreads := (allocBuf fl w).1.mgr.bufStats.diskreads + 1 } }
              f file pg pageNo,
           disk := (allocBuf fl w).1.disk,
           calls := (allocBuf fl w).1.calls ++ [FileCall.readPage file pageNo] },
          .ok f)) := by
  rcases hab : allocBuf fl w with ⟨w1, r⟩
  cases r with
  | raise e =>
    left
    exact ⟨e, rfl, by simp only [readPage, hmiss, hab]⟩
  | ok f =>
    right
    rcases hrd : fl.readPage w1.disk file pageNo with _ | pg
    · left
      exact ⟨f, rfl, rfl, by simp only [readPage, hmiss, hab, hrd]⟩
    · right
      refine ⟨f, pg, rfl, rfl, ?_⟩
      simp only [readPage, hmiss, hab, hrd]
      rfl

/-- The two ways through `allocPage`. -/
theorem allocPage_cases {D : Type} (fl : FileLayer D) (w : World D) (file : Nat) :
    (∃ e, (allocBuf fl (afterAllocate fl w file)).2 = .raise e ∧
      allocPage fl w file = ((allocBuf fl (afterAllocate fl w file)).1, .raise e)) ∨
    (∃ f, (allocBuf fl (afterAllocate fl w file)).2 = .ok f ∧
      allocPage fl w file =
        ({ (allocBuf fl (afterAllocate fl w file)).1 with
            mgr := fillFrame (allocBuf fl (afterAllocate fl w file)).1.mgr f file
              (fl.allocatePage w.disk file).1 (fl.allocatePage w.disk file).1.page_number },
          .ok ((fl.allocatePage w.disk file).1.page_number, f))) := by
  rcases hab : allocBuf fl (afterAllocate fl w file) with ⟨w1, r⟩
  have hab2 : allocBuf fl ⟨w.mgr, (fl.allocatePage w.disk file).2,
      w.calls ++ [FileCall.allocatePage file]⟩ = (w1, r) := hab
  cases r with
  | raise e =>
    left
    exact ⟨e, rfl, by simp only [allocPage, hab2]⟩
  | ok f =>
    right
    refine ⟨f, rfl, ?_⟩
    simp only [allocPage, hab2]
    rfl

/-- Filling frame `f` leaves every other frame as it was and only adds to
the index. -/
theorem fillFrame_other (m : BufMgr) (f g : Nat) (file : Nat) (pg : Page)
    (pageNo : Nat) (hne : f ≠ g) :
    (fillFrame m f file pg pageNo).desc g = m.desc g ∧
    (fillFrame m f file pg pageNo).page g = m.page g ∧
    ∀ e, e ∈ m.hashTable → e ∈ (fillFrame m f file pg pageNo).hashTable := by
  refine ⟨?_, ?_, ?_⟩
  · unfold fillFrame
    exact desc_setDesc_ne _ _ _ _ hne
  · exact page_setPage_ne m f g pg hne
  · intro e he
    exact List.mem_cons_of_mem _ he

/-- The frame just filled: its descriptor, its contents, its index entry. -/
theorem fillFrame_self (m : BufMgr) (f : Nat) (file : Nat) (pg : Page)
    (pageNo : Nat) (h1 : f < m.bufDescTable.length) (h2 : f < m.bufPool.length) :
    (fillFrame m f file pg pageNo).desc f = (m.desc f).Set file pageNo ∧
    (fillFrame m f file pg pageNo).page f = pg ∧
    (fillFrame m f file pg pageNo).hashTable.lookup file pageNo = some f := by
  refine ⟨?_, ?_, ?_⟩
  · unfold fillFrame
    exact desc_setDesc_self _ _ _ h1
  · exact page_setPage_self m f pg h2
  · exact lookup_insert_self _ _ _ _

theorem kept_mono {m m1 m2 : BufMgr} {g : Nat} (h : m.Kept m1 g)
    (hd : m2.desc g = m1.desc g) (hp : m2.page g = m1.page g)
    (hh : ∀ e, e ∈ m1.hashTable → e ∈ m2.hashTable) : m.Kept m2 g := by
  obtain ⟨k1, k2, k3⟩ := h
  exact ⟨by rw [hd]; exact k1, by rw [hp]; exact k2, fun hm => hh _ (k3 hm)⟩

/-- Pinned frames across the miss path of `readPage`. -/
theorem readPage_miss_kept {D : Type} (fl : FileLayer D) (w : World D) (file : Nat)
    (pageNo : Nat) (hS : w.mgr.SizeOK) (h1 : w.mgr.Inv1) (h4 : w.mgr.UniqueKeys)
    (hmiss : w.mgr.hashTable.lookup file pageNo = none) :
    (∀ f, (readPage fl w file pageNo).2 = .ok f → w.mgr.Evictable f) ∧
    (∀ g, w.mgr.Pinned g → w.mgr.Kept (readPage fl w file pageNo).1.mgr g) := by
  rcases readPage_miss_cases fl w file pageNo hmiss with ⟨e, _, h⟩ | ⟨f, _, _, h⟩ |
    ⟨f, pg, hok, _, h⟩ <;> rw [h]
  · exact ⟨fun f hf => by simp at hf, fun g hg => (allocBuf_kept fl w g hS h1 h4 hg).1⟩
  · exact ⟨fun f hf => by simp at hf, fun g hg => (allocBuf_kept fl w g hS h1 h4 hg).1⟩
  · have hev := (allocBuf_ok fl w f hS hok).2.2.1
    refine ⟨fun f2 hf => ?_, fun g hg => ?_⟩
    · simp only [Outcome.ok.injEq] at hf
      subst hf
      exact hev
    · have hne : f ≠ g := by
        rintro rfl
        exact pinned_not_evictable w.mgr f hS h1 hg hev
      obtain ⟨o1, o2, o3⟩ := fillFrame_other
        { (allocBuf fl w).1.mgr with bufStats :=
            { (allocBuf fl w).1.mgr.bufStats with
              diskreads := (allocBuf fl w).1.mgr.bufStats.diskreads + 1 } } f g file pg pageNo hne
      exact kept_mono (allocBuf_kept fl w g hS h1 h4 hg).1 o1 o2 o3

/-- Pinned frames across `allocPage`. -/
theorem allocPage_kept {D : Type} (fl : FileLayer D) (w : World D) (file : Nat)
    (hS : w.mgr.SizeOK) (h1 : w.mgr.Inv1) (h4 : w.mgr.UniqueKeys) :
    (∀ p f, (allocPage fl w file).2 = .ok (p, f) → w.mgr.Evictable f) ∧
    (∀ g, w.mgr.Pinned g → w.mgr.Kept (allocPage fl w file).1.mgr g) := by
  have hS2 : (afterAllocate fl w file).mgr.SizeOK := hS
  have h12 : (afterAllocate fl w file).mgr.Inv1 := h1
  have h42 : (afterAllocate fl w file).mgr.UniqueKeys := h4
  rcases allocPage_cases fl w file with ⟨e, _, h⟩ | ⟨f, hok, h⟩ <;> rw [h]
  · exact ⟨fun p f hf => by simp at hf,
      fun g hg => (allocBuf_kept fl (afterAllocate fl w file) g hS2 h12 h42 hg).1⟩
  · have hev : w.mgr.Evictable f := (allocBuf_ok fl (afterAllocate fl w file) f hS2 hok).2.2.1
    refine ⟨fun p f2 hf => ?_, fun g hg => ?_⟩
    · simp only [Outcome.ok.injEq, Prod.mk.injEq] at hf
      rw [← hf.2]
      exact hev
    · have hne : f ≠ g := by
        rintro rfl
        exact pinned_not_evictable w.mgr f hS h1 hg hev
      obtain ⟨o1, o2, o3⟩ := fillFrame_other (allocBuf fl (afterAllocate fl w file)).1.mgr f g
        file (fl.allocatePage w.disk file).1 (fl.allocatePage w.disk file).1.page_number hne
      exact kept_mono (allocBuf_kept fl (afterAllocate fl w file) g hS2 h12 h42 hg).1 o1 o2 o3

/-- The index keeps mapping the key of a pinned frame to it across the miss
path of `readPage`. -/
theorem readPage_miss_mapped {D : Type} (fl : FileLayer D) (w : World D) (file : Nat)
    (pageNo : Nat) (g : Nat) (hS : w.mgr.SizeOK) (h1 : w.mgr.Inv1) (h4 : w.mgr.UniqueKeys)
    (hmiss : w.mgr.hashTable.lookup file pageNo = none) (hg : w.mgr.Pinned g) :
    w.mgr.StillMapped (readPage fl w file pageNo).1.mgr g := by
  intro hmap
  have hab := (allocBuf_kept fl w g hS h1 h4 hg).2
  rcases readPage_miss_cases fl w file pageNo hmiss with ⟨e, _, h⟩ | ⟨f, _, _, h⟩ |
    ⟨f, pg, hok, _, h⟩ <;> rw [h]
  · rw [hab]; exact hmap
  · show (allocBuf fl w).1.mgr.hashTable.lookup _ _ = some g
    rw [hab]; exact hmap
  · show BufHashTbl.lookup (BufHashTbl.insert (allocBuf fl w).1.mgr.hashTable file pageNo f)
      (w.mgr.desc g).file (w.mgr.desc g).pageNo = some g
    rw [lookup_insert_ne, hab]
    · exact hmap
    · rintro ⟨k1, k2⟩
      rw [← k1, ← k2, hmiss] at hmap
      exact absurd hmap (by simp)

/-- The index keeps mapping the key of a pinned frame to it across
`allocPage`, when the page number handed out by the file is not buffered. -/
theorem allocPage_mapped {D : Type} (fl : FileLayer D) (w : World D) (file : Nat) (g : Nat)
    (hS : w.mgr.SizeOK) (h1 : w.mgr.Inv1) (h4 : w.mgr.UniqueKeys)
    (hfresh : w.mgr.hashTable.lookup file (fl.allocatePage w.disk file).1.page_number = none)
    (hg : w.mgr.Pinned g) : w.mgr.StillMapped (allocPage fl w file).1.mgr g := by
  intro hmap
  have hab : (allocBuf fl (afterAllocate fl w file)).1.mgr.hashTable.lookup
      (w.mgr.desc g).file (w.mgr.desc g).pageNo
      = w.mgr.hashTable.lookup (w.mgr.desc g).file (w.mgr.desc g).pageNo :=
    (allocBuf_kept fl (afterAllocate fl w file) g hS h1 h4 hg).2
  rcases allocPage_cases fl w file with ⟨e, _, h⟩ | ⟨f, hok, h⟩ <;> rw [h]
  · rw [hab]; exact hmap
  · show BufHashTbl.lookup (BufHashTbl.insert (allocBuf fl (afterAllocate fl w file)).1.mgr.hashTable
      file (fl.allocatePage w.disk file).1.page_number f)
      (w.mgr.desc g).file (w.mgr.desc g).pageNo = some g
    rw [lookup_insert_ne, hab]
    · exact hmap
    · rintro ⟨k1, k2⟩
      rw [← k1, ← k2, hfresh] at hmap
      exact absurd hmap (by simp)

/-- `allocBuf` always comes back: the fuel given to its loop is never used
up. -/
theorem allocBuf_total {D : Type} (fl : FileLayer D) (w : World D) :
    (allocBuf fl w).2 ≠ .raise .FuelExhausted := by
  obtain ⟨m1, lr, hl, hc⟩ := allocBuf_cases fl w
  rcases hc with ⟨e, hlr, h⟩ | ⟨n, _, _, h⟩ | ⟨n, avail, _, _, _, h⟩ |
    ⟨n, avail, _, _, _, _, h⟩ | ⟨n, avail, disk1, _, _, _, _, h⟩ <;> rw [h]
  · intro he
    simp only [Outcome.raise.injEq] at he
    subst he
    have hf := allocBufLoop_fuel (2 * w.mgr.numBufs + 1) w.mgr 0 (by omega) (by omega)
    rw [hl, hlr] at hf
    exact hf rfl
  all_goals simp

/-! ## The claims, each after the lemmas it rests on -/

/-- Pinned frames under key uniqueness.  In a state that satisfies the
data-model invariants, key uniqueness included, whenever `allocBuf` returns frame `f`,
directly, in the miss path of `readPage` or in `allocPage`, `f` was unoccupied
or occupied with `pinCnt = 0` before the call; and whatever the outcome of the
call, every frame that had `pinCnt > 0` keeps its file, pageNo, pinCnt, dirty,
valid, its page contents and its index entry (its refbit may only have been
cleared).  The entry stays in the index, and the index keeps mapping the key
to the frame (for `allocPage`, when the file hands out a page number that is
not buffered). -/
theorem pinned_frame_never_victim {D : Type} (fl : FileLayer D) (w : World D) (file : Nat)
    (pageNo : Nat) (hS : w.mgr.SizeOK) (h1 : w.mgr.Inv1) (h4 : w.mgr.UniqueKeys) :
    ((∀ f, (allocBuf fl w).2 = .ok f → w.mgr.Evictable f) ∧
      (∀ g, w.mgr.Pinned g → w.mgr.Kept (allocBuf fl w).1.mgr g ∧
        w.mgr.StillMapped (allocBuf fl w).1.mgr g)) ∧
    (w.mgr.hashTable.lookup file pageNo = none →
      (∀ f, (readPage fl w file pageNo).2 = .ok f → w.mgr.Evictable f) ∧
      (∀ g, w.mgr.Pinned g → w.mgr.Kept (readPage fl w file pageNo).1.mgr g ∧
        w.mgr.StillMapped (readPage fl w file pageNo).1.mgr g)) ∧
    ((∀ p f, (allocPage fl w file).2 = .ok (p, f) → w.mgr.Evictable f) ∧
      (∀ g, w.mgr.Pinned g → w.mgr.Kept (allocPage fl w file).1.mgr g ∧
        (w.mgr.hashTable.lookup file (fl.allocatePage w.disk file).1.page_number = none →
          w.mgr.StillMapped (allocPage fl w file).1.mgr g))) :=
  ⟨⟨fun f hf => (allocBuf_ok fl w f hS hf).2.2.1,
      fun g hg => ⟨(allocBuf_kept fl w g hS h1 h4 hg).1,
        fun hmap => by rw [(allocBuf_kept fl w g hS h1 h4 hg).2]; exact hmap⟩⟩,
    fun hmiss => ⟨(readPage_miss_kept fl w file pageNo hS h1 h4 hmiss).1,
      fun g hg => ⟨(readPage_miss_kept fl w file pageNo hS h1 h4 hmiss).2 g hg,
        readPage_miss_mapped fl w file pageNo g hS h1 h4 hmiss hg⟩⟩,
    (allocPage_kept fl w file hS h1 h4).1,
    fun g hg => ⟨(allocPage_kept fl w file hS h1 h4).2 g hg,
      fun hfresh => allocPage_mapped fl w file g hS h1 h4 hfresh hg⟩⟩

theorem allPinned_sweep {m m2 : BufMgr} (h : m.AllPinned) (hr : m.SweepRel m2) :
    m2.AllPinned := by
  intro i hi
  obtain ⟨r1, _, _, _, _, r6⟩ := hr
  obtain ⟨_, _, _, s4, _, s6, _⟩ := r6 i
  rw [s4, s6]
  exact h i (by rw [← r1]; exact hi)

/-- With every frame occupied and pinned the loop runs its two revolutions
and leaves with `numFrame = 2 * numBufs` and no frame. -/
theorem allocBufLoop_allPinned (fuel : Nat) (m : BufMgr) (n : Nat) (hN : 0 < m.numBufs)
    (hall : m.AllPinned) (hn : n < 2 * m.numBufs) (hf : 2 * m.numBufs ≤ fuel + n) :
    ∃ m2, allocBufLoop fuel m n = (m2, .ok (2 * m.numBufs, false)) := by
  induction fuel generalizing m n with
  | zero => omega
  | succ fuel ih =>
    have hlt := clockHand_advanceClock_lt m hN
    obtain ⟨hv, hp⟩ := hall (advanceClock m).clockHand hlt
    have hv1 : ¬ ((advanceClock m).desc (advanceClock m).clockHand).valid = false := by
      rw [show ((advanceClock m).desc (advanceClock m).clockHand).valid = true from hv]
      decide
    have hp1 : ¬ ((advanceClock m).desc (advanceClock m).clockHand).pinCnt = 0 :=
      Nat.pos_iff_ne_zero.1 hp
    have ha1 : (advanceClock m).AllPinned := allPinned_sweep hall (sweepRel_advanceClock m)
    have ha2 : (clearRefbit (advanceClock m)).AllPinned :=
      allPinned_sweep ha1 (sweepRel_clearRefbit _)
    simp only [allocBufLoop]
    rw [if_neg hv1]
    by_cases h2 : ((advanceClock m).desc (advanceClock m).clockHand).refbit = true
    · rw [if_pos h2]
      by_cases h3 : n + 1 < 2 * m.numBufs
      · rw [if_pos (show n + 1 < 2 * (clearRefbit (advanceClock m)).numBufs from h3)]
        exact ih _ _ hN ha2 h3 (by show 2 * m.numBufs ≤ fuel + (n + 1); omega)
      · rw [if_neg (show ¬ n + 1 < 2 * (clearRefbit (advanceClock m)).numBufs from h3)]
        have h7 : n + 1 = 2 * m.numBufs := by omega
        exact ⟨_, by rw [h7]⟩
    · rw [if_neg h2, if_neg hp1]
      by_cases h3 : n + 1 < 2 * m.numBufs
      · rw [if_pos (show n + 1 < 2 * (advanceClock m).numBufs from h3)]
        exact ih _ _ hN ha1 h3 (by show 2 * m.numBufs ≤ fuel + (n + 1); omega)
      · rw [if_neg (show ¬ n + 1 < 2 * (advanceClock m).numBufs from h3)]
        have h7 : n + 1 = 2 * m.numBufs := by omega
        exact ⟨_, by rw [h7]⟩

/-- With every frame occupied and pinned `allocBuf` raises
`BufferExceeded`. -/
theorem allocBuf_allPinned {D : Type} (fl : FileLayer D) (w : World D) (hN : 0 < w.mgr.numBufs)
    (hall : w.mgr.AllPinned) : (allocBuf fl w).2 = .raise .BufferExceeded := by
  obtain ⟨m2, hl⟩ := allocBufLoop_allPinned (2 * w.mgr.numBufs + 1) w.mgr 0 hN hall
    (by omega) (by omega)
  have hrel : w.mgr.SweepRel m2 := by
    have := allocBufLoop_sweepRel (2 * w.mgr.numBufs + 1) w.mgr 0
    rwa [hl] at this
  simp [allocBuf, hl, hrel.1]

theorem readPage_miss_raise {D : Type} (fl : FileLayer D) (w : World D) (file : Nat)
    (pageNo : Nat) (e : BufError) (hmiss : w.mgr.hashTable.lookup file pageNo = none)
    (h : (allocBuf fl w).2 = .raise e) : (readPage fl w file pageNo).2 = .raise e := by
  rcases readPage_miss_cases fl w file pageNo hmiss with ⟨e2, h2, h3⟩ | ⟨f, h2, _, _⟩ |
    ⟨f, pg, h2, _, _⟩
  · rw [h3, ← h2, h]
  · rw [h] at h2; simp at h2
  · rw [h] at h2; simp at h2

theorem allocPage_raise {D : Type} (fl : FileLayer D) (w : World D) (file : Nat)
    (e : BufError) (h : (allocBuf fl (afterAllocate fl w file)).2 = .raise e) :
    (allocPage fl w file).2 = .raise e := by
  rcases allocPage_cases fl w file with ⟨e2, h2, h3⟩ | ⟨f, h2, _⟩
  · rw [h] at h2
    simp only [Outcome.raise.injEq] at h2
    rw [h3, h2]
  · rw [h] at h2; simp at h2

theorem sizeOK_new (bufs : Nat) (h : 0 < bufs) : (BufMgr.new bufs).SizeOK := by
  refine ⟨h, ?_, ?_⟩ <;> simp [BufMgr.new]

theorem fillFrame_shape (m : BufMgr) (f : Nat) (file : Nat) (pg : Page)
    (pageNo : Nat) :
    (fillFrame m f file pg pageNo).numBufs = m.numBufs ∧
    (fillFrame m f file pg pageNo).clockHand = m.clockHand ∧
    (fillFrame m f file pg pageNo).bufStats = m.bufStats ∧
    (fillFrame m f file pg pageNo).hashTable = m.hashTable.insert file pageNo f ∧
    (fillFrame m f file pg pageNo).bufDescTable.length = m.bufDescTable.length ∧
    (fillFrame m f file pg pageNo).bufPool.length = m.bufPool.length := by
  refine ⟨rfl, rfl, rfl, rfl, ?_, ?_⟩ <;> simp [fillFrame, BufMgr.setDesc, BufMgr.setPage]

/-- S3 on a fresh pool of one frame, for any file store: once a first page
is read and left pinned, reading a second page raises `BufferExceeded`. -/
theorem fresh_one_frame_exceeded {D : Type} (fl : FileLayer D) (disk : D) (F : Nat)
    (p1 p2 : Nat) (f : Nat) (hp : p1 ≠ p2)
    (h : (readPage fl (World.new 1 disk) F p1).2 = .ok f) :
    (readPage fl (readPage fl (World.new 1 disk) F p1).1 F p2).2 = .raise .BufferExceeded := by
  have hS : (World.new 1 disk).mgr.SizeOK := sizeOK_new 1 (by decide)
  have hmiss : (World.new 1 disk).mgr.hashTable.lookup F p1 = none := rfl
  obtain ⟨s1, s2, s3, _⟩ := allocBuf_shape fl (World.new 1 disk)
  rcases readPage_miss_cases fl (World.new 1 disk) F p1 hmiss with ⟨e, _, h3⟩ | ⟨f2, _, _, h3⟩ |
    ⟨f2, pg, hok, _, h3⟩
  · rw [h3] at h; simp at h
  · rw [h3] at h; simp at h
  · obtain ⟨k1, _, _, _⟩ := allocBuf_ok fl (World.new 1 disk) f2 hS hok
    have hf0 : f2 = 0 := Nat.lt_one_iff.1 k1
    subst hf0
    have hht : (allocBuf fl (World.new 1 disk)).1.mgr.hashTable = [] := by
      rcases (allocBuf_effect fl (World.new 1 disk) hS).2 with h5 | ⟨g, _, _, _, h5⟩
      · exact h5
      · simp [World.new, BufMgr.new, BufHashTbl.remove] at h5
    have hlen1 : 0 < (allocBuf fl (World.new 1 disk)).1.mgr.bufDescTable.length := by
      rw [s3, hS.2.1]; exact hS.1
    have hlen2 : 0 < (allocBuf fl (World.new 1 disk)).1.mgr.bufPool.length := by
      rw [s2, hS.2.2]; exact hS.1
    rw [h3]
    obtain ⟨d1, _, _⟩ := fillFrame_self
      { (allocBuf fl (World.new 1 disk)).1.mgr with bufStats :=
          { (allocBuf fl (World.new 1 disk)).1.mgr.bufStats with
            diskreads := (allocBuf fl (World.new 1 disk)).1.mgr.bufStats.diskreads + 1 } }
      0 F pg p1 hlen1 hlen2
    refine readPage_miss_raise fl _ F p2 _ ?_ (allocBuf_allPinned fl _ ?_ ?_)
    · show BufHashTbl.lookup (BufHashTbl.insert _ F p1 0) F p2 = none
      rw [lookup_insert_ne _ _ _ _ _ _ (fun hk => hp hk.2)]
      show BufHashTbl.lookup (allocBuf fl (World.new 1 disk)).1.mgr.hashTable F p2 = none
      rw [hht]; rfl
    · show 0 < (allocBuf fl (World.new 1 disk)).1.mgr.numBufs
      rw [s1]; exact hS.1
    · intro i hi
      have hi1 : i < (allocBuf fl (World.new 1 disk)).1.mgr.numBufs := hi
      rw [s1] at hi1
      have hi0 : i = 0 := Nat.lt_one_iff.1 hi1
      subst hi0
      show (BufMgr.desc (fillFrame _ 0 F pg p1) 0).valid = true ∧
        0 < (BufMgr.desc (fillFrame _ 0 F pg p1) 0).pinCnt
      rw [d1]
      exact ⟨rfl, Nat.one_pos⟩

/-- C2. For every pool with `N >= 1` frames in which every frame is valid
and has `pinCnt > 0`, `readPage(file, p)` for a page that is not in the index
and `allocPage(file)` both fail with `BufferExceeded` and return no frame.
Scenario S3, for any file store: on a fresh pool with `N = 1`, after a
successful `readPage(F, p1)` that is not unpinned, `readPage(F, p2)` for
another page raises `BufferExceeded`. -/
theorem all_pinned_buffer_exceeded {D : Type} (fl : FileLayer D) (w : World D) (file : Nat)
    (pageNo : Nat) (hN : 0 < w.mgr.numBufs) (hall : w.mgr.AllPinned) :
    (w.mgr.hashTable.lookup file pageNo = none →
      (readPage fl w file pageNo).2 = .raise .BufferExceeded) ∧
    (allocPage fl w file).2 = .raise .BufferExceeded ∧
    (∀ (disk : D) (F : Nat) (p1 p2 : Nat) (f : Nat), p1 ≠ p2 →
      (readPage fl (World.new 1 disk) F p1).2 = .ok f →
      (readPage fl (readPage fl (World.new 1 disk) F p1).1 F p2).2
        = .raise .BufferExceeded) :=
  ⟨fun hmiss => readPage_miss_raise fl w file pageNo _ hmiss (allocBuf_allPinned fl w hN hall),
    allocPage_raise fl w file _ (allocBuf_allPinned fl (afterAllocate fl w file) hN hall),
    fun disk F p1 p2 f hp h => fresh_one_frame_exceeded fl disk F p1 p2 f hp h⟩

theorem removable_sweep {m m2 : BufMgr} (h : m.Removable) (hr : m.SweepRel m2)
    (hh : m2.hashTable = m.hashTable) : m2.Removable := by
  intro i hi hv
  obtain ⟨r1, _, _, _, _, r6⟩ := hr
  obtain ⟨s1, s2, _, _, _, s6, _⟩ := r6 i
  rw [s1, s2, hh]
  exact h i (by rw [← r1]; exact hi) (by rw [← s6]; exact hv)

theorem hand_step (hand N k : Nat) : ((hand + 1) % N + k) % N = (hand + (k + 1)) % N := by
  rw [Nat.mod_add_mod]
  congr 1
  omega

/-- If the frame `k` steps ahead of the hand would stop the sweep, the loop
exits within `k` iterations, on a victim or on an unoccupied frame. -/
theorem allocBufLoop_stoppable (k fuel : Nat) (m : BufMgr) (n : Nat) (hN : 0 < m.numBufs)
    (hk : 1 ≤ k) (hfuel : k ≤ fuel) (hn : n + k ≤ 2 * m.numBufs)
    (hst : m.Stoppable ((m.clockHand + k) % m.numBufs)) (hrem : m.Removable) :
    ∃ m2 n2 avail, allocBufLoop fuel m n = (m2, .ok (n2, avail)) ∧ n2 ≤ n + k ∧
      (avail = true ∨ (m2.desc m2.clockHand).valid = false) := by
  induction k generalizing fuel m n with
  | zero => omega
  | succ k ih =>
    obtain ⟨fuel, rfl⟩ : ∃ f2, fuel = f2 + 1 := ⟨fuel - 1, by omega⟩
    have hlt := clockHand_advanceClock_lt m hN
    have hrem1 : (advanceClock m).Removable := removable_sweep hrem (sweepRel_advanceClock m) rfl
    have hrem2 : (clearRefbit (advanceClock m)).Removable :=
      removable_sweep hrem1 (sweepRel_clearRefbit _) rfl
    -- the frame `k + 1` ahead of the old hand is `k` ahead of the new one
    have htgt : ((advanceClock m).clockHand + k) % m.numBufs
        = (m.clockHand + (k + 1)) % m.numBufs := hand_step _ _ _
    simp only [allocBufLoop]
    by_cases h1 : ((advanceClock m).desc (advanceClock m).clockHand).valid = false
    · rw [if_pos h1]
      exact ⟨_, _, _, rfl, by omega, Or.inr h1⟩
    rw [if_neg h1]
    -- the frame under the hand does not stop the sweep unless it is a victim
    have hk0 : ((advanceClock m).desc (advanceClock m).clockHand).refbit = true ∨
        ¬ ((advanceClock m).desc (advanceClock m).clockHand).pinCnt = 0 → 1 ≤ k := by
      intro hcase
      by_contra hk1
      have hk2 : k = 0 := by omega
      subst hk2
      have e : (m.clockHand + (0 + 1)) % m.numBufs = (advanceClock m).clockHand := rfl
      rw [e] at hst
      rcases hst with h | ⟨h, h2⟩
      · exact h1 h
      · rcases hcase with hc | hc
        · have : (m.desc (advanceClock m).clockHand).refbit = true := hc
          rw [h] at this; exact absurd this (by decide)
        · exact hc h2
    by_cases h2 : ((advanceClock m).desc (advanceClock m).clockHand).refbit = true
    · rw [if_pos h2]
      have hk1 := hk0 (Or.inl h2)
      have h3 : n + 1 < 2 * (clearRefbit (advanceClock m)).numBufs := by
        show n + 1 < 2 * m.numBufs; omega
      rw [if_pos h3]
      have hst2 : (clearRefbit (advanceClock m)).Stoppable
          (((clearRefbit (advanceClock m)).clockHand + k) % (clearRefbit (advanceClock m)).numBufs) := by
        show (clearRefbit (advanceClock m)).Stoppable
          (((advanceClock m).clockHand + k) % m.numBufs)
        rw [htgt]
        by_cases hsame : (advanceClock m).clockHand = (m.clockHand + (k + 1)) % m.numBufs
        · exfalso
          rw [← hsame] at hst
          rcases hst with h | ⟨h, _⟩
          · exact h1 h
          · have : (m.desc (advanceClock m).clockHand).refbit = true := h2
            rw [h] at this; exact absurd this (by decide)
        · unfold BufMgr.Stoppable
          rw [desc_clearRefbit_ne _ _ hsame]
          exact hst
      obtain ⟨m2, n2, avail, e1, e2, e3⟩ :=
        ih fuel (clearRefbit (advanceClock m)) (n + 1) hN hk1 (by omega)
          (by show n + 1 + k ≤ 2 * m.numBufs; omega) hst2 hrem2
      exact ⟨m2, n2, avail, e1, by omega, e3⟩
    rw [if_neg h2]
    by_cases h4 : ((advanceClock m).desc (advanceClock m).clockHand).pinCnt = 0
    · rw [if_pos h4]
      obtain ⟨ht, hht⟩ := remove_isSome_of_lookup _ _ _
        (hrem1 (advanceClock m).clockHand hlt (by simpa using h1))
      rw [hht]
      exact ⟨_, _, _, rfl, by omega, Or.inl rfl⟩
    · rw [if_neg h4]
      have hk1 := hk0 (Or.inr h4)
      have h3 : n + 1 < 2 * (advanceClock m).numBufs := by
        show n + 1 < 2 * m.numBufs; omega
      rw [if_pos h3]
      have hst2 : (advanceClock m).Stoppable
          (((advanceClock m).clockHand + k) % (advanceClock m).numBufs) := by
        show (advanceClock m).Stoppable (((advanceClock m).clockHand + k) % m.numBufs)
        rw [htgt]
        exact hst
      obtain ⟨m2, n2, avail, e1, e2, e3⟩ :=
        ih fuel (advanceClock m) (n + 1) hN hk1 (by omega)
          (by show n + 1 + k ≤ 2 * m.numBufs; omega) hst2 hrem1
      exact ⟨m2, n2, avail, e1, by omega, e3⟩

theorem evictable_sweep {m m2 : BufMgr} {i : Nat} (h : m.Evictable i) (hr : m.SweepRel m2) :
    m2.Evictable i := by
  obtain ⟨_, _, _, s4, _, s6, _⟩ := hr.2.2.2.2.2 i
  unfold BufMgr.Evictable
  rw [s4, s6]
  exact h

/-- If the frame `k` steps ahead of the hand is unoccupied or unpinned, the
loop exits within `k + numBufs` iterations, on a victim or on an unoccupied
frame: a set refbit costs one more revolution. -/
theorem allocBufLoop_evictable (k fuel : Nat) (m : BufMgr) (n : Nat) (hN : 0 < m.numBufs)
    (hlen : m.bufDescTable.length = m.numBufs)
    (hk : 1 ≤ k) (hfuel : k + m.numBufs ≤ fuel) (hn : n + k + m.numBufs ≤ 2 * m.numBufs)
    (hev : m.Evictable ((m.clockHand + k) % m.numBufs)) (hrem : m.Removable) :
    ∃ m2 n2 avail, allocBufLoop fuel m n = (m2, .ok (n2, avail)) ∧
      n2 ≤ n + k + m.numBufs ∧ (avail = true ∨ (m2.desc m2.clockHand).valid = false) := by
  induction k generalizing fuel m n with
  | zero => omega
  | succ k ih =>
    obtain ⟨fuel, rfl⟩ : ∃ f2, fuel = f2 + 1 := ⟨fuel - 1, by omega⟩
    have hlt := clockHand_advanceClock_lt m hN
    have hrem1 : (advanceClock m).Removable := removable_sweep hrem (sweepRel_advanceClock m) rfl
    have hrem2 : (clearRefbit (advanceClock m)).Removable :=
      removable_sweep hrem1 (sweepRel_clearRefbit _) rfl
    have hlen2 : (clearRefbit (advanceClock m)).bufDescTable.length = m.numBufs := by
      rw [(sweepRel_clearRefbit (advanceClock m)).2.2.1]; exact hlen
    have htgt : ((advanceClock m).clockHand + k) % m.numBufs
        = (m.clockHand + (k + 1)) % m.numBufs := hand_step _ _ _
    have hev1 : (advanceClock m).Evictable (((advanceClock m).clockHand + k) % m.numBufs) := by
      rw [htgt]; exact hev
    have h3 : n + 1 < 2 * m.numBufs := by omega
    simp only [allocBufLoop]
    by_cases h1 : ((advanceClock m).desc (advanceClock m).clockHand).valid = false
    · rw [if_pos h1]
      exact ⟨_, _, _, rfl, by omega, Or.inr h1⟩
    rw [if_neg h1]
    by_cases h2 : ((advanceClock m).desc (advanceClock m).clockHand).refbit = true
    · rw [if_pos h2, if_pos (show n + 1 < 2 * (clearRefbit (advanceClock m)).numBufs from h3)]
      by_cases hk1 : 1 ≤ k
      · obtain ⟨m2, n2, avail, e1, e2, e3⟩ :=
          ih fuel (clearRefbit (advanceClock m)) (n + 1) hN hlen2 hk1
            (by show k + m.numBufs ≤ fuel; omega)
            (by show n + 1 + k + m.numBufs ≤ 2 * m.numBufs; omega)
            (evictable_sweep hev1 (sweepRel_clearRefbit _)) hrem2
        have e2b : n2 ≤ n + 1 + k + m.numBufs := e2
        exact ⟨m2, n2, avail, e1, by omega, e3⟩
      · -- the frame under the hand is the one we wait for: it is a victim one
        -- revolution later
        have hk2 : k = 0 := by omega
        subst hk2
        have e : (m.clockHand + (0 + 1)) % m.numBufs = (advanceClock m).clockHand := rfl
        rw [e] at hev
        have hpin : ((advanceClock m).desc (advanceClock m).clockHand).pinCnt = 0 := by
          rcases hev with h | ⟨_, h⟩
          · exact absurd h h1
          · exact h
        have hst : (clearRefbit (advanceClock m)).Stoppable
            (((clearRefbit (advanceClock m)).clockHand + m.numBufs) %
              (clearRefbit (advanceClock m)).numBufs) := by
          show (clearRefbit (advanceClock m)).Stoppable
            (((advanceClock m).clockHand + m.numBufs) % m.numBufs)
          rw [Nat.add_mod_right, Nat.mod_eq_of_lt hlt]
          right
          rw [desc_clearRefbit_self _ (by show (advanceClock m).clockHand < m.bufDescTable.length
                                          rw [hlen]; exact hlt)]
          exact ⟨rfl, hpin⟩
        obtain ⟨m2, n2, avail, e1, e2, e3⟩ :=
          allocBufLoop_stoppable m.numBufs fuel (clearRefbit (advanceClock m)) (n + 1) hN hN
            (by omega) (by show n + 1 + m.numBufs ≤ 2 * m.numBufs; omega) hst hrem2
        exact ⟨m2, n2, avail, e1, by omega, e3⟩
    rw [if_neg h2]
    by_cases h4 : ((advanceClock m).desc (advanceClock m).clockHand).pinCnt = 0
    · rw [if_pos h4]
      obtain ⟨ht, hht⟩ := remove_isSome_of_lookup _ _ _
        (hrem1 (advanceClock m).clockHand hlt (by simpa using h1))
      rw [hht]
      exact ⟨_, _, _, rfl, by omega, Or.inl rfl⟩
    · rw [if_neg h4, if_pos (show n + 1 < 2 * (advanceClock m).numBufs from h3)]
      have hk1 : 1 ≤ k := by
        by_contra hk1
        have hk2 : k = 0 := by omega
        subst hk2
        have e : (m.clockHand + (0 + 1)) % m.numBufs = (advanceClock m).clockHand := rfl
        rw [e] at hev
        rcases hev with h | ⟨_, h⟩
        · exact h1 h
        · exact h4 h
      obtain ⟨m2, n2, avail, e1, e2, e3⟩ :=
        ih fuel (advanceClock m) (n + 1) hN hlen hk1 (by show k + m.numBufs ≤ fuel; omega)
          (by show n + 1 + k + m.numBufs ≤ 2 * m.numBufs; omega) hev1 hrem1
      have e2b : n2 ≤ n + 1 + k + m.numBufs := e2
      exact ⟨m2, n2, avail, e1, by omega, e3⟩

/-- Every frame number is reached from any hand position within one
revolution. -/
theorem exists_step (hand N g : Nat) (hg : g < N) :
    ∃ k, 1 ≤ k ∧ k ≤ N ∧ (hand + k) % N = g := by
  have hN : 0 < N := by omega
  have hh : hand % N < N := Nat.mod_lt _ hN
  by_cases hc : hand % N < g
  · refine ⟨g - hand % N, by omega, by omega, ?_⟩
    rw [← Nat.mod_add_mod, show hand % N + (g - hand % N) = g by omega, Nat.mod_eq_of_lt hg]
  · refine ⟨g + N - hand % N, by omega, by omega, ?_⟩
    rw [← Nat.mod_add_mod, show hand % N + (g + N - hand % N) = g + N by omega,
      Nat.add_mod_right, Nat.mod_eq_of_lt hg]

/-- The frame under the hand when the loop exits without exhausting its two
revolutions was unoccupied or unpinned when the loop started. -/
theorem allocBufLoop_selected (fuel : Nat) (m m1 : BufMgr) (n0 n : Nat) (avail : Bool)
    (hN : 0 < m.numBufs) (hl : allocBufLoop fuel m n0 = (m1, .ok (n, avail)))
    (hsel : n < 2 * m.numBufs ∨ avail = true) :
    m1.clockHand < m.numBufs ∧ m.Evictable m1.clockHand := by
  have hrel : m.SweepRel m1 := by
    have := allocBufLoop_sweepRel fuel m n0
    rwa [hl] at this
  obtain ⟨_, b, c, d⟩ := allocBufLoop_ok _ _ _ _ _ _ hN hl
  refine ⟨b, ?_⟩
  obtain ⟨_, _, _, s4, _, s6, _⟩ := hrel.2.2.2.2.2 m1.clockHand
  cases avail with
  | true =>
    obtain ⟨c1, _, c3, _⟩ := c rfl
    exact Or.inr ⟨by rw [← s6]; exact c1, by rw [← s4]; exact c3⟩
  | false =>
    rcases (d rfl).2 with d1 | d1
    · exact Or.inl (by rw [← s6]; exact d1)
    · rcases hsel with h1 | h1
      · omega
      · simp at h1

theorem removable_of_indexed (m : BufMgr) (h : m.Indexed) : m.Removable := by
  intro i hi hv
  rw [h i hi hv]
  simp

/-- With an unoccupied or unpinned frame in the pool the loop selects a
frame within `2 * numBufs` advances of the hand. -/
theorem allocBufLoop_finds (m : BufMgr) (hS : m.SizeOK) (hrem : m.Removable) (g : Nat)
    (hg : g < m.numBufs) (hev : m.Evictable g) :
    ∃ m1 n avail, allocBufLoop (2 * m.numBufs + 1) m 0 = (m1, .ok (n, avail)) ∧
      n ≤ 2 * m.numBufs ∧ (n < 2 * m.numBufs ∨ avail = true) := by
  obtain ⟨hN, hlen, _⟩ := hS
  obtain ⟨k, k1, k2, k3⟩ := exists_step m.clockHand m.numBufs g hg
  obtain ⟨m1, n, avail, e1, e2, e3⟩ :=
    allocBufLoop_evictable k (2 * m.numBufs + 1) m 0 hN hlen k1 (by omega) (by omega)
      (by rw [k3]; exact hev) hrem
  refine ⟨m1, n, avail, e1, by omega, ?_⟩
  rcases e3 with e3 | e3
  · exact Or.inr e3
  · -- an unoccupied frame is met during the first revolution
    left
    have hrel : m.SweepRel m1 := by
      have := allocBufLoop_sweepRel (2 * m.numBufs + 1) m 0
      rwa [e1] at this
    obtain ⟨_, b, _, _⟩ := allocBufLoop_ok _ _ _ _ _ _ hN e1
    obtain ⟨_, _, _, _, _, s6, _⟩ := hrel.2.2.2.2.2 m1.clockHand
    obtain ⟨j, j1, j2, j3⟩ := exists_step m.clockHand m.numBufs m1.clockHand b
    obtain ⟨m2, n2, avail2, f1, f2, _⟩ :=
      allocBufLoop_stoppable j (2 * m.numBufs + 1) m 0 hN j1 (by omega) (by omega)
        (by rw [j3]; exact Or.inl (by rw [← s6]; exact e3)) hrem
    rw [e1] at f1
    simp only [Prod.mk.injEq, Outcome.ok.injEq] at f1
    omega

/-- C3. For every pool with `N >= 1` frames that satisfies the data-model
invariants and in which at least one frame `g` is invalid or has `pinCnt = 0`,
`allocBuf` does not raise `BufferExceeded`: its loop selects a frame `f`
(unoccupied or unpinned) after `n <= 2 * N` advances of the clock hand, and
`allocBuf` returns `f` unless the writeback of `f` fails.  In particular, when
every frame but `g` is pinned, `f = g`, whatever the refbit of `g` and wherever
the hand starts. -/
theorem unpinned_frame_is_found {D : Type} (fl : FileLayer D) (w : World D) (g : Nat)
    (hS : w.mgr.SizeOK) (h1 : w.mgr.Inv1) (h2 : w.mgr.Indexed)
    (hg : g < w.mgr.numBufs) (hev : w.mgr.Evictable g) :
    (allocBuf fl w).2 ≠ .raise .BufferExceeded ∧
    (∃ m1 n avail f,
      allocBufLoop (2 * w.mgr.numBufs + 1) w.mgr 0 = (m1, .ok (n, avail)) ∧
      n ≤ 2 * w.mgr.numBufs ∧ f = m1.clockHand ∧ f < w.mgr.numBufs ∧ w.mgr.Evictable f ∧
      ((allocBuf fl w).2 = .ok f ∨
        ((allocBuf fl w).2 = .raise .FileFailure ∧ (w.mgr.desc f).dirty = true ∧
          fl.writePage w.disk (w.mgr.desc f).file (w.mgr.page f) = none)) ∧
      ((∀ i, i < w.mgr.numBufs → i ≠ g → w.mgr.Pinned i) → f = g)) := by
  obtain ⟨m1, n, avail, e1, e2, e3⟩ :=
    allocBufLoop_finds w.mgr hS (removable_of_indexed _ h2) g hg hev
  have hrel : w.mgr.SweepRel m1 := by
    have := allocBufLoop_sweepRel (2 * w.mgr.numBufs + 1) w.mgr 0
    rwa [e1] at this
  obtain ⟨r1, r2, _, _, _, r6⟩ := hrel
  obtain ⟨k1, k2⟩ := allocBufLoop_selected _ _ _ _ _ _ hS.1 e1 e3
  obtain ⟨s1, _, _, _, s5, _, _⟩ := r6 m1.clockHand
  have hpage : m1.page m1.clockHand = w.mgr.page m1.clockHand := by
    unfold BufMgr.page; rw [r2]
  have hout : (allocBuf fl w).2 = .ok m1.clockHand ∨
      ((allocBuf fl w).2 = .raise .FileFailure ∧ (w.mgr.desc m1.clockHand).dirty = true ∧
        fl.writePage w.disk (w.mgr.desc m1.clockHand).file (w.mgr.page m1.clockHand) = none) := by
    obtain ⟨m1b, lr, hl, hc⟩ := allocBuf_cases fl w
    rw [e1] at hl
    simp only [Prod.mk.injEq] at hl
    obtain ⟨rfl, rfl⟩ := hl
    rcases hc with ⟨e, h, _⟩ | ⟨n2, h, h3, _⟩ | ⟨n2, avail2, _, _, _, h⟩ |
      ⟨n2, avail2, _, _, hd, hw, h⟩ | ⟨n2, avail2, disk1, _, _, _, _, h⟩
    · simp at h
    · simp only [Outcome.ok.injEq, Prod.mk.injEq] at h
      obtain ⟨rfl, rfl⟩ := h
      rw [r1] at h3
      rcases e3 with e3 | e3
      · omega
      · simp at e3
    · left; rw [h]
    · right
      rw [h]
      exact ⟨rfl, by rw [← s5]; exact hd, by rw [← s1, ← hpage]; exact hw⟩
    · left; rw [h]
  refine ⟨?_, m1, n, avail, m1.clockHand, e1, e2, rfl, k1, k2, hout, fun hall => ?_⟩
  · rcases hout with h | ⟨h, _⟩ <;> rw [h] <;> simp
  · by_contra hne
    exact pinned_not_evictable w.mgr _ hS h1 (hall _ k1 hne) k2

theorem lookup_mem (ht : BufHashTbl) (file pageNo f : Nat)
    (h : ht.lookup file pageNo = some f) : ⟨file, pageNo, f⟩ ∈ ht := by
  induction ht with
  | nil => simp [BufHashTbl.lookup] at h
  | cons e es ih =>
    by_cases hk : e.file = file ∧ e.pageNo = pageNo
    · simp only [BufHashTbl.lookup, hk, and_self, if_true, Option.some.injEq] at h
      obtain ⟨k1, k2⟩ := hk
      have : e = ⟨file, pageNo, f⟩ := by
        cases e; simp_all
      rw [this]; exact List.mem_cons_self _ _
    · simp only [BufHashTbl.lookup, hk, if_false] at h
      exact List.mem_cons_of_mem _ (ih h)

theorem lookup_lt (m : BufMgr) (file pageNo f : Nat) (hR : m.IndexInRange)
    (h : m.hashTable.lookup file pageNo = some f) : f < m.numBufs :=
  hR _ (lookup_mem _ _ _ _ h)

/-- The hit path of `readPage`. -/
theorem readPage_hit {D : Type} (fl : FileLayer D) (w : World D) (file pageNo f : Nat)
    (h : w.mgr.hashTable.lookup file pageNo = some f) :
    readPage fl w file pageNo =
      ({ w with mgr := (w.mgr.setDesc f
          { (w.mgr.desc f) with refbit := true, pinCnt := (w.mgr.desc f).pinCnt + 1 }) },
        .ok f) := by
  simp only [readPage, h]

/-- The miss path of `readPage` when a frame is obtained and the page is
read. -/
theorem readPage_miss_ok {D : Type} (fl : FileLayer D) (w : World D) (file pageNo f : Nat)
    (pg : Page) (hS : w.mgr.SizeOK) (hmiss : w.mgr.hashTable.lookup file pageNo = none)
    (hab : (allocBuf fl w).2 = .ok f)
    (hrd : fl.readPage (allocBuf fl w).1.disk file pageNo = some pg) :
    (readPage fl w file pageNo).2 = .ok f ∧
    (readPage fl w file pageNo).1.mgr.page f = pg ∧
    (readPage fl w file pageNo).1.mgr.desc f = ((allocBuf fl w).1.mgr.desc f).Set file pageNo ∧
    (readPage fl w file pageNo).1.mgr.hashTable.lookup file pageNo = some f ∧
    (readPage fl w file pageNo).1.mgr.bufStats.diskreads = w.mgr.bufStats.diskreads + 1 ∧
    (readPage fl w file pageNo).1.calls
      = (allocBuf fl w).1.calls ++ [FileCall.readPage file pageNo] ∧
    (readPage fl w file pageNo).1.mgr.bufDescTable.length = w.mgr.bufDescTable.length := by
  obtain ⟨s1, s2, s3, s4⟩ := allocBuf_shape fl w
  obtain ⟨k1, _, _, _⟩ := allocBuf_ok fl w f hS hab
  rcases readPage_miss_cases fl w file pageNo hmiss with ⟨e, h2, _⟩ | ⟨f2, _, h2, _⟩ |
    ⟨f2, pg2, h2, h3, h4⟩
  · rw [hab] at h2; simp at h2
  · rw [hrd] at h2; simp at h2
  · rw [hab] at h2
    simp only [Outcome.ok.injEq] at h2
    subst h2
    rw [hrd] at h3
    simp only [Option.some.injEq] at h3
    subst h3
    obtain ⟨d1, d2, d3⟩ := fillFrame_self
      { (allocBuf fl w).1.mgr with bufStats :=
          { (allocBuf fl w).1.mgr.bufStats with
            diskreads := (allocBuf fl w).1.mgr.bufStats.diskreads + 1 } }
      f file pg pageNo (by show f < (allocBuf fl w).1.mgr.bufDescTable.length
                           rw [s3, hS.2.1]; exact k1)
      (by show f < (allocBuf fl w).1.mgr.bufPool.length
          rw [s2, hS.2.2]; exact k1)
    rw [h4]
    refine ⟨rfl, d2, d1, d3, ?_, rfl, ?_⟩
    · show (fillFrame _ f file pg pageNo).bufStats.diskreads = _
      rw [(fillFrame_shape _ f file pg pageNo).2.2.1]
      show (allocBuf fl w).1.mgr.bufStats.diskreads + 1 = _
      rw [s4]
    · show (fillFrame _ f file pg pageNo).bufDescTable.length = _
      rw [(fillFrame_shape _ f file pg pageNo).2.2.2.2.1]
      exact s3

/-- C4. Miss path of `readPage`: when `(file, p)` is not in the index,
`allocBuf` succeeds with frame `f` and `File.readPage(p)` succeeds with page
`pg`, `readPage` returns frame `f` whose contents are `pg`; afterwards the
descriptor of `f` has `file`, `pageNo = p`, `pinCnt = 1`, `valid`, `refbit`,
not `dirty`, the index maps `(file, p)` to `f`, and `diskreads` has grown by
exactly one.  Hence on every normal return of `readPage`, hit or miss, the
returned frame has `pinCnt >= 1`. -/
theorem readPage_miss_postcondition {D : Type} (fl : FileLayer D) (w : World D)
    (file pageNo : Nat) (hS : w.mgr.SizeOK) (hR : w.mgr.IndexInRange) :
    (∀ f pg, w.mgr.hashTable.lookup file pageNo = none → (allocBuf fl w).2 = .ok f →
      fl.readPage (allocBuf fl w).1.disk file pageNo = some pg →
      (readPage fl w file pageNo).2 = .ok f ∧
      (readPage fl w file pageNo).1.mgr.page f = pg ∧
      ((readPage fl w file pageNo).1.mgr.desc f).file = file ∧
      ((readPage fl w file pageNo).1.mgr.desc f).pageNo = pageNo ∧
      ((readPage fl w file pageNo).1.mgr.desc f).pinCnt = 1 ∧
      ((readPage fl w file pageNo).1.mgr.desc f).valid = true ∧
      ((readPage fl w file pageNo).1.mgr.desc f).refbit = true ∧
      ((readPage fl w file pageNo).1.mgr.desc f).dirty = false ∧
      (readPage fl w file pageNo).1.mgr.hashTable.lookup file pageNo = some f ∧
      (readPage fl w file pageNo).1.mgr.bufStats.diskreads = w.mgr.bufStats.diskreads + 1) ∧
    (∀ f, (readPage fl w file pageNo).2 = .ok f →
      1 ≤ ((readPage fl w file pageNo).1.mgr.desc f).pinCnt) := by
  constructor
  · intro f pg hmiss hab hrd
    obtain ⟨a1, a2, a3, a4, a5, _⟩ := readPage_miss_ok fl w file pageNo f pg hS hmiss hab hrd
    rw [a3]
    exact ⟨a1, a2, rfl, rfl, rfl, rfl, rfl, rfl, a4, a5⟩
  · intro f hf
    rcases hlk : w.mgr.hashTable.lookup file pageNo with _ | f2
    · rcases readPage_miss_cases fl w file pageNo hlk with ⟨e, _, h⟩ | ⟨f2, _, _, h⟩ |
        ⟨f2, pg, hab, hrd, h⟩
      · rw [h] at hf; simp at hf
      · rw [h] at hf; simp at hf
      · have hf2 : f2 = f := by
          rw [h] at hf; simpa using hf
        subst hf2
        obtain ⟨_, _, a3, _⟩ := readPage_miss_ok fl w file pageNo f2 pg hS hlk hab hrd
        rw [a3]
        exact Nat.le_refl 1
    · have hlt := lookup_lt w.mgr file pageNo f2 hR hlk
      have hq := readPage_hit fl w file pageNo f2 hlk
      have hf2 : f2 = f := by
        rw [hq] at hf; simpa using hf
      subst hf2
      rw [hq]
      show 1 ≤ (BufMgr.desc (w.mgr.setDesc f2 _) f2).pinCnt
      rw [desc_setDesc_self _ _ _ (by rw [hS.2.1]; exact hlt)]
      exact Nat.le_add_left 1 _

/-- C5. Hit path of `readPage`: when the index maps `(file, p)` to frame
`f`, `readPage(file, p)` returns `f`, sets its refbit, adds exactly one to its
`pinCnt`, leaves its dirty bit, file, pageNo, valid and contents unchanged,
makes no `File` call, and changes neither the statistics (`diskreads`
included), the clock hand, the index, the frame pool nor any other descriptor.
Consequently, for a page that was not buffered, two successive `readPage`
calls with no unpin in between return the same frame and leave `pinCnt = 2`
on it. -/
theorem readPage_hit_postcondition {D : Type} (fl : FileLayer D) (w : World D)
    (file pageNo : Nat) (hS : w.mgr.SizeOK) (hR : w.mgr.IndexInRange) :
    (∀ f, w.mgr.hashTable.lookup file pageNo = some f →
      (readPage fl w file pageNo).2 = .ok f ∧
      ((readPage fl w file pageNo).1.mgr.desc f).refbit = true ∧
      ((readPage fl w file pageNo).1.mgr.desc f).pinCnt = (w.mgr.desc f).pinCnt + 1 ∧
      ((readPage fl w file pageNo).1.mgr.desc f).dirty = (w.mgr.desc f).dirty ∧
      ((readPage fl w file pageNo).1.mgr.desc f).file = (w.mgr.desc f).file ∧
      ((readPage fl w file pageNo).1.mgr.desc f).pageNo = (w.mgr.desc f).pageNo ∧
      ((readPage fl w file pageNo).1.mgr.desc f).valid = (w.mgr.desc f).valid ∧
      ((readPage fl w file pageNo).1.mgr.desc f).frameNo = (w.mgr.desc f).frameNo ∧
      (readPage fl w file pageNo).1.mgr.bufPool = w.mgr.bufPool ∧
      (readPage fl w file pageNo).1.calls = w.calls ∧
      (readPage fl w file pageNo).1.disk = w.disk ∧
      (readPage fl w file pageNo).1.mgr.bufStats = w.mgr.bufStats ∧
      (readPage fl w file pageNo).1.mgr.clockHand = w.mgr.clockHand ∧
      (readPage fl w file pageNo).1.mgr.hashTable = w.mgr.hashTable ∧
      (readPage fl w file pageNo).1.mgr.numBufs = w.mgr.numBufs ∧
      (∀ g, g ≠ f → (readPage fl w file pageNo).1.mgr.desc g = w.mgr.desc g)) ∧
    (∀ f, w.mgr.hashTable.lookup file pageNo = none → (readPage fl w file pageNo).2 = .ok f →
      (readPage fl (readPage fl w file pageNo).1 file pageNo).2 = .ok f ∧
      ((readPage fl (readPage fl w file pageNo).1 file pageNo).1.mgr.desc f).pinCnt = 2) := by
  constructor
  · intro f hlk
    have hlt : f < w.mgr.bufDescTable.length := by
      rw [hS.2.1]; exact lookup_lt w.mgr file pageNo f hR hlk
    rw [readPage_hit fl w file pageNo f hlk]
    refine ⟨rfl, ?_, ?_, ?_, ?_, ?_, ?_, ?_, rfl, rfl, rfl, rfl, rfl, rfl, rfl, fun g hg => ?_⟩
    all_goals first
      | (show (BufMgr.desc (w.mgr.setDesc f _) g) = _
         exact desc_setDesc_ne _ _ _ _ (Ne.symm hg))
      | (show (BufMgr.desc (w.mgr.setDesc f _) f).refbit = _
         rw [desc_setDesc_self _ _ _ hlt])
      | (show (BufMgr.desc (w.mgr.setDesc f _) f).pinCnt = _
         rw [desc_setDesc_self _ _ _ hlt])
      | (show (BufMgr.desc (w.mgr.setDesc f _) f).dirty = _
         rw [desc_setDesc_self _ _ _ hlt])
      | (show (BufMgr.desc (w.mgr.setDesc f _) f).file = _
         rw [desc_setDesc_self _ _ _ hlt])
      | (show (BufMgr.desc (w.mgr.setDesc f _) f).pageNo = _
         rw [desc_setDesc_self _ _ _ hlt])
      | (show (BufMgr.desc (w.mgr.setDesc f _) f).valid = _
         rw [desc_setDesc_self _ _ _ hlt])
      | (show (BufMgr.desc (w.mgr.setDesc f _) f).frameNo = _
         rw [desc_setDesc_self _ _ _ hlt])
  · intro f hmiss hf
    rcases readPage_miss_cases fl w file pageNo hmiss with ⟨e, _, h⟩ | ⟨f2, _, _, h⟩ |
      ⟨f2, pg, hab, hrd, h⟩
    · rw [h] at hf; simp at hf
    · rw [h] at hf; simp at hf
    · have hf2 : f2 = f := by
        rw [h] at hf; simpa using hf
      subst hf2
      obtain ⟨_, _, a3, a4, _, _⟩ := readPage_miss_ok fl w file pageNo f2 pg hS hmiss hab hrd
      obtain ⟨s1, s2, s3, s4⟩ := allocBuf_shape fl w
      obtain ⟨k1, _, _, _⟩ := allocBuf_ok fl w f2 hS hab
      have hlen : f2 < (readPage fl w file pageNo).1.mgr.bufDescTable.length := by
        rw [h]
        show f2 < (fillFrame _ f2 file pg pageNo).bufDescTable.length
        rw [(fillFrame_shape _ f2 file pg pageNo).2.2.2.2.1]
        show f2 < (allocBuf fl w).1.mgr.bufDescTable.length
        rw [s3, hS.2.1]; exact k1
      rw [readPage_hit fl _ file pageNo f2 a4]
      refine ⟨rfl, ?_⟩
      show (BufMgr.desc (BufMgr.setDesc _ f2 _) f2).pinCnt = 2
      rw [desc_setDesc_self _ _ _ hlen, a3]
      rfl

/-- C6. Postcondition of `allocPage`: when `File.allocatePage()` returns
page `P` and `allocBuf` then succeeds with frame `f`, `allocPage` returns
`P.page_number()` and frame `f`, whose contents are `P`; afterwards the
descriptor of `f` has `file`, that `pageNo`, `pinCnt = 1`, `valid`, `refbit`,
not `dirty`, the index maps `(file, pageNo)` to `f`, and `diskreads` is
unchanged.  No hypothesis is made on the index: it is not probed, and the
statement holds whether or not it already had an entry for the key. -/
theorem allocPage_postcondition {D : Type} (fl : FileLayer D) (w : World D) (file f : Nat)
    (hS : w.mgr.SizeOK) (hab : (allocBuf fl (afterAllocate fl w file)).2 = .ok f) :
    (allocPage fl w file).2 = .ok ((fl.allocatePage w.disk file).1.page_number, f) ∧
    (allocPage fl w file).1.mgr.page f = (fl.allocatePage w.disk file).1 ∧
    ((allocPage fl w file).1.mgr.desc f).file = file ∧
    ((allocPage fl w file).1.mgr.desc f).pageNo = (fl.allocatePage w.disk file).1.page_number ∧
    ((allocPage fl w file).1.mgr.desc f).pinCnt = 1 ∧
    ((allocPage fl w file).1.mgr.desc f).valid = true ∧
    ((allocPage fl w file).1.mgr.desc f).refbit = true ∧
    ((allocPage fl w file).1.mgr.desc f).dirty = false ∧
    (allocPage fl w file).1.mgr.hashTable.lookup file
      (fl.allocatePage w.disk file).1.page_number = some f ∧
    (allocPage fl w file).1.mgr.bufStats.diskreads = w.mgr.bufStats.diskreads := by
  have hS2 : (afterAllocate fl w file).mgr.SizeOK := hS
  obtain ⟨s1, s2, s3, s4⟩ := allocBuf_shape fl (afterAllocate fl w file)
  obtain ⟨k1, _, _, _⟩ := allocBuf_ok fl (afterAllocate fl w file) f hS2 hab
  rcases allocPage_cases fl w file with ⟨e, h2, _⟩ | ⟨f2, h2, h3⟩
  · rw [hab] at h2; simp at h2
  · rw [hab] at h2
    simp only [Outcome.ok.injEq] at h2
    subst h2
    obtain ⟨d1, d2, d3⟩ := fillFrame_self (allocBuf fl (afterAllocate fl w file)).1.mgr f file
      (fl.allocatePage w.disk file).1 (fl.allocatePage w.disk file).1.page_number
      (by rw [s3]; exact Nat.lt_of_lt_of_eq k1 hS.2.1.symm)
      (by rw [s2]; exact Nat.lt_of_lt_of_eq k1 hS.2.2.symm)
    rw [h3]
    refine ⟨rfl, d2, ?_, ?_, ?_, ?_, ?_, ?_, d3, ?_⟩
    · show (BufMgr.desc (fillFrame _ f file _ _) f).file = file
      rw [d1]; rfl
    · show (BufMgr.desc (fillFrame _ f file _ _) f).pageNo = _
      rw [d1]; rfl
    · show (BufMgr.desc (fillFrame _ f file _ _) f).pinCnt = 1
      rw [d1]; rfl
    · show (BufMgr.desc (fillFrame _ f file _ _) f).valid = true
      rw [d1]; rfl
    · show (BufMgr.desc (fillFrame _ f file _ _) f).refbit = true
      rw [d1]; rfl
    · show (BufMgr.desc (fillFrame _ f file _ _) f).dirty = false
      rw [d1]; rfl
    · show (fillFrame _ f file _ _).bufStats.diskreads = _
      rw [(fillFrame_shape _ f file _ _).2.2.1, s4]
      rfl

theorem desc_markDirty_self (m : BufMgr) (f : Nat) (d : Bool) (h : f < m.bufDescTable.length) :
    (markDirty m f d).desc f =
      ⟨(m.desc f).file, (m.desc f).pageNo, (m.desc f).frameNo, (m.desc f).pinCnt,
        d || (m.desc f).dirty, (m.desc f).valid, (m.desc f).refbit⟩ := by
  cases d with
  | true =>
    simp only [markDirty, if_true, Bool.true_or]
    exact desc_setDesc_self _ _ _ h
  | false => simp [markDirty]

theorem desc_markDirty_ne (m : BufMgr) (f g : Nat) (d : Bool) (h : f ≠ g) :
    (markDirty m f d).desc g = m.desc g := by
  cases d with
  | true =>
    simp only [markDirty, if_true]
    exact desc_setDesc_ne _ _ _ _ h
  | false => simp [markDirty]

theorem markDirty_shape (m : BufMgr) (f : Nat) (d : Bool) :
    (markDirty m f d).numBufs = m.numBufs ∧ (markDirty m f d).bufPool = m.bufPool ∧
    (markDirty m f d).hashTable = m.hashTable ∧ (markDirty m f d).clockHand = m.clockHand ∧
    (markDirty m f d).bufStats = m.bufStats ∧
    (markDirty m f d).bufDescTable.length = m.bufDescTable.length := by
  cases d <;> simp [markDirty, BufMgr.setDesc]

/-- `unPinPage` on a buffered page, by cases on the pin count. -/
theorem unPinPage_hit {D : Type} (fl : FileLayer D) (w : World D) (file pageNo f : Nat)
    (d : Bool) (h : w.mgr.hashTable.lookup file pageNo = some f) :
    unPinPage fl w file pageNo d =
      if ((markDirty w.mgr f d).desc f).pinCnt = 0 then
        ({ w with mgr := markDirty w.mgr f d },
          .raise (.PageNotPinned (fl.filename file) pageNo f))
      else
        ({ w with mgr := ((markDirty w.mgr f d).setDesc f
            { ((markDirty w.mgr f d).desc f) with
              pinCnt := ((markDirty w.mgr f d).desc f).pinCnt - 1 }) }, .ok ()) := by
  simp only [unPinPage, h, markDirty]

/-- What `unPinPage` does on a buffered page. -/
theorem unPinPage_hit_effect {D : Type} (fl : FileLayer D) (w : World D) (file pageNo f : Nat)
    (d : Bool) (hlt : f < w.mgr.bufDescTable.length)
    (h : w.mgr.hashTable.lookup file pageNo = some f) :
    (unPinPage fl w file pageNo d).2 =
      (if (w.mgr.desc f).pinCnt = 0 then .raise (.PageNotPinned (fl.filename file) pageNo f)
       else .ok ()) ∧
    (unPinPage fl w file pageNo d).1.mgr.desc f =
      ⟨(w.mgr.desc f).file, (w.mgr.desc f).pageNo, (w.mgr.desc f).frameNo,
        (w.mgr.desc f).pinCnt - 1, d || (w.mgr.desc f).dirty, (w.mgr.desc f).valid,
        (w.mgr.desc f).refbit⟩ ∧
    (∀ g, g ≠ f → (unPinPage fl w file pageNo d).1.mgr.desc g = w.mgr.desc g) ∧
    (unPinPage fl w file pageNo d).1.mgr.bufPool = w.mgr.bufPool ∧
    (unPinPage fl w file pageNo d).1.mgr.hashTable = w.mgr.hashTable ∧
    (unPinPage fl w file pageNo d).1.mgr.clockHand = w.mgr.clockHand ∧
    (unPinPage fl w file pageNo d).1.mgr.bufStats = w.mgr.bufStats ∧
    (unPinPage fl w file pageNo d).1.mgr.numBufs = w.mgr.numBufs ∧
    (unPinPage fl w file pageNo d).1.mgr.bufDescTable.length = w.mgr.bufDescTable.length ∧
    (unPinPage fl w file pageNo d).1.calls = w.calls ∧
    (unPinPage fl w file pageNo d).1.disk = w.disk := by
  obtain ⟨m1, m2, m3, m4, m5, m6⟩ := markDirty_shape w.mgr f d
  have hd := desc_markDirty_self w.mgr f d hlt
  have hpin : ((markDirty w.mgr f d).desc f).pinCnt = (w.mgr.desc f).pinCnt := by rw [hd]
  rw [unPinPage_hit fl w file pageNo f d h, hpin]
  by_cases hz : (w.mgr.desc f).pinCnt = 0
  · rw [if_pos hz, if_pos hz]
    refine ⟨rfl, ?_, fun g hg => desc_markDirty_ne _ _ _ _ (Ne.symm hg), m2, m3, m4, m5, m1, m6,
      rfl, rfl⟩
    show (markDirty w.mgr f d).desc f = _
    rw [hd]
    simp [hz]
  · rw [if_neg hz, if_neg hz]
    refine ⟨rfl, ?_, fun g hg => ?_, m2, m3, m4, m5, m1, ?_, rfl, rfl⟩
    · show (BufMgr.setDesc _ f _).desc f = _
      rw [desc_setDesc_self _ _ _ (by rw [m6]; exact hlt), hd]
    · show (BufMgr.setDesc _ f _).desc g = _
      rw [desc_setDesc_ne _ _ _ _ (Ne.symm hg)]
      exact desc_markDirty_ne _ _ _ _ (Ne.symm hg)
    · show (BufMgr.setDesc _ f _).bufDescTable.length = _
      rw [setDesc_length]; exact m6

/-- After a successful miss, the page is buffered in the returned frame with
one pin. -/
theorem readPage_miss_pinned_once {D : Type} (fl : FileLayer D) (w : World D)
    (file pageNo f : Nat) (hS : w.mgr.SizeOK)
    (hmiss : w.mgr.hashTable.lookup file pageNo = none)
    (hf : (readPage fl w file pageNo).2 = .ok f) :
    (readPage fl w file pageNo).1.mgr.hashTable.lookup file pageNo = some f ∧
    ((readPage fl w file pageNo).1.mgr.desc f).pinCnt = 1 ∧
    f < (readPage fl w file pageNo).1.mgr.bufDescTable.length := by
  rcases readPage_miss_cases fl w file pageNo hmiss with ⟨e, _, h⟩ | ⟨f2, _, _, h⟩ |
    ⟨f2, pg, hab, hrd, h⟩
  · rw [h] at hf; simp at hf
  · rw [h] at hf; simp at hf
  · have hf2 : f2 = f := by
      rw [h] at hf; simpa using hf
    subst hf2
    obtain ⟨_, _, a3, a4, _, _, a7⟩ := readPage_miss_ok fl w file pageNo f2 pg hS hmiss hab hrd
    obtain ⟨k1, _, _, _⟩ := allocBuf_ok fl w f2 hS hab
    refine ⟨a4, by rw [a3]; rfl, ?_⟩
    rw [a7, hS.2.1]; exact k1

/-- C7. When the index maps `(file, p)` to frame `f`, `unPinPage(file, p, d)`
fails with `PageNotPinned(filename, p, f)` if and only if the `pinCnt` of `f`
is 0, and otherwise returns normally with `pinCnt` decremented by exactly one.
In both cases the dirty bit of `f` becomes `d || dirty` (set when `d`, never
cleared, also when the call fails) and nothing else in the buffer state
changes.  Scenario S4: after a `readPage(F, p)` miss, a first
`unPinPage(F, p, false)` succeeds and a second one raises `PageNotPinned`. -/
theorem unPinPage_buffered {D : Type} (fl : FileLayer D) (w : World D) (file pageNo f : Nat)
    (d : Bool) (hS : w.mgr.SizeOK) (hR : w.mgr.IndexInRange)
    (hlk : w.mgr.hashTable.lookup file pageNo = some f) :
    ((unPinPage fl w file pageNo d).2 = .raise (.PageNotPinned (fl.filename file) pageNo f) ↔
      (w.mgr.desc f).pinCnt = 0) ∧
    ((w.mgr.desc f).pinCnt ≠ 0 → (unPinPage fl w file pageNo d).2 = .ok () ∧
      ((unPinPage fl w file pageNo d).1.mgr.desc f).pinCnt + 1 = (w.mgr.desc f).pinCnt) ∧
    ((w.mgr.desc f).pinCnt = 0 → ((unPinPage fl w file pageNo d).1.mgr.desc f).pinCnt = 0) ∧
    ((unPinPage fl w file pageNo d).1.mgr.desc f).dirty = (d || (w.mgr.desc f).dirty) ∧
    ((unPinPage fl w file pageNo d).1.mgr.desc f).file = (w.mgr.desc f).file ∧
    ((unPinPage fl w file pageNo d).1.mgr.desc f).pageNo = (w.mgr.desc f).pageNo ∧
    ((unPinPage fl w file pageNo d).1.mgr.desc f).frameNo = (w.mgr.desc f).frameNo ∧
    ((unPinPage fl w file pageNo d).1.mgr.desc f).valid = (w.mgr.desc f).valid ∧
    ((unPinPage fl w file pageNo d).1.mgr.desc f).refbit = (w.mgr.desc f).refbit ∧
    (∀ g, g ≠ f → (unPinPage fl w file pageNo d).1.mgr.desc g = w.mgr.desc g) ∧
    (unPinPage fl w file pageNo d).1.mgr.bufPool = w.mgr.bufPool ∧
    (unPinPage fl w file pageNo d).1.mgr.hashTable = w.mgr.hashTable ∧
    (unPinPage fl w file pageNo d).1.mgr.clockHand = w.mgr.clockHand ∧
    (unPinPage fl w file pageNo d).1.mgr.bufStats = w.mgr.bufStats ∧
    (unPinPage fl w file pageNo d).1.mgr.numBufs = w.mgr.numBufs ∧
    (unPinPage fl w file pageNo d).1.calls = w.calls ∧
    (unPinPage fl w file pageNo d).1.disk = w.disk ∧
    (∀ (w0 : World D) (F p f0 : Nat), w0.mgr.SizeOK →
      w0.mgr.hashTable.lookup F p = none → (readPage fl w0 F p).2 = .ok f0 →
      (unPinPage fl (readPage fl w0 F p).1 F p false).2 = .ok () ∧
      (unPinPage fl (unPinPage fl (readPage fl w0 F p).1 F p false).1 F p false).2
        = .raise (.PageNotPinned (fl.filename F) p f0)) := by
  have hlt : f < w.mgr.bufDescTable.length := by
    rw [hS.2.1]; exact lookup_lt w.mgr file pageNo f hR hlk
  obtain ⟨e1, e2, e3, e4, e5, e6, e7, e8, _, e10, e11⟩ :=
    unPinPage_hit_effect fl w file pageNo f d hlt hlk
  refine ⟨?_, ?_, ?_, by rw [e2], by rw [e2], by rw [e2], by rw [e2], by rw [e2], by rw [e2],
    e3, e4, e5, e6, e7, e8, e10, e11, ?_⟩
  · rw [e1]
    by_cases hz : (w.mgr.desc f).pinCnt = 0
    · simp [hz]
    · simp [hz]
  · intro hz
    rw [e1, e2, if_neg hz]
    exact ⟨rfl, Nat.succ_pred_eq_of_ne_zero hz⟩
  · intro hz
    rw [e2]
    show (w.mgr.desc f).pinCnt - 1 = 0
    rw [hz]
  · intro w0 F p f0 hS0 hmiss hf
    obtain ⟨b1, b2, b3⟩ := readPage_miss_pinned_once fl w0 F p f0 hS0 hmiss hf
    obtain ⟨c1, c2, _, _, c5, _, _, _, c9, _, _⟩ :=
      unPinPage_hit_effect fl (readPage fl w0 F p).1 F p f0 false b3 b1
    have c1b : (unPinPage fl (readPage fl w0 F p).1 F p false).2 = .ok () := by
      rw [c1, b2]; rfl
    refine ⟨c1b, ?_⟩
    obtain ⟨d1, _⟩ := unPinPage_hit_effect fl (unPinPage fl (readPage fl w0 F p).1 F p false).1
      F p f0 false (by rw [c9]; exact b3) (by rw [c5]; exact b1)
    rw [d1, c2, b2]
    rfl

/-- C8. Pin round trip: when `(file, p)` is buffered in frame `f` with
`pinCnt = k`, `readPage(file, p)` followed by `unPinPage(file, p, d)`, for
either value of `d`, succeeds and leaves `f` still holding `(file, p)` with
`pinCnt = k`. -/
theorem pin_round_trip {D : Type} (fl : FileLayer D) (w : World D) (file pageNo f k : Nat)
    (d : Bool) (hS : w.mgr.SizeOK) (hR : w.mgr.IndexInRange)
    (hlk : w.mgr.hashTable.lookup file pageNo = some f) (hk : (w.mgr.desc f).pinCnt = k) :
    (readPage fl w file pageNo).2 = .ok f ∧
    (unPinPage fl (readPage fl w file pageNo).1 file pageNo d).2 = .ok () ∧
    (unPinPage fl (readPage fl w file pageNo).1 file pageNo d).1.mgr.hashTable.lookup
      file pageNo = some f ∧
    ((unPinPage fl (readPage fl w file pageNo).1 file pageNo d).1.mgr.desc f).file
      = (w.mgr.desc f).file ∧
    ((unPinPage fl (readPage fl w file pageNo).1 file pageNo d).1.mgr.desc f).pageNo
      = (w.mgr.desc f).pageNo ∧
    ((unPinPage fl (readPage fl w file pageNo).1 file pageNo d).1.mgr.desc f).valid
      = (w.mgr.desc f).valid ∧
    ((unPinPage fl (readPage fl w file pageNo).1 file pageNo d).1.mgr.desc f).pinCnt = k := by
  have hlt : f < w.mgr.bufDescTable.length := by
    rw [hS.2.1]; exact lookup_lt w.mgr file pageNo f hR hlk
  have hq := readPage_hit fl w file pageNo f hlk
  have hd1 : (readPage fl w file pageNo).1.mgr.desc f =
      { (w.mgr.desc f) with refbit := true, pinCnt := (w.mgr.desc f).pinCnt + 1 } := by
    rw [hq]
    exact desc_setDesc_self _ _ _ hlt
  have hlk1 : (readPage fl w file pageNo).1.mgr.hashTable.lookup file pageNo = some f := by
    rw [hq]; exact hlk
  have hlt1 : f < (readPage fl w file pageNo).1.mgr.bufDescTable.length := by
    rw [hq]
    show f < (w.mgr.setDesc f _).bufDescTable.length
    rw [setDesc_length]; exact hlt
  obtain ⟨e1, e2, _, _, e5, _⟩ :=
    unPinPage_hit_effect fl (readPage fl w file pageNo).1 file pageNo f d hlt1 hlk1
  refine ⟨by rw [hq], ?_, by rw [e5]; exact hlk1, ?_, ?_, ?_, ?_⟩
  · rw [e1, hd1]
    rfl
  · rw [e2, hd1]
  · rw [e2, hd1]
  · rw [e2, hd1]
  · rw [e2, hd1]
    show (w.mgr.desc f).pinCnt + 1 - 1 = k
    rw [Nat.add_sub_cancel]; exact hk

/-- C9. When `(file, p)` is not in the index, `unPinPage(file, p, d)`, for
either value of `d`, returns normally, makes no `File` call and leaves the
whole state unchanged: descriptors, frame contents, index, clock hand,
statistics, and with them the file store and the log of `File` calls. -/
theorem unPinPage_absent_noop {D : Type} (fl : FileLayer D) (w : World D) (file pageNo : Nat)
    (d : Bool) (hmiss : w.mgr.hashTable.lookup file pageNo = none) :
    unPinPage fl w file pageNo d = (w, .ok ()) := by
  simp only [unPinPage, hmiss]

/-- The loop raises nothing but the exception of `hashTable->remove`. -/
theorem allocBufLoop_raise_kind (fuel : Nat) (m : BufMgr) (n : Nat) (m2 : BufMgr) (e : BufError)
    (h : allocBufLoop fuel m n = (m2, .raise e)) : e = .HashNotFound ∨ e = .FuelExhausted := by
  induction fuel generalizing m n with
  | zero =>
    simp only [allocBufLoop, Prod.mk.injEq, Outcome.raise.injEq] at h
    exact Or.inr h.2.symm
  | succ fuel ih =>
    simp only [allocBufLoop] at h
    split_ifs at h with h1 h2 h3 h4 h5
    · simp at h
    · exact ih (clearRefbit (advanceClock m)) (n + 1) h
    · simp at h
    · split at h
      · simp only [Prod.mk.injEq, Outcome.raise.injEq] at h
        exact Or.inl h.2.symm
      · simp at h
    · exact ih (advanceClock m) (n + 1) h
    · simp at h

theorem inv1_dirty_valid (m : BufMgr) (f : Nat) (h1 : m.Inv1) (hf : f < m.numBufs)
    (hd : (m.desc f).dirty = true) : (m.desc f).valid = true := by
  by_contra hv
  have h2 := (h1 f hf (by simpa using hv)).2
  rw [hd] at h2
  exact absurd h2 (by decide)

/-- C10. Victim writeback.  When `allocBuf` returns frame `f`: if `f` was
valid and dirty, exactly one `File.writePage` call was made, on the file of
`f` with the contents of frame `f`, it succeeded, and `diskwrites` grew by
exactly one; if `f` was invalid or not dirty, no `File` call was made and
`diskwrites` and the file store are unchanged; in both cases the descriptor of
`f` is left cleared.  When the writeback fails, `allocBuf` raises the `File`
error with that one `writePage` call made and the descriptor of the victim not
yet cleared (still valid, dirty and unpinned): the write comes before
`Clear()`.  Any other exception makes no `File` call. -/
theorem victim_writeback {D : Type} (fl : FileLayer D) (w : World D) (hS : w.mgr.SizeOK)
    (h1 : w.mgr.Inv1) :
    (∀ f, (allocBuf fl w).2 = .ok f →
      ((w.mgr.desc f).valid = true → (w.mgr.desc f).dirty = true →
        (allocBuf fl w).1.calls
          = w.calls ++ [FileCall.writePage (w.mgr.desc f).file (w.mgr.page f)] ∧
        fl.writePage w.disk (w.mgr.desc f).file (w.mgr.page f) = some (allocBuf fl w).1.disk ∧
        (allocBuf fl w).1.mgr.bufStats.diskwrites = w.mgr.bufStats.diskwrites + 1) ∧
      ((w.mgr.desc f).valid = false ∨ (w.mgr.desc f).dirty = false →
        (allocBuf fl w).1.calls = w.calls ∧ (allocBuf fl w).1.disk = w.disk ∧
        (allocBuf fl w).1.mgr.bufStats.diskwrites = w.mgr.bufStats.diskwrites) ∧
      ((allocBuf fl w).1.mgr.desc f).valid = false ∧
      ((allocBuf fl w).1.mgr.desc f).pinCnt = 0 ∧
      ((allocBuf fl w).1.mgr.desc f).dirty = false ∧
      ((allocBuf fl w).1.mgr.desc f).refbit = false) ∧
    ((allocBuf fl w).2 = .raise .FileFailure →
      (w.mgr.desc (allocBuf fl w).1.mgr.clockHand).valid = true ∧
      (w.mgr.desc (allocBuf fl w).1.mgr.clockHand).dirty = true ∧
      fl.writePage w.disk (w.mgr.desc (allocBuf fl w).1.mgr.clockHand).file
        (w.mgr.page (allocBuf fl w).1.mgr.clockHand) = none ∧
      (allocBuf fl w).1.calls
        = w.calls ++ [FileCall.writePage (w.mgr.desc (allocBuf fl w).1.mgr.clockHand).file
            (w.mgr.page (allocBuf fl w).1.mgr.clockHand)] ∧
      ((allocBuf fl w).1.mgr.desc (allocBuf fl w).1.mgr.clockHand).valid = true ∧
      ((allocBuf fl w).1.mgr.desc (allocBuf fl w).1.mgr.clockHand).dirty = true ∧
      ((allocBuf fl w).1.mgr.desc (allocBuf fl w).1.mgr.clockHand).pinCnt = 0 ∧
      (allocBuf fl w).1.disk = w.disk ∧
      (allocBuf fl w).1.mgr.bufStats.diskwrites = w.mgr.bufStats.diskwrites) ∧
    (∀ e, (allocBuf fl w).2 = .raise e → e ≠ .FileFailure →
      (allocBuf fl w).1.calls = w.calls ∧ (allocBuf fl w).1.disk = w.disk ∧
      (allocBuf fl w).1.mgr.bufStats.diskwrites = w.mgr.bufStats.diskwrites) := by
  obtain ⟨m1, lr, hl, hc⟩ := allocBuf_cases fl w
  have hrel : w.mgr.SweepRel m1 := by
    have := allocBufLoop_sweepRel (2 * w.mgr.numBufs + 1) w.mgr 0
    rwa [hl] at this
  obtain ⟨r1, r2, r3, r4, r5, r6⟩ := hrel
  obtain ⟨s1, _, _, s4, s5, s6, _⟩ := r6 m1.clockHand
  have hpage : m1.page m1.clockHand = w.mgr.page m1.clockHand := by
    unfold BufMgr.page; rw [r2]
  have hclr : ∀ f, (allocBuf fl w).2 = .ok f →
      ((allocBuf fl w).1.mgr.desc f).valid = false ∧
      ((allocBuf fl w).1.mgr.desc f).pinCnt = 0 ∧
      ((allocBuf fl w).1.mgr.desc f).dirty = false ∧
      ((allocBuf fl w).1.mgr.desc f).refbit = false := by
    intro f hf
    rw [(allocBuf_ok fl w f hS hf).2.2.2]
    exact ⟨rfl, rfl, rfl, rfl⟩
  rcases hc with ⟨e, hlr, h⟩ | ⟨n, _, _, h⟩ | ⟨n, avail, _, _, hd, h⟩ |
    ⟨n, avail, hlr, hsel, hd, hw, h⟩ | ⟨n, avail, disk1, _, _, hd, hw, h⟩
  · refine ⟨fun f hf => ?_, fun hf => ?_, fun e2 _ _ => ?_⟩
    · rw [h] at hf; simp at hf
    · exfalso
      rw [h] at hf
      simp only [Outcome.raise.injEq] at hf
      subst hf
      rw [hlr] at hl
      rcases allocBufLoop_raise_kind _ _ _ _ _ hl with h3 | h3 <;> simp at h3
    · rw [h]; exact ⟨rfl, rfl, r5⟩
  · refine ⟨fun f hf => ?_, fun hf => ?_, fun e2 _ _ => ?_⟩
    · rw [h] at hf; simp at hf
    · rw [h] at hf; simp at hf
    · rw [h]; exact ⟨rfl, rfl, r5⟩
  · refine ⟨fun f hf => ⟨?_, ?_, hclr f hf⟩, fun hf => ?_, fun e2 he _ => ?_⟩
    · intro _ hdirty
      rw [h] at hf
      simp only [Outcome.ok.injEq] at hf
      subst hf
      rw [← s5, hd] at hdirty
      exact absurd hdirty (by decide)
    · intro _
      rw [h]
      exact ⟨rfl, rfl, r5⟩
    · rw [h] at hf; simp at hf
    · rw [h] at he; simp at he
  · rw [hlr] at hl
    obtain ⟨k1, _⟩ := allocBufLoop_selected _ _ _ _ _ _ hS.1 hl (by rw [← r1]; exact hsel)
    obtain ⟨_, _, c, _⟩ := allocBufLoop_ok _ _ _ _ _ _ hS.1 hl
    have hdw : (w.mgr.desc m1.clockHand).dirty = true := by rw [← s5]; exact hd
    have hvw := inv1_dirty_valid w.mgr m1.clockHand h1 k1 hdw
    have hpin : (m1.desc m1.clockHand).pinCnt = 0 := by
      cases avail with
      | true => exact (c rfl).2.2.1
      | false =>
        rcases hsel with h3 | h3
        · obtain ⟨_, _, _, d⟩ := allocBufLoop_ok _ _ _ _ _ _ hS.1 hl
          rcases (d rfl).2 with d1 | d1
          · rw [s6, hvw] at d1; exact absurd d1 (by decide)
          · rw [r1] at h3; omega
        · simp at h3
    refine ⟨fun f hf => ?_, fun _ => ?_, fun e2 he hne => ?_⟩
    · rw [h] at hf; simp at hf
    · rw [h]
      refine ⟨hvw, hdw, ?_, ?_, ?_, ?_, hpin, rfl, r5⟩
      · show fl.writePage w.disk (w.mgr.desc m1.clockHand).file (w.mgr.page m1.clockHand) = none
        rw [← s1, ← hpage]; exact hw
      · show w.calls ++ [FileCall.writePage (m1.desc m1.clockHand).file (m1.page m1.clockHand)]
          = w.calls ++ [FileCall.writePage (w.mgr.desc m1.clockHand).file
              (w.mgr.page m1.clockHand)]
        rw [s1, hpage]
      · show (m1.desc m1.clockHand).valid = true
        rw [s6]; exact hvw
      · exact hd
    · rw [h] at he
      simp only [Outcome.raise.injEq] at he
      exact absurd he.symm hne
  · refine ⟨fun f hf => ⟨?_, ?_, hclr f hf⟩, fun hf => ?_, fun e2 he _ => ?_⟩
    · intro _ _
      rw [h] at hf ⊢
      simp only [Outcome.ok.injEq] at hf
      subst hf
      refine ⟨?_, ?_, ?_⟩
      · show w.calls ++ [FileCall.writePage (m1.desc m1.clockHand).file (m1.page m1.clockHand)]
          = w.calls ++ [FileCall.writePage (w.mgr.desc m1.clockHand).file
              (w.mgr.page m1.clockHand)]
        rw [s1, hpage]
      · show fl.writePage w.disk (w.mgr.desc m1.clockHand).file (w.mgr.page m1.clockHand)
          = some disk1
        rw [← s1, ← hpage]; exact hw
      · show m1.bufStats.diskwrites + 1 = w.mgr.bufStats.diskwrites + 1
        rw [r5]
    · intro hcl
      rw [h] at hf
      simp only [Outcome.ok.injEq] at hf
      subst hf
      have hdw : (w.mgr.desc m1.clockHand).dirty = true := by rw [← s5]; exact hd
      have k1 := (allocBuf_ok fl w m1.clockHand hS (by rw [h])).1
      have hvw := inv1_dirty_valid w.mgr m1.clockHand h1 k1 hdw
      rcases hcl with hcl | hcl
      · rw [hvw] at hcl; exact absurd hcl (by decide)
      · rw [hdw] at hcl; exact absurd hcl (by decide)
    · rw [h] at hf; simp at hf
    · rw [h] at he; simp at he

/-- On a pool of two frames with unique keys: page 1 pinned in frame 0, page 2
unpinned and dirty in frame 1; reading page 10 takes frame 1 and frame 0
keeps everything. -/
theorem pinned_frame_never_victim_witness :
    poolPinnedAndDirty.mgr.SizeOK ∧ poolPinnedAndDirty.mgr.Inv1 ∧
    poolPinnedAndDirty.mgr.UniqueKeys ∧
    poolPinnedAndDirty.mgr.hashTable.lookup 1 10 = none ∧
    poolPinnedAndDirty.mgr.Pinned 0 ∧
    (readPage memFile poolPinnedAndDirty 1 10).2 = .ok 1 ∧
    poolPinnedAndDirty.mgr.Evictable 1 ∧
    poolPinnedAndDirty.mgr.Kept (readPage memFile poolPinnedAndDirty 1 10).1.mgr 0 ∧
    poolPinnedAndDirty.mgr.StillMapped (readPage memFile poolPinnedAndDirty 1 10).1.mgr 0 ∧
    poolPinnedAndDirty.mgr.Kept (allocBuf memFile poolPinnedAndDirty).1.mgr 0 ∧
    poolPinnedAndDirty.mgr.Kept (allocPage memFile poolPinnedAndDirty 1).1.mgr 0 :=
  ⟨by decide, by decide, by decide, by decide, by decide, by decide,
    ((pinned_frame_never_victim memFile poolPinnedAndDirty 1 10 (by decide) (by decide)
      (by decide)).2.1 (by decide)).1 1 (by decide),
    (((pinned_frame_never_victim memFile poolPinnedAndDirty 1 10 (by decide) (by decide)
      (by decide)).2.1 (by decide)).2 0 (by decide)).1,
    (((pinned_frame_never_victim memFile poolPinnedAndDirty 1 10 (by decide) (by decide)
      (by decide)).2.1 (by decide)).2 0 (by decide)).2,
    ((pinned_frame_never_victim memFile poolPinnedAndDirty 1 10 (by decide) (by decide)
      (by decide)).1.2 0 (by decide)).1,
    ((pinned_frame_never_victim memFile poolPinnedAndDirty 1 10 (by decide) (by decide)
      (by decide)).2.2.2 0 (by decide)).1⟩

/-- C2 on scenario S3: one frame, page 1 read and left pinned; reading page 2
or allocating a page raises `BufferExceeded`. -/
theorem all_pinned_buffer_exceeded_witness :
    0 < poolOnePinned.mgr.numBufs ∧ poolOnePinned.mgr.AllPinned ∧
    poolOnePinned.mgr.hashTable.lookup 1 2 = none ∧
    (readPage memFile poolOnePinned 1 2).2 = .raise .BufferExceeded ∧
    (allocPage memFile poolOnePinned 1).2 = .raise .BufferExceeded ∧
    (readPage memFile (World.new 1 diskF) 1 1).2 = .ok 0 ∧
    (readPage memFile (readPage memFile (World.new 1 diskF) 1 1).1 1 2).2
      = .raise .BufferExceeded :=
  ⟨by decide, by decide, by decide,
    (all_pinned_buffer_exceeded memFile poolOnePinned 1 2 (by decide) (by decide)).1 (by decide),
    (all_pinned_buffer_exceeded memFile poolOnePinned 1 2 (by decide) (by decide)).2.1,
    by decide,
    (all_pinned_buffer_exceeded memFile poolOnePinned 1 2 (by decide) (by decide)).2.2
      diskF 1 1 2 0 (by decide) (by decide)⟩

/-- C3 on the pool of two frames: the only unpinned frame has its refbit set
and is taken at the fourth advance of the hand, the last one allowed. -/
theorem unpinned_frame_is_found_witness :
    poolPinnedAndDirty.mgr.SizeOK ∧ poolPinnedAndDirty.mgr.Inv1 ∧
    poolPinnedAndDirty.mgr.Indexed ∧ 1 < poolPinnedAndDirty.mgr.numBufs ∧
    poolPinnedAndDirty.mgr.Evictable 1 ∧
    (poolPinnedAndDirty.mgr.desc 1).refbit = true ∧
    (allocBufLoop (2 * poolPinnedAndDirty.mgr.numBufs + 1) poolPinnedAndDirty.mgr 0).2
      = .ok (4, true) ∧
    (allocBuf memFile poolPinnedAndDirty).2 = .ok 1 ∧
    (allocBuf memFile poolPinnedAndDirty).2 ≠ .raise .BufferExceeded :=
  ⟨by decide, by decide, by decide, by decide, by decide, by decide, by decide, by decide,
    (unpinned_frame_is_found memFile poolPinnedAndDirty 1 (by decide) (by decide) (by decide)
      (by decide) (by decide)).1⟩

/-- C4 on a fresh pool of two frames: reading page 10 fills frame 0. -/
theorem readPage_miss_postcondition_witness :
    (World.new 2 diskF).mgr.SizeOK ∧ (World.new 2 diskF).mgr.IndexInRange ∧
    (World.new 2 diskF).mgr.hashTable.lookup 1 10 = none ∧
    (allocBuf memFile (World.new 2 diskF)).2 = .ok 0 ∧
    memFile.readPage (allocBuf memFile (World.new 2 diskF)).1.disk 1 10 = some ⟨10, [100]⟩ ∧
    (readPage memFile (World.new 2 diskF) 1 10).2 = .ok 0 ∧
    (readPage memFile (World.new 2 diskF) 1 10).1.mgr.page 0 = ⟨10, [100]⟩ ∧
    1 ≤ ((readPage memFile (World.new 2 diskF) 1 10).1.mgr.desc 0).pinCnt :=
  ⟨by decide, by decide, by decide, by decide, by decide,
    ((readPage_miss_postcondition memFile (World.new 2 diskF) 1 10 (by decide) (by decide)).1
      0 ⟨10, [100]⟩ (by decide) (by decide) (by decide)).1,
    ((readPage_miss_postcondition memFile (World.new 2 diskF) 1 10 (by decide) (by decide)).1
      0 ⟨10, [100]⟩ (by decide) (by decide) (by decide)).2.1,
    (readPage_miss_postcondition memFile (World.new 2 diskF) 1 10 (by decide) (by decide)).2
      0 (by decide)⟩

/-- C5 on scenario S3's pool: a second `readPage` of page 1 hits frame 0 and
leaves two pins on it. -/
theorem readPage_hit_postcondition_witness :
    poolOnePinned.mgr.SizeOK ∧ poolOnePinned.mgr.IndexInRange ∧
    poolOnePinned.mgr.hashTable.lookup 1 1 = some 0 ∧
    (readPage memFile poolOnePinned 1 1).2 = .ok 0 ∧
    ((readPage memFile poolOnePinned 1 1).1.mgr.desc 0).refbit = true ∧
    ((readPage memFile poolOnePinned 1 1).1.mgr.desc 0).pinCnt
      = (poolOnePinned.mgr.desc 0).pinCnt + 1 ∧
    (World.new 1 diskF).mgr.SizeOK ∧ (World.new 1 diskF).mgr.IndexInRange ∧
    (World.new 1 diskF).mgr.hashTable.lookup 1 1 = none ∧
    (readPage memFile (World.new 1 diskF) 1 1).2 = .ok 0 ∧
    ((readPage memFile (readPage memFile (World.new 1 diskF) 1 1).1 1 1).1.mgr.desc 0).pinCnt
      = 2 :=
  ⟨by decide, by decide, by decide,
    ((readPage_hit_postcondition memFile poolOnePinned 1 1 (by decide) (by decide)).1 0
      (by decide)).1,
    ((readPage_hit_postcondition memFile poolOnePinned 1 1 (by decide) (by decide)).1 0
      (by decide)).2.1,
    ((readPage_hit_postcondition memFile poolOnePinned 1 1 (by decide) (by decide)).1 0
      (by decide)).2.2.1,
    by decide, by decide, by decide, by decide,
    ((readPage_hit_postcondition memFile (World.new 1 diskF) 1 1 (by decide) (by decide)).2 0
      (by decide) (by decide)).2⟩

/-- C6 on a fresh pool of two frames: the file hands out page 31, placed in
frame 0. -/
theorem allocPage_postcondition_witness :
    (World.new 2 diskF).mgr.SizeOK ∧
    (allocBuf memFile (afterAllocate memFile (World.new 2 diskF) 1)).2 = .ok 0 ∧
    (allocPage memFile (World.new 2 diskF) 1).2 = .ok (31, 0) ∧
    (allocPage memFile (World.new 2 diskF) 1).1.mgr.page 0 = ⟨31, []⟩ :=
  ⟨by decide, by decide,
    (allocPage_postcondition memFile (World.new 2 diskF) 1 0 (by decide) (by decide)).1,
    (allocPage_postcondition memFile (World.new 2 diskF) 1 0 (by decide) (by decide)).2.1⟩

/-- C7 on scenario S4: the first unpin of page 1 succeeds, the second raises
`PageNotPinned`. -/
theorem unPinPage_buffered_witness :
    poolOnePinned.mgr.SizeOK ∧ poolOnePinned.mgr.IndexInRange ∧
    poolOnePinned.mgr.hashTable.lookup 1 1 = some 0 ∧
    (poolOnePinned.mgr.desc 0).pinCnt ≠ 0 ∧
    (unPinPage memFile poolOnePinned 1 1 true).2 = .ok () ∧
    ((unPinPage memFile poolOnePinned 1 1 true).1.mgr.desc 0).dirty
      = (true || (poolOnePinned.mgr.desc 0).dirty) ∧
    (unPinPage memFile (unPinPage memFile (readPage memFile (World.new 1 diskF) 1 1).1
      1 1 false).1 1 1 false).2 = .raise (.PageNotPinned (memFile.filename 1) 1 0) :=
  ⟨by decide, by decide, by decide, by decide,
    ((unPinPage_buffered memFile poolOnePinned 1 1 0 true (by decide) (by decide)
      (by decide)).2.1 (by decide)).1,
    (unPinPage_buffered memFile poolOnePinned 1 1 0 true (by decide) (by decide)
      (by decide)).2.2.2.1,
    ((unPinPage_buffered memFile poolOnePinned 1 1 0 true (by decide) (by decide)
      (by decide)).2.2.2.2.2.2.2.2.2.2.2.2.2.2.2.2.2
        (World.new 1 diskF) 1 1 0 (by decide) (by decide) (by decide)).2⟩

/-- C8 on the pool with page 1 pinned once: read, unpin, one pin again. -/
theorem pin_round_trip_witness :
    poolOnePinned.mgr.SizeOK ∧ poolOnePinned.mgr.IndexInRange ∧
    poolOnePinned.mgr.hashTable.lookup 1 1 = some 0 ∧ (poolOnePinned.mgr.desc 0).pinCnt = 1 ∧
    (unPinPage memFile (readPage memFile poolOnePinned 1 1).1 1 1 true).2 = .ok () ∧
    ((unPinPage memFile (readPage memFile poolOnePinned 1 1).1 1 1 true).1.mgr.desc 0).pinCnt
      = 1 :=
  ⟨by decide, by decide, by decide, by decide,
    (pin_round_trip memFile poolOnePinned 1 1 0 1 true (by decide) (by decide) (by decide)
      (by decide)).2.1,
    (pin_round_trip memFile poolOnePinned 1 1 0 1 true (by decide) (by decide) (by decide)
      (by decide)).2.2.2.2.2.2⟩

/-- C9 on the pool holding page 1 only: unpinning page 2 changes nothing. -/
theorem unPinPage_absent_noop_witness :
    poolOnePinned.mgr.hashTable.lookup 1 2 = none ∧
    unPinPage memFile poolOnePinned 1 2 true = (poolOnePinned, .ok ()) :=
  ⟨by decide, unPinPage_absent_noop memFile poolOnePinned 1 2 true (by decide)⟩

/-- C10 on the pool of two frames: evicting dirty page 2 makes one `writePage`
call; over a file store where that write fails, the victim is not cleared. -/
theorem victim_writeback_witness :
    poolPinnedAndDirty.mgr.SizeOK ∧ poolPinnedAndDirty.mgr.Inv1 ∧
    (allocBuf memFile poolPinnedAndDirty).2 = .ok 1 ∧
    (poolPinnedAndDirty.mgr.desc 1).valid = true ∧ (poolPinnedAndDirty.mgr.desc 1).dirty = true ∧
    (allocBuf memFile poolPinnedAndDirty).1.calls
      = poolPinnedAndDirty.calls ++ [FileCall.writePage 1 ⟨2, [22]⟩] ∧
    (allocBuf memFile poolPinnedAndDirty).1.mgr.bufStats.diskwrites
      = poolPinnedAndDirty.mgr.bufStats.diskwrites + 1 ∧
    poolWriteFails.mgr.SizeOK ∧ poolWriteFails.mgr.Inv1 ∧
    (allocBuf memFile poolWriteFails).2 = .raise .FileFailure ∧
    ((allocBuf memFile poolWriteFails).1.mgr.desc
      (allocBuf memFile poolWriteFails).1.mgr.clockHand).valid = true ∧
    (allocBuf memFile poolWriteFails).1.mgr.bufStats.diskwrites
      = poolWriteFails.mgr.bufStats.diskwrites :=
  ⟨by decide, by decide, by decide, by decide, by decide,
    (((victim_writeback memFile poolPinnedAndDirty (by decide) (by decide)).1 1 (by decide)).1
      (by decide) (by decide)).1,
    (((victim_writeback memFile poolPinnedAndDirty (by decide) (by decide)).1 1 (by decide)).1
      (by decide) (by decide)).2.2,
    by decide, by decide, by decide,
    ((victim_writeback memFile poolWriteFails (by decide) (by decide)).2.1
      (by decide)).2.2.2.2.1,
    ((victim_writeback memFile poolWriteFails (by decide) (by decide)).2.1
      (by decide)).2.2.2.2.2.2.2.2⟩

theorem lookup_remove_erase (ht : BufHashTbl) (file pageNo f : Nat)
    (h : ht.lookup file pageNo = some f) :
    ht.remove file pageNo = some (ht.erase ⟨file, pageNo, f⟩) := by
  induction ht with
  | nil => simp [BufHashTbl.lookup] at h
  | cons e es ih =>
    by_cases hk : e.file = file ∧ e.pageNo = pageNo
    · simp only [BufHashTbl.lookup, hk, and_self, if_true, Option.some.injEq] at h
      have he : e = ⟨file, pageNo, f⟩ := by
        cases e; simp_all
      rw [he]
      simp [BufHashTbl.remove]
    · simp only [BufHashTbl.lookup, hk, if_false] at h
      have hne : ¬ ((e == (⟨file, pageNo, f⟩ : HashEntry)) = true) := by
        intro heq
        have : e = ⟨file, pageNo, f⟩ := by simpa using heq
        rw [this] at hk
        exact hk ⟨rfl, rfl⟩
      rw [List.erase_cons_tail hne]
      simp [BufHashTbl.remove, hk, ih h]

theorem lookup_none_of_keysDistinct (ht : BufHashTbl) (file pageNo f : Nat)
    (hK : ht.Pairwise (fun a b => ¬ (a.file = b.file ∧ a.pageNo = b.pageNo)))
    (h : ht.lookup file pageNo = some f) :
    BufHashTbl.lookup (ht.erase ⟨file, pageNo, f⟩) file pageNo = none := by
  induction ht with
  | nil => simp [BufHashTbl.lookup] at h
  | cons e es ih =>
    obtain ⟨hhead, htail⟩ := List.pairwise_cons.1 hK
    by_cases hk : e.file = file ∧ e.pageNo = pageNo
    · simp only [BufHashTbl.lookup, hk, and_self, if_true, Option.some.injEq] at h
      have he : e = ⟨file, pageNo, f⟩ := by
        cases e; simp_all
      rw [he, List.erase_cons_head]
      -- no later entry has the key of the head
      have hno : ∀ l : BufHashTbl, (∀ a, a ∈ l → ¬ (a.file = file ∧ a.pageNo = pageNo)) →
          BufHashTbl.lookup l file pageNo = none := by
        intro l hl
        induction l with
        | nil => rfl
        | cons a l ih2 =>
          have ha := hl a (List.mem_cons_self _ _)
          simp only [BufHashTbl.lookup, ha, if_false]
          exact ih2 (fun b hb => hl b (List.mem_cons_of_mem _ hb))
      apply hno
      intro a ha hka
      exact hhead a ha ⟨hk.1.trans hka.1.symm, hk.2.trans hka.2.symm⟩
    · simp only [BufHashTbl.lookup, hk, if_false] at h
      have hne : ¬ ((e == (⟨file, pageNo, f⟩ : HashEntry)) = true) := by
        intro heq
        have : e = ⟨file, pageNo, f⟩ := by simpa using heq
        rw [this] at hk
        exact hk ⟨rfl, rfl⟩
      rw [List.erase_cons_tail hne]
      simp only [BufHashTbl.lookup, hk, if_false]
      exact ih htail h

/-- `disposePage` on a buffered page. -/
theorem disposePage_hit {D : Type} (fl : FileLayer D) (w : World D) (file PageNo f : Nat)
    (h : w.mgr.hashTable.lookup file PageNo = some f) :
    disposePage fl w file PageNo =
      ({ mgr := { w.mgr.setDesc f (w.mgr.desc f).Clear with
                  hashTable := w.mgr.hashTable.erase ⟨file, PageNo, f⟩ },
         disk := fl.deletePage w.disk file PageNo,
         calls := w.calls ++ [FileCall.deletePage file PageNo] }, .ok ()) := by
  have hr : (w.mgr.setDesc f (w.mgr.desc f).Clear).hashTable.remove file PageNo
      = some (w.mgr.hashTable.erase ⟨file, PageNo, f⟩) := lookup_remove_erase _ _ _ _ h
  simp only [disposePage, h, hr]

/-- C14, as stated, fails: on a fresh pool page 1 of `F` is not buffered, and
`disposePage(F, 1)` returns without any `File` call; page 1 is still in the
file. -/
theorem disposePage_absent_skips_delete :
    (World.new 1 diskF).mgr.hashTable.lookup 1 1 = none ∧
    (disposePage memFile (World.new 1 diskF) 1 1).2 = .ok () ∧
    FileCall.deletePage 1 1 ∉ (disposePage memFile (World.new 1 diskF) 1 1).1.calls ∧
    (disposePage memFile (World.new 1 diskF) 1 1).1.calls = [] ∧
    memFile.readPage (disposePage memFile (World.new 1 diskF) 1 1).1.disk 1 1
      = some ⟨1, [11]⟩ := by
  decide

/-- C14, amended.  When `(file, p)` is not in the index, `disposePage(file, p)`
returns normally and leaves everything unchanged: the buffer state, the file
store and the log of `File` calls, so `File.deletePage` is not called.  When
the index maps `(file, p)` to a frame, `File.deletePage(p)` is called exactly
once and it is the only `File` call. -/
theorem disposePage_deletes_when_buffered {D : Type} (fl : FileLayer D) (w : World D)
    (file p : Nat) :
    (w.mgr.hashTable.lookup file p = none → disposePage fl w file p = (w, .ok ())) ∧
    (∀ f, w.mgr.hashTable.lookup file p = some f →
      (disposePage fl w file p).2 = .ok () ∧
      (disposePage fl w file p).1.calls = w.calls ++ [FileCall.deletePage file p] ∧
      (disposePage fl w file p).1.disk = fl.deletePage w.disk file p) := by
  constructor
  · intro hmiss
    simp only [disposePage, hmiss]
  · intro f hlk
    rw [disposePage_hit fl w file p f hlk]
    exact ⟨rfl, rfl, rfl⟩

/-- C14 amended, on the pool holding page 1 of `F` only: disposing page 2
changes nothing, disposing page 1 deletes it from the file. -/
theorem disposePage_deletes_when_buffered_witness :
    poolOnePinned.mgr.hashTable.lookup 1 2 = none ∧
    disposePage memFile poolOnePinned 1 2 = (poolOnePinned, .ok ()) ∧
    poolOnePinned.mgr.hashTable.lookup 1 1 = some 0 ∧
    (disposePage memFile poolOnePinned 1 1).1.calls
      = poolOnePinned.calls ++ [FileCall.deletePage 1 1] :=
  ⟨by decide,
    (disposePage_deletes_when_buffered memFile poolOnePinned 1 2).1 (by decide),
    by decide,
    ((disposePage_deletes_when_buffered memFile poolOnePinned 1 1).2 0 (by decide)).2.1⟩

/-- C15. When the index maps `(file, p)` to frame `f`, whatever the dirty bit
and pin count of `f`, `disposePage(file, p)` returns normally, resets the
descriptor of `f` to the unoccupied state (`valid = false`, `pinCnt = 0`,
`dirty = false`), removes the index entry `(file, p) -> f` and no other,
makes exactly one `File` call, `deletePage(p)` (so never `writePage`), and
leaves every other descriptor, the frame contents, the clock hand and the
statistics unchanged; when the index has one entry per key, `(file, p)` is no
longer found.  Scenario S6 on the in-memory store: `allocPage(F)` gives page
31, `unPinPage(F, 31, true)`, `disposePage(F, 31)`: the `File` calls are
`allocatePage` and one `deletePage`. -/
theorem disposePage_buffered {D : Type} (fl : FileLayer D) (w : World D) (file p f : Nat)
    (hS : w.mgr.SizeOK) (hR : w.mgr.IndexInRange)
    (hlk : w.mgr.hashTable.lookup file p = some f) :
    (disposePage fl w file p).2 = .ok () ∧
    ((disposePage fl w file p).1.mgr.desc f).valid = false ∧
    ((disposePage fl w file p).1.mgr.desc f).pinCnt = 0 ∧
    ((disposePage fl w file p).1.mgr.desc f).dirty = false ∧
    (disposePage fl w file p).1.mgr.desc f = (w.mgr.desc f).Clear ∧
    (disposePage fl w file p).1.mgr.hashTable = w.mgr.hashTable.erase ⟨file, p, f⟩ ∧
    (w.mgr.KeysDistinct → (disposePage fl w file p).1.mgr.hashTable.lookup file p = none) ∧
    (disposePage fl w file p).1.calls = w.calls ++ [FileCall.deletePage file p] ∧
    (disposePage fl w file p).1.disk = fl.deletePage w.disk file p ∧
    (∀ g, g ≠ f → (disposePage fl w file p).1.mgr.desc g = w.mgr.desc g) ∧
    (disposePage fl w file p).1.mgr.bufPool = w.mgr.bufPool ∧
    (disposePage fl w file p).1.mgr.clockHand = w.mgr.clockHand ∧
    (disposePage fl w file p).1.mgr.bufStats = w.mgr.bufStats ∧
    (disposePage fl w file p).1.mgr.numBufs = w.mgr.numBufs ∧
    ((disposePage memFile poolS6 1 31).1.calls
        = [FileCall.allocatePage 1, FileCall.deletePage 1 31] ∧
      ((disposePage memFile poolS6 1 31).1.mgr.desc 0).valid = false ∧
      (disposePage memFile poolS6 1 31).1.mgr.hashTable = []) := by
  have hlt : f < w.mgr.bufDescTable.length := by
    rw [hS.2.1]; exact lookup_lt w.mgr file p f hR hlk
  have hd : (disposePage fl w file p).1.mgr.desc f = (w.mgr.desc f).Clear := by
    rw [disposePage_hit fl w file p f hlk]
    exact desc_setDesc_self _ _ _ hlt
  refine ⟨?_, by rw [hd]; rfl, by rw [hd]; rfl, by rw [hd]; rfl, hd, ?_, ?_, ?_, ?_, ?_, ?_, ?_,
    ?_, ?_, by decide⟩
  all_goals rw [disposePage_hit fl w file p f hlk]
  any_goals rfl
  · intro hK
    exact lookup_none_of_keysDistinct _ _ _ _ hK hlk
  · intro g hg
    exact desc_setDesc_ne _ _ _ _ (Ne.symm hg)

/-- C15 on scenario S6: page 31, dirty and unpinned in frame 0, is disposed
of without a writeback. -/
theorem disposePage_buffered_witness :
    poolS6.mgr.SizeOK ∧ poolS6.mgr.IndexInRange ∧ poolS6.mgr.hashTable.lookup 1 31 = some 0 ∧
    (poolS6.mgr.desc 0).dirty = true ∧
    ((disposePage memFile poolS6 1 31).1.mgr.desc 0).dirty = false ∧
    (disposePage memFile poolS6 1 31).1.calls = poolS6.calls ++ [FileCall.deletePage 1 31] :=
  ⟨by decide, by decide, by decide, by decide,
    (disposePage_buffered memFile poolS6 1 31 0 (by decide) (by decide) (by decide)).2.2.2.1,
    (disposePage_buffered memFile poolS6 1 31 0 (by decide) (by decide)
      (by decide)).2.2.2.2.2.2.2.1⟩

theorem lookup_eq_none_of_forall (ht : BufHashTbl) (file pageNo : Nat)
    (h : ∀ a, a ∈ ht → ¬ (a.file = file ∧ a.pageNo = pageNo)) :
    ht.lookup file pageNo = none := by
  induction ht with
  | nil => rfl
  | cons a l ih =>
    have ha := h a (List.mem_cons_self _ _)
    simp only [BufHashTbl.lookup, ha, if_false]
    exact ih (fun b hb => h b (List.mem_cons_of_mem _ hb))

/-- In an index without duplicate keys `remove` drops every entry of the
key. -/
theorem remove_eq_filter (ht : BufHashTbl) (file pageNo : Nat)
    (hK : ht.Pairwise (fun a b => ¬ (a.file = b.file ∧ a.pageNo = b.pageNo)))
    (h : ht.lookup file pageNo ≠ none) :
    ht.remove file pageNo
      = some (ht.filter (fun e => ¬ (e.file = file ∧ e.pageNo = pageNo))) := by
  induction ht with
  | nil => simp [BufHashTbl.lookup] at h
  | cons e es ih =>
    obtain ⟨hhead, htail⟩ := List.pairwise_cons.1 hK
    by_cases hk : e.file = file ∧ e.pageNo = pageNo
    · have hrest : es.filter (fun a => ¬ (a.file = file ∧ a.pageNo = pageNo)) = es := by
        apply List.filter_eq_self.2
        intro a ha
        have := hhead a ha
        simp only [decide_eq_true_eq]
        intro hka
        exact this ⟨hk.1.trans hka.1.symm, hk.2.trans hka.2.symm⟩
      have hp : (decide ¬ (e.file = file ∧ e.pageNo = pageNo)) = false := by simp [hk]
      simp only [BufHashTbl.remove, hk, and_self, if_true, List.filter_cons, hp,
        Bool.false_eq_true, if_false, hrest]
      simp
    · have h2 : BufHashTbl.lookup es file pageNo ≠ none := by
        simpa [BufHashTbl.lookup, hk] using h
      have hp : (decide ¬ (e.file = file ∧ e.pageNo = pageNo)) = true := by simp [hk]
      simp only [BufHashTbl.remove, hk, if_false, List.filter_cons, hp, if_true, ih htail h2,
        Option.map_some']
      simp

/-- In a coherent state the entries that carry the key of a valid frame are
those that name the frame. -/
theorem coherent_entry_key (m : BufMgr) (hC : m.Coherent) (e : HashEntry) (he : e ∈ m.hashTable)
    (i : Nat) (hi : i < m.numBufs) (hv : (m.desc i).valid = true) :
    (e.file = (m.desc i).file ∧ e.pageNo = (m.desc i).pageNo) ↔ e.frameNo = i := by
  obtain ⟨hE, hI, _⟩ := hC
  obtain ⟨e1, e2, e3, e4⟩ := hE e he
  constructor
  · rintro ⟨k1, k2⟩
    have h1 := hI e.frameNo e1 e2
    have h2 := hI i hi hv
    rw [e3, e4, k1, k2, h2] at h1
    exact (Option.some.inj h1).symm
  · intro h
    rw [← h]
    exact ⟨e3.symm, e4.symm⟩

/-- In a coherent state `remove` on the key of a valid frame drops the
entries naming that frame. -/
theorem coherent_remove (m : BufMgr) (hC : m.Coherent) (i : Nat) (hi : i < m.numBufs)
    (hv : (m.desc i).valid = true) :
    m.hashTable.remove (m.desc i).file (m.desc i).pageNo
      = some (m.hashTable.filter (fun e => e.frameNo ≠ i)) := by
  have hlk : m.hashTable.lookup (m.desc i).file (m.desc i).pageNo ≠ none := by
    rw [hC.2.1 i hi hv]; simp
  rw [remove_eq_filter _ _ _ hC.2.2 hlk]
  congr 1
  apply List.filter_congr
  intro e he
  have := coherent_entry_key m hC e he i hi hv
  by_cases hf : e.frameNo = i
  · simp [hf, this.2 hf]
  · have hk : ¬ (e.file = (m.desc i).file ∧ e.pageNo = (m.desc i).pageNo) :=
      fun hk => hf (this.1 hk)
    simp [hf, hk]

theorem lookup_filter_of (ht : BufHashTbl) (file pageNo : Nat) (P : HashEntry → Bool)
    (h : ∀ e, e ∈ ht → e.file = file ∧ e.pageNo = pageNo → P e = true) :
    BufHashTbl.lookup (ht.filter P) file pageNo = ht.lookup file pageNo := by
  induction ht with
  | nil => rfl
  | cons e es ih =>
    have ih2 := ih (fun a ha => h a (List.mem_cons_of_mem _ ha))
    by_cases hk : e.file = file ∧ e.pageNo = pageNo
    · have hp := h e (List.mem_cons_self _ _) hk
      simp only [List.filter_cons, hp, if_true, BufHashTbl.lookup, hk, and_self]
    · by_cases hp : P e = true
      · simp only [List.filter_cons, hp, if_true, BufHashTbl.lookup, hk, if_false, ih2]
      · simp only [List.filter_cons, hp, if_false, BufHashTbl.lookup, hk]
        exact ih2

theorem desc_releaseFrame_self (m : BufMgr) (i : Nat) (h : i < m.bufDescTable.length) :
    (releaseFrame m i).desc i = (m.desc i).Clear := by
  simp [BufMgr.desc, releaseFrame, List.getD_eq_getElem?_getD, List.getElem?_set_self h]

theorem desc_releaseFrame_ne (m : BufMgr) (i j : Nat) (h : i ≠ j) :
    (releaseFrame m i).desc j = m.desc j := by
  simp [BufMgr.desc, releaseFrame, List.getD_eq_getElem?_getD, List.getElem?_set_ne h]

theorem sizeOK_releaseFrame (m : BufMgr) (i : Nat) (hS : m.SizeOK) : (releaseFrame m i).SizeOK := by
  obtain ⟨h1, h2, h3⟩ := hS
  refine ⟨h1, ?_, h3⟩
  show (m.bufDescTable.set i _).length = m.numBufs
  rw [List.length_set]; exact h2

/-- Giving up a frame keeps the state coherent. -/
theorem coherent_releaseFrame (m : BufMgr) (i : Nat) (hS : m.SizeOK) (hC : m.Coherent)
    (hi : i < m.numBufs) : (releaseFrame m i).Coherent := by
  have hlen : i < m.bufDescTable.length := by rw [hS.2.1]; exact hi
  obtain ⟨hE, hI, hK⟩ := hC
  refine ⟨?_, ?_, ?_⟩
  · intro e he
    have he2 : e ∈ m.hashTable ∧ e.frameNo ≠ i := by
      have := List.mem_filter.1 he
      exact ⟨this.1, by simpa using this.2⟩
    obtain ⟨e1, e2, e3, e4⟩ := hE e he2.1
    rw [desc_releaseFrame_ne m i e.frameNo (Ne.symm he2.2)]
    exact ⟨e1, e2, e3, e4⟩
  · intro j hj hv
    have hji : i ≠ j := by
      rintro rfl
      rw [desc_releaseFrame_self m i hlen] at hv
      simp [BufDesc.Clear] at hv
    rw [desc_releaseFrame_ne m i j hji] at hv ⊢
    show BufHashTbl.lookup (m.hashTable.filter (fun e => e.frameNo ≠ i)) _ _ = some j
    rw [lookup_filter_of]
    · exact hI j hj hv
    · intro e he hk
      have := (coherent_entry_key m ⟨hE, hI, hK⟩ e he j hj hv).1 hk
      simp only [decide_eq_true_eq]
      rw [this]
      exact Ne.symm hji
  · exact List.Pairwise.filter _ hK

/-- One turn of the `flushFile` loop on a frame that is not owned by the
file. -/
theorem flushFileLoop_skip {D : Type} (fl : FileLayer D) (file i : Nat) (rest : List Nat)
    (w : World D) (h : (w.mgr.desc i).file ≠ file) :
    flushFileLoop fl file (i :: rest) w = flushFileLoop fl file rest w := by
  simp only [flushFileLoop, h, if_false]

/-- One turn of the `flushFile` loop on a clean, valid, unpinned frame owned
by the file, in a coherent state. -/
theorem flushFileLoop_clean {D : Type} (fl : FileLayer D) (file i : Nat) (rest : List Nat)
    (w : World D) (hC : w.mgr.Coherent) (hi : i < w.mgr.numBufs)
    (hf : (w.mgr.desc i).file = file) (hv : (w.mgr.desc i).valid = true)
    (hp : (w.mgr.desc i).pinCnt = 0) (hd : (w.mgr.desc i).dirty = false) :
    flushFileLoop fl file (i :: rest) w
      = flushFileLoop fl file rest { w with mgr := releaseFrame w.mgr i } := by
  subst hf
  have hrem := coherent_remove w.mgr hC i hi hv
  have hv2 : ¬ (w.mgr.desc i).valid = false := by rw [hv]; decide
  have hp2 : ¬ (w.mgr.desc i).pinCnt > 0 := by omega
  have hd2 : ¬ (w.mgr.desc i).dirty = true := by rw [hd]; decide
  simp only [flushFileLoop]
  rw [if_pos True.intro, if_neg hv2, if_neg hp2, if_neg hd2, hrem]
  rfl

/-- Clearing a frame whose descriptor was first rewritten, with the index
replaced in between, is `Clear()` on the original descriptor. -/
theorem release_after_clean (m : BufMgr) (i : Nat) (d2 : BufDesc) (ht : BufHashTbl)
    (hfr : d2.frameNo = (m.desc i).frameNo) (hlen : i < m.bufDescTable.length) :
    BufMgr.setDesc { m.setDesc i d2 with hashTable := ht } i
        (BufMgr.desc { m.setDesc i d2 with hashTable := ht } i).Clear
      = { m with hashTable := ht, bufDescTable := m.bufDescTable.set i (m.desc i).Clear } := by
  have hd : BufMgr.desc { m.setDesc i d2 with hashTable := ht } i = d2 :=
    desc_setDesc_self m i d2 hlen
  rw [hd]
  simp [BufMgr.setDesc, List.set_set, BufDesc.Clear, hfr]

/-- One turn of the `flushFile` loop on a dirty, valid, unpinned frame owned
by the file, in a coherent state. -/
theorem flushFileLoop_dirty {D : Type} (fl : FileLayer D) (file i : Nat) (rest : List Nat)
    (w : World D) (hS : w.mgr.SizeOK) (hC : w.mgr.Coherent) (hi : i < w.mgr.numBufs)
    (hf : (w.mgr.desc i).file = file) (hv : (w.mgr.desc i).valid = true)
    (hp : (w.mgr.desc i).pinCnt = 0) (hd : (w.mgr.desc i).dirty = true) :
    flushFileLoop fl file (i :: rest) w =
      match fl.writePage w.disk file (w.mgr.page i) with
      | none => ({ w with calls := w.calls ++ [FileCall.writePage file (w.mgr.page i)] },
          .raise .FileFailure)
      | some disk1 => flushFileLoop fl file rest
          { mgr := releaseFrame w.mgr i, disk := disk1,
            calls := w.calls ++ [FileCall.writePage file (w.mgr.page i)] } := by
  subst hf
  have hlen : i < w.mgr.bufDescTable.length := by rw [hS.2.1]; exact hi
  have hrem := coherent_remove w.mgr hC i hi hv
  have hv2 : ¬ (w.mgr.desc i).valid = false := by rw [hv]; decide
  have hp2 : ¬ (w.mgr.desc i).pinCnt > 0 := by omega
  have hpg : ((w.mgr.setDesc i { (w.mgr.desc i) with dirty := false }).desc i).pageNo
      = (w.mgr.desc i).pageNo := by
    rw [desc_setDesc_self _ _ _ hlen]
  have hrem2 : (w.mgr.setDesc i { (w.mgr.desc i) with dirty := false }).hashTable.remove
      (w.mgr.desc i).file
      ((w.mgr.setDesc i { (w.mgr.desc i) with dirty := false }).desc i).pageNo
      = some (w.mgr.hashTable.filter (fun e => e.frameNo ≠ i)) := by
    rw [hpg]; exact hrem
  simp only [flushFileLoop]
  rw [if_pos True.intro, if_neg hv2, if_neg hp2, if_pos hd]
  rcases hw : fl.writePage w.disk (w.mgr.desc i).file (w.mgr.page i) with _ | disk1
  · rfl
  · simp only [hrem2]
    congr 2
    exact release_after_clean w.mgr i _ _ rfl hlen

theorem flushWrites_cons (m : BufMgr) (file i : Nat) (rest : List Nat) :
    flushWrites m file (i :: rest) =
      (if (m.desc i).file = file ∧ (m.desc i).valid = true ∧ (m.desc i).dirty = true
        then [FileCall.writePage file (m.page i)] else []) ++ flushWrites m file rest := by
  by_cases h : (m.desc i).file = file ∧ (m.desc i).valid = true ∧ (m.desc i).dirty = true
  · rw [if_pos h]
    obtain ⟨h1, h2, h3⟩ := h
    simp [flushWrites, List.filter_cons, h1, h2, h3]
  · rw [if_neg h]
    have hb : (decide ((m.desc i).file = file) && ((m.desc i).valid && (m.desc i).dirty))
        = false := by
      by_contra hb
      simp only [Bool.not_eq_false, Bool.and_eq_true, decide_eq_true_eq] at hb
      exact h hb
    simp only [flushWrites, List.filter_cons, hb, Bool.false_eq_true, if_false, List.nil_append]

theorem flushWrites_congr (m m2 : BufMgr) (file : Nat) (frames : List Nat)
    (hd : ∀ i, i ∈ frames → m2.desc i = m.desc i) (hp : m2.bufPool = m.bufPool) :
    flushWrites m2 file frames = flushWrites m file frames := by
  have hpage : ∀ i, m2.page i = m.page i := fun i => by unfold BufMgr.page; rw [hp]
  induction frames with
  | nil => rfl
  | cons i rest ih =>
    rw [flushWrites_cons, flushWrites_cons, hd i (List.mem_cons_self _ _), hpage i,
      ih (fun j hj => hd j (List.mem_cons_of_mem _ hj))]

theorem releaseFrame_shape (m : BufMgr) (i : Nat) :
    (releaseFrame m i).numBufs = m.numBufs ∧ (releaseFrame m i).bufPool = m.bufPool ∧
    (releaseFrame m i).clockHand = m.clockHand ∧ (releaseFrame m i).bufStats = m.bufStats ∧
    (releaseFrame m i).hashTable = m.hashTable.filter (fun e => e.frameNo ≠ i) :=
  ⟨rfl, rfl, rfl, rfl, rfl⟩

theorem flushedTo_nil (m : BufMgr) (file : Nat) : m.FlushedTo file [] m := by
  refine ⟨fun g => by simp, ?_, rfl, rfl, rfl, rfl⟩
  symm
  apply List.filter_eq_self.2
  intro e _
  simp

/-- Flushing the rest after a frame that the file does not own. -/
theorem flushedTo_skip (m m2 : BufMgr) (file i : Nat) (rest : List Nat) (hC : m.Coherent)
    (hf : (m.desc i).file ≠ file) (h : m.FlushedTo file rest m2) :
    m.FlushedTo file (i :: rest) m2 := by
  obtain ⟨h1, h2, h3, h4, h5, h6⟩ := h
  refine ⟨fun g => ?_, ?_, h3, h4, h5, h6⟩
  · rw [h1 g]
    by_cases hg : g = i
    · subst hg
      rw [if_neg (fun hc => hf hc.2), if_neg (fun hc => hf hc.2)]
    · simp only [List.mem_cons, hg, false_or]
  · rw [h2]
    apply List.filter_congr
    intro e he
    by_cases hg : e.frameNo = i
    · have hfe : e.file ≠ file := by
        obtain ⟨_, _, e3, _⟩ := hC.1 e he
        rw [hg] at e3
        rw [← e3]; exact hf
      simp [hfe]
    · simp [hg]

/-- Flushing the rest after a frame of the file has been released. -/
theorem flushedTo_release (m m2 : BufMgr) (file i : Nat) (rest : List Nat) (hS : m.SizeOK)
    (hC : m.Coherent) (hi : i < m.numBufs) (hnot : i ∉ rest)
    (hf : (m.desc i).file = file) (h : (releaseFrame m i).FlushedTo file rest m2) :
    m.FlushedTo file (i :: rest) m2 := by
  have hlen : i < m.bufDescTable.length := by rw [hS.2.1]; exact hi
  obtain ⟨h1, h2, h3, h4, h5, h6⟩ := h
  refine ⟨fun g => ?_, ?_, h3, h4, h5, h6⟩
  · rw [h1 g]
    by_cases hg : g = i
    · subst hg
      rw [if_neg (fun hc => hnot hc.1), if_pos ⟨List.mem_cons_self _ _, hf⟩]
      exact desc_releaseFrame_self m g hlen
    · rw [desc_releaseFrame_ne m i g (Ne.symm hg)]
      simp only [List.mem_cons, hg, false_or]
  · rw [h2]
    show List.filter _ (List.filter (fun e => e.frameNo ≠ i) m.hashTable) = _
    rw [List.filter_filter]
    apply List.filter_congr
    intro e he
    by_cases hg : e.frameNo = i
    · have hfe : e.file = file := by
        obtain ⟨_, _, e3, _⟩ := hC.1 e he
        rw [hg] at e3
        rw [← e3]; exact hf
      simp [hg, hfe]
    · simp [hg]

/-- A run of the `flushFile` loop over frames whose members owned by the file
are all valid and unpinned, from a coherent state: unless a writeback fails it
completes, leaves a coherent state in which exactly those frames are flushed,
and has made exactly the `writePage` calls of `flushWrites`. -/
theorem flushFileLoop_success {D : Type} (fl : FileLayer D) (file : Nat) (frames : List Nat)
    (w : World D) (hS : w.mgr.SizeOK) (hC : w.mgr.Coherent) (hnd : frames.Nodup)
    (hlt : ∀ i, i ∈ frames → i < w.mgr.numBufs)
    (hOV : ∀ i, i ∈ frames → (w.mgr.desc i).file = file → (w.mgr.desc i).valid = true)
    (hUP : ∀ i, i ∈ frames → (w.mgr.desc i).file = file → (w.mgr.desc i).pinCnt = 0)
    (hW : (flushFileLoop fl file frames w).2 ≠ .raise .FileFailure) :
    (flushFileLoop fl file frames w).2 = .ok () ∧
    (flushFileLoop fl file frames w).1.mgr.SizeOK ∧
    (flushFileLoop fl file frames w).1.mgr.Coherent ∧
    w.mgr.FlushedTo file frames (flushFileLoop fl file frames w).1.mgr ∧
    (flushFileLoop fl file frames w).1.calls = w.calls ++ flushWrites w.mgr file frames := by
  induction frames generalizing w with
  | nil => exact ⟨rfl, hS, hC, flushedTo_nil _ _, (List.append_nil _).symm⟩
  | cons i rest ih =>
    obtain ⟨hnot, hnd2⟩ := List.nodup_cons.1 hnd
    have hi := hlt i (List.mem_cons_self _ _)
    by_cases hf : (w.mgr.desc i).file = file
    · have hv := hOV i (List.mem_cons_self _ _) hf
      have hp := hUP i (List.mem_cons_self _ _) hf
      -- the state handed to the rest of the loop
      have hS1 := sizeOK_releaseFrame w.mgr i hS
      have hC1 := coherent_releaseFrame w.mgr i hS hC hi
      have hdesc1 : ∀ j, j ∈ rest → (releaseFrame w.mgr i).desc j = w.mgr.desc j := by
        intro j hj
        exact desc_releaseFrame_ne w.mgr i j (fun h => hnot (h ▸ hj))
      have hOV1 : ∀ j, j ∈ rest → ((releaseFrame w.mgr i).desc j).file = file →
          ((releaseFrame w.mgr i).desc j).valid = true := by
        intro j hj
        rw [hdesc1 j hj]
        exact hOV j (List.mem_cons_of_mem _ hj)
      have hUP1 : ∀ j, j ∈ rest → ((releaseFrame w.mgr i).desc j).file = file →
          ((releaseFrame w.mgr i).desc j).pinCnt = 0 := by
        intro j hj
        rw [hdesc1 j hj]
        exact hUP j (List.mem_cons_of_mem _ hj)
      have hlt1 : ∀ j, j ∈ rest → j < (releaseFrame w.mgr i).numBufs :=
        fun j hj => hlt j (List.mem_cons_of_mem _ hj)
      have hwr1 : flushWrites (releaseFrame w.mgr i) file rest = flushWrites w.mgr file rest :=
        flushWrites_congr _ _ _ _ hdesc1 rfl
      cases hd : (w.mgr.desc i).dirty with
      | false =>
        have hstep := flushFileLoop_clean fl file i rest w hC hi hf hv hp hd
        rw [hstep] at hW ⊢
        obtain ⟨a1, a2, a3, a4, a5⟩ :=
          ih { w with mgr := releaseFrame w.mgr i } hS1 hC1 hnd2 hlt1 hOV1 hUP1 hW
        refine ⟨a1, a2, a3, flushedTo_release _ _ _ _ _ hS hC hi hnot hf a4, ?_⟩
        rw [a5, flushWrites_cons, if_neg (by rw [hd]; simp), List.nil_append]
        show w.calls ++ flushWrites (releaseFrame w.mgr i) file rest = _
        rw [hwr1]
      | true =>
        have hstep := flushFileLoop_dirty fl file i rest w hS hC hi hf hv hp hd
        rw [hstep] at hW ⊢
        rcases hw : fl.writePage w.disk file (w.mgr.page i) with _ | disk1
        · rw [hw] at hW
          exact absurd rfl hW
        · rw [hw] at hW
          simp only [] at hW ⊢
          obtain ⟨a1, a2, a3, a4, a5⟩ :=
            ih { mgr := releaseFrame w.mgr i, disk := disk1,
                 calls := w.calls ++ [FileCall.writePage file (w.mgr.page i)] }
              hS1 hC1 hnd2 hlt1 hOV1 hUP1 hW
          refine ⟨a1, a2, a3, flushedTo_release _ _ _ _ _ hS hC hi hnot hf a4, ?_⟩
          rw [a5, flushWrites_cons, if_pos ⟨hf, hv, hd⟩]
          show (w.calls ++ [FileCall.writePage file (w.mgr.page i)]) ++
            flushWrites (releaseFrame w.mgr i) file rest = _
          rw [hwr1, List.append_assoc]
    · have hstep := flushFileLoop_skip fl file i rest w hf
      rw [hstep] at hW ⊢
      obtain ⟨a1, a2, a3, a4, a5⟩ := ih w hS hC hnd2
        (fun j hj => hlt j (List.mem_cons_of_mem _ hj))
        (fun j hj => hOV j (List.mem_cons_of_mem _ hj))
        (fun j hj => hUP j (List.mem_cons_of_mem _ hj)) hW
      refine ⟨a1, a2, a3, flushedTo_skip _ _ _ _ _ hC hf a4, ?_⟩
      rw [a5, flushWrites_cons, if_neg (fun hc => hf hc.1), List.nil_append]

/-- C11. In a state that satisfies the data-model invariants and in which no
frame owned by `file` is pinned, `flushFile(file)` returns normally unless a
writeback fails; afterwards no frame is valid with that file, the index holds
no entry for any page of that file (it is the old index without the entries
of the file, so `lookup` finds no page of the file and the entries of the
other files are unchanged), every descriptor not owned by the file, the
contents of every frame, the clock hand and the statistics are unchanged. -/
theorem flushFile_postcondition {D : Type} (fl : FileLayer D) (w : World D) (file : Nat)
    (hS : w.mgr.SizeOK) (hC : w.mgr.Coherent) (hOV : w.mgr.OwnedValid file)
    (hNP : w.mgr.NonePinned file) (hW : (flushFile fl w file).2 ≠ .raise .FileFailure) :
    (flushFile fl w file).2 = .ok () ∧
    (∀ g, ¬ (((flushFile fl w file).1.mgr.desc g).valid = true ∧
      ((flushFile fl w file).1.mgr.desc g).file = file)) ∧
    (flushFile fl w file).1.mgr.hashTable
      = w.mgr.hashTable.filter (fun e => e.file ≠ file) ∧
    (∀ e, e ∈ (flushFile fl w file).1.mgr.hashTable → e.file ≠ file) ∧
    (∀ p, (flushFile fl w file).1.mgr.hashTable.lookup file p = none) ∧
    (∀ e, e.file ≠ file → (e ∈ (flushFile fl w file).1.mgr.hashTable ↔ e ∈ w.mgr.hashTable)) ∧
    (∀ g, (w.mgr.desc g).file ≠ file → (flushFile fl w file).1.mgr.desc g = w.mgr.desc g) ∧
    (∀ g, (w.mgr.desc g).file = file → g < w.mgr.numBufs →
      (flushFile fl w file).1.mgr.desc g = (w.mgr.desc g).Clear) ∧
    (flushFile fl w file).1.mgr.bufPool = w.mgr.bufPool ∧
    (flushFile fl w file).1.mgr.clockHand = w.mgr.clockHand ∧
    (flushFile fl w file).1.mgr.bufStats = w.mgr.bufStats ∧
    (flushFile fl w file).1.mgr.Coherent := by
  have hmem : ∀ i, i ∈ List.range w.mgr.numBufs → i < w.mgr.numBufs :=
    fun i hi => List.mem_range.1 hi
  obtain ⟨a1, a2, a3, ⟨b1, b2, b3, b4, b5, b6⟩, _⟩ :=
    flushFileLoop_success fl file (List.range w.mgr.numBufs) w hS hC (List.nodup_range _) hmem
      (fun i hi => hOV i (hmem i hi)) (fun i hi => hNP i (hmem i hi)) hW
  have hht : (flushFile fl w file).1.mgr.hashTable
      = w.mgr.hashTable.filter (fun e => e.file ≠ file) := by
    show (flushFileLoop fl file (List.range w.mgr.numBufs) w).1.mgr.hashTable = _
    rw [b2]
    apply List.filter_congr
    intro e he
    have := (hC.1 e he).1
    simp [List.mem_range, this]
  have hnone : ∀ e, e ∈ (flushFile fl w file).1.mgr.hashTable → e.file ≠ file := by
    intro e he
    rw [hht] at he
    simpa using (List.mem_filter.1 he).2
  refine ⟨a1, fun g => ?_, hht, hnone, fun p => ?_, fun e he => ?_, fun g hg => ?_,
    fun g hg hlt => ?_, b3, b4, b5, a3⟩
  · show ¬ (((flushFileLoop fl file (List.range w.mgr.numBufs) w).1.mgr.desc g).valid = true ∧
      ((flushFileLoop fl file (List.range w.mgr.numBufs) w).1.mgr.desc g).file = file)
    rw [b1 g]
    by_cases hc : g ∈ List.range w.mgr.numBufs ∧ (w.mgr.desc g).file = file
    · rw [if_pos hc]
      rintro ⟨hv, _⟩
      simp [BufDesc.Clear] at hv
    · rw [if_neg hc]
      rintro ⟨hv, hf⟩
      by_cases hlt : g < w.mgr.numBufs
      · exact hc ⟨List.mem_range.2 hlt, hf⟩
      · rw [desc_out_of_range w.mgr g (by rw [hS.2.1]; exact Nat.le_of_not_lt hlt)] at hv
        exact absurd hv (by decide)
  · exact lookup_eq_none_of_forall _ _ _ (fun a ha hk => hnone a ha hk.1)
  · rw [hht, List.mem_filter]
    simp [he]
  · show (flushFileLoop fl file (List.range w.mgr.numBufs) w).1.mgr.desc g = _
    rw [b1 g, if_neg (fun hc => hg hc.2)]
  · show (flushFileLoop fl file (List.range w.mgr.numBufs) w).1.mgr.desc g = _
    rw [b1 g, if_pos ⟨List.mem_range.2 hlt, hg⟩]

/-- C11 on scenario S1: three pages of `F` unpinned in three frames;
`flushFile(F)` returns normally and empties the pool and the index. -/
theorem flushFile_postcondition_witness :
    poolS1.mgr.SizeOK ∧ poolS1.mgr.Coherent ∧ poolS1.mgr.OwnedValid 1 ∧
    poolS1.mgr.NonePinned 1 ∧ (flushFile memFile poolS1 1).2 ≠ .raise .FileFailure ∧
    (flushFile memFile poolS1 1).2 = .ok () ∧
    (∀ p, (flushFile memFile poolS1 1).1.mgr.hashTable.lookup 1 p = none) :=
  ⟨by decide, by decide, by decide, by decide, by decide,
    (flushFile_postcondition memFile poolS1 1 (by decide) (by decide) (by decide) (by decide)
      (by decide)).1,
    (flushFile_postcondition memFile poolS1 1 (by decide) (by decide) (by decide) (by decide)
      (by decide)).2.2.2.2.1⟩

/-- The `flushFile` loop over a list in two parts: the second part runs from
the state the first one leaves, if the first one completes. -/
theorem flushFileLoop_append {D : Type} (fl : FileLayer D) (file : Nat) (pre post : List Nat)
    (w : World D) :
    flushFileLoop fl file (pre ++ post) w =
      match flushFileLoop fl file pre w with
      | (w1, .ok _) => flushFileLoop fl file post w1
      | (w1, .raise e) => (w1, .raise e) := by
  induction pre generalizing w with
  | nil => rfl
  | cons i rest ih =>
    simp only [List.cons_append, flushFileLoop]
    split_ifs
    · rfl
    · rfl
    · split
      · rfl
      · split
        · rfl
        · exact ih _
    · split
      · rfl
      · exact ih _
    · exact ih _

theorem range_split (n j : Nat) (h : j < n) :
    ∃ post, List.range n = List.range j ++ j :: post := by
  induction n with
  | zero => omega
  | succ n ih =>
    rw [List.range_succ]
    by_cases hj : j = n
    · subst hj
      exact ⟨[], rfl⟩
    · obtain ⟨post, hp⟩ := ih (by omega)
      exact ⟨post ++ [n], by rw [hp]; simp⟩

/-- One turn of the `flushFile` loop on a pinned, valid frame owned by the
file. -/
theorem flushFileLoop_pinned {D : Type} (fl : FileLayer D) (file i : Nat) (rest : List Nat)
    (w : World D) (hf : (w.mgr.desc i).file = file) (hv : (w.mgr.desc i).valid = true)
    (hp : 0 < (w.mgr.desc i).pinCnt) :
    flushFileLoop fl file (i :: rest) w =
      (w, .raise (.PagePinned (fl.filename file) (w.mgr.desc i).pageNo (w.mgr.desc i).frameNo)) := by
  subst hf
  have hv2 : ¬ (w.mgr.desc i).valid = false := by rw [hv]; decide
  simp only [flushFileLoop]
  rw [if_pos True.intro, if_neg hv2, if_pos hp]

/-- C13, amended.  In a state that satisfies the data-model invariants (the
index coherent with the descriptors), if frame `j` is
the lowest-indexed valid frame owned by `file` with `pinCnt > 0`, then
`flushFile(file)` fails with `PagePinned(filename, pageNo, j)` unless the
writeback of a lower frame fails; frame `j` and every higher-indexed frame are
left unmodified (no `writePage`, no index removal, no `Clear()`), while every
lower-indexed frame owned by `file` has been written back if dirty, removed
from the index and cleared.  Scenario S5 on the in-memory store: `readPage(F,
1)` left pinned, then `flushFile(F)` raises `PagePinned`. -/
theorem flushFile_pinned {D : Type} (fl : FileLayer D) (w : World D) (file j : Nat)
    (hS : w.mgr.SizeOK) (hC : w.mgr.Coherent) (hOV : w.mgr.OwnedValid file)
    (hFN : w.mgr.FrameNoOK) (hj : j < w.mgr.numBufs)
    (hfj : (w.mgr.desc j).file = file) (hvj : (w.mgr.desc j).valid = true)
    (hpj : 0 < (w.mgr.desc j).pinCnt)
    (hlow : ∀ i, i < j → (w.mgr.desc i).file = file → (w.mgr.desc i).pinCnt = 0)
    (hW : (flushFile fl w file).2 ≠ .raise .FileFailure) :
    (flushFile fl w file).2 = .raise (.PagePinned (fl.filename file) (w.mgr.desc j).pageNo j) ∧
    w.mgr.FlushedTo file (List.range j) (flushFile fl w file).1.mgr ∧
    (flushFile fl w file).1.calls = w.calls ++ flushWrites w.mgr file (List.range j) ∧
    (∀ g, j ≤ g → (flushFile fl w file).1.mgr.desc g = w.mgr.desc g) ∧
    (∀ e, e ∈ w.mgr.hashTable → j ≤ e.frameNo → e ∈ (flushFile fl w file).1.mgr.hashTable) ∧
    (∀ i, i < j → (w.mgr.desc i).file = file →
      (flushFile fl w file).1.mgr.desc i = (w.mgr.desc i).Clear ∧
      ∀ e, e ∈ (flushFile fl w file).1.mgr.hashTable → e.frameNo ≠ i) ∧
    (flushFile memFile poolOnePinned 1).2 = .raise (.PagePinned "F" 1 0) := by
  obtain ⟨post, hsplit⟩ := range_split w.mgr.numBufs j hj
  have hmem : ∀ i, i ∈ List.range j → i < w.mgr.numBufs :=
    fun i hi => Nat.lt_trans (List.mem_range.1 hi) hj
  have hrun : flushFile fl w file =
      match flushFileLoop fl file (List.range j) w with
      | (w1, .ok _) => flushFileLoop fl file (j :: post) w1
      | (w1, .raise e) => (w1, .raise e) := by
    show flushFileLoop fl file (List.range w.mgr.numBufs) w = _
    rw [hsplit]
    exact flushFileLoop_append fl file _ _ w
  have hW1 : (flushFileLoop fl file (List.range j) w).2 ≠ .raise .FileFailure := by
    intro h
    apply hW
    rw [hrun]
    rcases hr : flushFileLoop fl file (List.range j) w with ⟨w1, out⟩
    rw [hr] at h
    cases out with
    | ok u => simp at h
    | raise e =>
      simp only at h ⊢
      exact h
  obtain ⟨a1, _, _, a4, a5⟩ :=
    flushFileLoop_success fl file (List.range j) w hS hC (List.nodup_range _) hmem
      (fun i hi => hOV i (hmem i hi)) (fun i hi => hlow i (List.mem_range.1 hi)) hW1
  rcases hr : flushFileLoop fl file (List.range j) w with ⟨w1, out⟩
  rw [hr] at a1 a4 a5
  simp only at a1 a4 a5
  subst a1
  have hdj : w1.mgr.desc j = w.mgr.desc j := by
    rw [a4.1 j, if_neg (fun hc => Nat.lt_irrefl j (List.mem_range.1 hc.1))]
  have hfin : flushFile fl w file =
      (w1, .raise (.PagePinned (fl.filename file) (w.mgr.desc j).pageNo j)) := by
    rw [hrun, hr]
    simp only
    rw [flushFileLoop_pinned fl file j post w1 (by rw [hdj]; exact hfj) (by rw [hdj]; exact hvj)
      (by rw [hdj]; exact hpj), hdj, hFN j hj]
  rw [hfin]
  refine ⟨rfl, a4, a5, fun g hg => ?_, fun e he hge => ?_, fun i hi hfi => ⟨?_, fun e he => ?_⟩,
    by decide⟩
  · show w1.mgr.desc g = _
    rw [a4.1 g, if_neg (fun hc => Nat.not_lt.2 hg (List.mem_range.1 hc.1))]
  · show e ∈ w1.mgr.hashTable
    rw [a4.2.1, List.mem_filter]
    refine ⟨he, ?_⟩
    have : ¬ e.frameNo < j := Nat.not_lt.2 hge
    simp [List.mem_range, this]
  · show w1.mgr.desc i = _
    rw [a4.1 i, if_pos ⟨List.mem_range.2 hi, hfi⟩]
  · have he2 : e ∈ w1.mgr.hashTable := he
    rw [a4.2.1, List.mem_filter] at he2
    obtain ⟨hin, hcond⟩ := he2
    rintro rfl
    have hfe : e.file = file := by
      rw [← (hC.1 e hin).2.2.1]; exact hfi
    simp [List.mem_range, hi, hfe] at hcond

/-- C13 on a pool of two frames, page 1 dirty and unpinned in frame 0, page 2
pinned in frame 1: `flushFile(F)` writes page 1 back, clears frame 0 and
raises `PagePinned` for frame 1, left as it was. -/
theorem flushFile_pinned_witness :
    poolDirtyThenPinned.mgr.SizeOK ∧ poolDirtyThenPinned.mgr.Coherent ∧
    poolDirtyThenPinned.mgr.OwnedValid 1 ∧ poolDirtyThenPinned.mgr.FrameNoOK ∧
    1 < poolDirtyThenPinned.mgr.numBufs ∧ (poolDirtyThenPinned.mgr.desc 1).file = 1 ∧
    (poolDirtyThenPinned.mgr.desc 1).valid = true ∧
    0 < (poolDirtyThenPinned.mgr.desc 1).pinCnt ∧
    (∀ i, i < 1 → (poolDirtyThenPinned.mgr.desc i).file = 1 →
      (poolDirtyThenPinned.mgr.desc i).pinCnt = 0) ∧
    (flushFile memFile poolDirtyThenPinned 1).2 ≠ .raise .FileFailure ∧
    (flushFile memFile poolDirtyThenPinned 1).2
      = .raise (.PagePinned (memFile.filename 1) (poolDirtyThenPinned.mgr.desc 1).pageNo 1) ∧
    (flushFile memFile poolDirtyThenPinned 1).1.calls
      = poolDirtyThenPinned.calls ++ flushWrites poolDirtyThenPinned.mgr 1 (List.range 1) ∧
    flushWrites poolDirtyThenPinned.mgr 1 (List.range 1) = [FileCall.writePage 1 ⟨1, [11]⟩] :=
  ⟨by decide, by decide, by decide, by decide, by decide, by decide, by decide, by decide,
    by decide, by decide,
    (flushFile_pinned memFile poolDirtyThenPinned 1 1 (by decide) (by decide) (by decide)
      (by decide) (by decide) (by decide) (by decide) (by decide) (by decide) (by decide)).1,
    (flushFile_pinned memFile poolDirtyThenPinned 1 1 (by decide) (by decide) (by decide)
      (by decide) (by decide) (by decide) (by decide) (by decide) (by decide) (by decide)).2.2.1,
    by decide⟩

theorem valid_lt_length (m : BufMgr) (i : Nat) (hv : (m.desc i).valid = true) :
    i < m.bufDescTable.length := by
  by_contra h
  rw [desc_out_of_range m i (Nat.le_of_not_lt h)] at hv
  exact absurd hv (by decide)

theorem desc_eq_getElem (m : BufMgr) (i : Nat) (h : i < m.bufDescTable.length) :
    m.desc i = m.bufDescTable[i] := by
  simp [BufMgr.desc, List.getD_eq_getElem?_getD, List.getElem?_eq_getElem h]

/-- Clearing a set refbit moves one unit from the count of set refbits to
`accesses`. -/
theorem clearRefbit_conserves (m : BufMgr) (hv : (m.desc m.clockHand).valid = true)
    (hr : (m.desc m.clockHand).refbit = true) :
    (clearRefbit m).bufStats.accesses + (clearRefbit m).refCount
      = m.bufStats.accesses + m.refCount := by
  have hlen := valid_lt_length m m.clockHand hv
  have hget : m.bufDescTable[m.clockHand].refbit = true := by
    rw [← desc_eq_getElem m m.clockHand hlen]; exact hr
  have hpos : 0 < m.bufDescTable.countP (fun d => d.refbit) :=
    List.countP_pos_iff.2 ⟨_, List.getElem_mem hlen, hget⟩
  show m.bufStats.accesses + 1 + (m.bufDescTable.set m.clockHand _).countP (fun d => d.refbit)
    = m.bufStats.accesses + m.bufDescTable.countP (fun d => d.refbit)
  rw [List.countP_set _ _ _ _ hlen]
  simp only [hget, if_true, Bool.false_eq_true, if_false]
  omega

/-- The loop conserves `accesses` plus the number of set refbits: `accesses`
grows by one for each refbit cleared. -/
theorem allocBufLoop_conserves (fuel : Nat) (m : BufMgr) (n : Nat) :
    (allocBufLoop fuel m n).1.bufStats.accesses + (allocBufLoop fuel m n).1.refCount
      = m.bufStats.accesses + m.refCount := by
  induction fuel generalizing m n with
  | zero => rfl
  | succ fuel ih =>
    simp only [allocBufLoop]
    split_ifs with h1 h2 h3 h4 h5
    · rfl
    · rw [ih]
      exact clearRefbit_conserves (advanceClock m) (by simpa using h1) h2
    · exact clearRefbit_conserves (advanceClock m) (by simpa using h1) h2
    · split <;> rfl
    · rw [ih]; rfl
    · rfl

/-- Where the hand is and how far the counter can be when the loop exits. -/
theorem allocBufLoop_hand (fuel : Nat) (m : BufMgr) (n : Nat) (m2 : BufMgr) (n2 : Nat)
    (avail : Bool) (h : allocBufLoop fuel m n = (m2, .ok (n2, avail))) :
    n < n2 ∧ m2.clockHand = (m.clockHand + (n2 - n)) % m.numBufs ∧
    (n < 2 * m.numBufs → n2 ≤ 2 * m.numBufs) := by
  induction fuel generalizing m n with
  | zero => simp [allocBufLoop] at h
  | succ fuel ih =>
    have hone : (advanceClock m).clockHand = (m.clockHand + (n + 1 - n)) % m.numBufs := by
      show (m.clockHand + 1) % m.numBufs = _
      rw [Nat.add_sub_cancel_left]
    have hrec : ∀ m1 : BufMgr, m1.clockHand = (advanceClock m).clockHand →
        m1.numBufs = m.numBufs → n + 1 < 2 * m.numBufs →
        (n + 1 < n2 ∧ m2.clockHand = (m1.clockHand + (n2 - (n + 1))) % m1.numBufs ∧
          (n + 1 < 2 * m1.numBufs → n2 ≤ 2 * m1.numBufs)) →
        n < n2 ∧ m2.clockHand = (m.clockHand + (n2 - n)) % m.numBufs ∧
          (n < 2 * m.numBufs → n2 ≤ 2 * m.numBufs) := by
      intro m1 hh hnb hlt ⟨r1, r2, r3⟩
      refine ⟨by omega, ?_, fun _ => by rw [hnb] at r3; exact r3 hlt⟩
      rw [r2, hh, hnb]
      show ((m.clockHand + 1) % m.numBufs + (n2 - (n + 1))) % m.numBufs = _
      rw [hand_step]
      congr 2
      omega
    simp only [allocBufLoop] at h
    split_ifs at h with h1 h2 h3 h4 h5
    · simp only [Prod.mk.injEq, Outcome.ok.injEq] at h
      obtain ⟨rfl, rfl, rfl⟩ := h
      exact ⟨Nat.lt_succ_self n, hone, fun hlt => hlt⟩
    · exact hrec (clearRefbit (advanceClock m)) rfl rfl h3 (ih _ _ h)
    · simp only [Prod.mk.injEq, Outcome.ok.injEq] at h
      obtain ⟨rfl, rfl, rfl⟩ := h
      exact ⟨Nat.lt_succ_self n, hone, fun hlt => hlt⟩
    · split at h
      · simp at h
      · simp only [Prod.mk.injEq, Outcome.ok.injEq] at h
        obtain ⟨rfl, rfl, rfl⟩ := h
        exact ⟨Nat.lt_succ_self n, hone, fun hlt => hlt⟩
    · exact hrec (advanceClock m) rfl rfl h5 (ih _ _ h)
    · simp only [Prod.mk.injEq, Outcome.ok.injEq] at h
      obtain ⟨rfl, rfl, rfl⟩ := h
      exact ⟨Nat.lt_succ_self n, hone, fun hlt => hlt⟩

/-- Every visit of the loop but the last one passes over a valid frame and
leaves its refbit cleared. -/
theorem allocBufLoop_passed (fuel : Nat) (m : BufMgr) (n : Nat) (m2 : BufMgr) (n2 : Nat)
    (avail : Bool) (h : allocBufLoop fuel m n = (m2, .ok (n2, avail))) (k : Nat)
    (hk : 1 ≤ k) (hlt : n + k < n2) :
    (m.desc ((m.clockHand + k) % m.numBufs)).valid = true ∧
    (m2.desc ((m.clockHand + k) % m.numBufs)).refbit = false := by
  induction fuel generalizing m n k with
  | zero => simp [allocBufLoop] at h
  | succ fuel ih =>
    have hstay : ∀ m1 : BufMgr, m1.clockHand = (m.clockHand + 1) % m.numBufs →
        m1.numBufs = m.numBufs → (advanceClock m).SweepRel m1 →
        (m1.desc m1.clockHand).valid = true → (m1.desc m1.clockHand).refbit = false →
        allocBufLoop fuel m1 (n + 1) = (m2, .ok (n2, avail)) →
        (m.desc ((m.clockHand + k) % m.numBufs)).valid = true ∧
        (m2.desc ((m.clockHand + k) % m.numBufs)).refbit = false := by
      intro m1 hh hnb hrel hval href hloop
      have hsw : m1.SweepRel m2 := by
        have := allocBufLoop_sweepRel fuel m1 (n + 1)
        rw [hloop] at this
        exact this
      by_cases hk1 : k = 1
      · subst hk1
        rw [← hh]
        constructor
        · have := (hrel.2.2.2.2.2 m1.clockHand).2.2.2.2.2.1
          exact this.symm.trans hval
        · by_contra hc
          have := (hsw.2.2.2.2.2 m1.clockHand).2.2.2.2.2.2 (by simpa using hc)
          rw [href] at this
          exact absurd this (by decide)
      · have hrec := ih m1 (n + 1) hloop (k - 1) (by omega) (by omega)
        have hidx : (m1.clockHand + (k - 1)) % m1.numBufs = (m.clockHand + k) % m.numBufs := by
          rw [hh, hnb, hand_step]
          congr 2
          omega
        rw [hidx] at hrec
        refine ⟨?_, hrec.2⟩
        have := (hrel.2.2.2.2.2 ((m.clockHand + k) % m.numBufs)).2.2.2.2.2.1
        exact this.symm.trans hrec.1
    simp only [allocBufLoop] at h
    split_ifs at h with h1 h2 h3 h4 h5
    · simp only [Prod.mk.injEq, Outcome.ok.injEq] at h
      omega
    · have hv : ((advanceClock m).desc (advanceClock m).clockHand).valid = true := by
        simpa using h1
      have hlen := valid_lt_length _ _ hv
      refine hstay (clearRefbit (advanceClock m)) rfl rfl (sweepRel_clearRefbit _) ?_ ?_ h
      · show ((clearRefbit (advanceClock m)).desc (advanceClock m).clockHand).valid = true
        rw [desc_clearRefbit_self _ hlen]; exact hv
      · show ((clearRefbit (advanceClock m)).desc (advanceClock m).clockHand).refbit = false
        rw [desc_clearRefbit_self _ hlen]
    · simp only [Prod.mk.injEq, Outcome.ok.injEq] at h
      omega
    · split at h
      · simp at h
      · simp only [Prod.mk.injEq, Outcome.ok.injEq] at h
        omega
    · exact hstay (advanceClock m) rfl rfl (sweepRel_refl _) (by simpa using h1)
        (by simpa using h2) h
    · simp only [Prod.mk.injEq, Outcome.ok.injEq] at h
      omega

/-- C20. A failed victim search is bounded and changes only refbits and
`accesses`: in a pool with `N >= 1` frames whose hand is in `[0, N)`, when
`allocBuf` raises `BufferExceeded` the loop has made exactly `2 * N` advances
and the hand is back where it was, every refbit is false, `accesses` has
grown by the number of refbits that were set, and every descriptor's file,
pageNo, pinCnt, dirty and valid, the frame contents, the index, `diskreads`,
`diskwrites`, the file store and the log of File calls are unchanged. -/
theorem failed_search_effects {D : Type} (fl : FileLayer D) (w : World D)
    (hS : w.mgr.SizeOK) (hH : w.mgr.clockHand < w.mgr.numBufs)
    (hE : (allocBuf fl w).2 = .raise .BufferExceeded) :
    (allocBuf fl w).1.mgr.clockHand = w.mgr.clockHand ∧
    (allocBufLoop (2 * w.mgr.numBufs + 1) w.mgr 0).2 = .ok (2 * w.mgr.numBufs, false) ∧
    (∀ i, ((allocBuf fl w).1.mgr.desc i).refbit = false) ∧
    (allocBuf fl w).1.mgr.bufStats.accesses = w.mgr.bufStats.accesses + w.mgr.refCount ∧
    (∀ i, ((allocBuf fl w).1.mgr.desc i).file = (w.mgr.desc i).file ∧
      ((allocBuf fl w).1.mgr.desc i).pageNo = (w.mgr.desc i).pageNo ∧
      ((allocBuf fl w).1.mgr.desc i).pinCnt = (w.mgr.desc i).pinCnt ∧
      ((allocBuf fl w).1.mgr.desc i).dirty = (w.mgr.desc i).dirty ∧
      ((allocBuf fl w).1.mgr.desc i).valid = (w.mgr.desc i).valid) ∧
    (allocBuf fl w).1.mgr.bufPool = w.mgr.bufPool ∧
    (allocBuf fl w).1.mgr.hashTable = w.mgr.hashTable ∧
    (allocBuf fl w).1.mgr.bufStats.diskreads = w.mgr.bufStats.diskreads ∧
    (allocBuf fl w).1.mgr.bufStats.diskwrites = w.mgr.bufStats.diskwrites ∧
    (allocBuf fl w).1.mgr.numBufs = w.mgr.numBufs ∧
    (allocBuf fl w).1.calls = w.calls ∧ (allocBuf fl w).1.disk = w.disk := by
  obtain ⟨hN, hlen, _⟩ := hS
  obtain ⟨m1, lr, hloop, hcase⟩ := allocBuf_cases fl w
  have hrel : w.mgr.SweepRel m1 := by
    have := allocBufLoop_sweepRel (2 * w.mgr.numBufs + 1) w.mgr 0
    rw [hloop] at this
    exact this
  rcases hcase with ⟨e, rfl, hres⟩ | ⟨n, rfl, hn, hres⟩ | ⟨n, avail, _, _, _, hres⟩ |
    ⟨n, avail, _, _, _, _, hres⟩ | ⟨n, avail, disk1, _, _, _, _, hres⟩
  · rw [hres] at hE
    rcases allocBufLoop_raise_kind _ _ _ _ _ hloop with rfl | rfl <;> simp at hE
  · obtain ⟨_, hhand, hcount⟩ := allocBufLoop_hand _ _ _ _ _ _ hloop
    obtain ⟨_, _, _, hfalse⟩ := allocBufLoop_ok _ _ _ _ _ _ hN hloop
    have hnb : m1.numBufs = w.mgr.numBufs := hrel.1
    have hn2 : n = 2 * w.mgr.numBufs := by
      have := hcount (by omega)
      rw [hnb] at hn
      omega
    subst hn2
    have hcons := allocBufLoop_conserves (2 * w.mgr.numBufs + 1) w.mgr 0
    rw [hloop] at hcons
    have href : ∀ i, (m1.desc i).refbit = false := by
      intro i
      by_cases hi : i < w.mgr.numBufs
      · obtain ⟨k, hk1, hk2, hk3⟩ := exists_step w.mgr.clockHand w.mgr.numBufs i hi
        have := (allocBufLoop_passed _ _ _ _ _ _ hloop k hk1 (by omega)).2
        rw [hk3] at this
        exact this
      · rw [desc_out_of_range m1 i (by rw [hrel.2.2.1, hlen]; omega)]
        rfl
    have hzero : m1.refCount = 0 := by
      refine List.countP_eq_zero.2 ?_
      intro d hd
      obtain ⟨i, hi, rfl⟩ := List.mem_iff_getElem.1 hd
      rw [← desc_eq_getElem m1 i hi, href i]
      decide
    rw [hres]
    refine ⟨?_, ?_, href, ?_, ?_, hrel.2.1, (hfalse rfl).1, hrel.2.2.2.1, hrel.2.2.2.2.1, hnb,
      rfl, rfl⟩
    · show m1.clockHand = w.mgr.clockHand
      rw [hhand, Nat.sub_zero, Nat.add_mul_mod_self_right, Nat.mod_eq_of_lt hH]
    · rw [hloop]
    · show m1.bufStats.accesses = _
      simp only [hzero, Nat.add_zero] at hcons
      exact hcons
    · intro i
      obtain ⟨s1, s2, _, s4, s5, s6, _⟩ := hrel.2.2.2.2.2 i
      exact ⟨s1, s2, s4, s5, s6⟩
  · rw [hres] at hE; simp at hE
  · rw [hres] at hE; simp at hE
  · rw [hres] at hE; simp at hE

/-- C20 on scenario S3: one frame, page 1 pinned with its refbit set; the
failed search of `allocBuf` clears that refbit and counts one access. -/
theorem failed_search_effects_witness :
    poolOnePinned.mgr.SizeOK ∧ poolOnePinned.mgr.clockHand < poolOnePinned.mgr.numBufs ∧
    (allocBuf memFile poolOnePinned).2 = .raise .BufferExceeded ∧
    (poolOnePinned.mgr.desc 0).refbit = true ∧ poolOnePinned.mgr.refCount = 1 ∧
    (allocBuf memFile poolOnePinned).1.mgr.clockHand = poolOnePinned.mgr.clockHand ∧
    (allocBufLoop (2 * poolOnePinned.mgr.numBufs + 1) poolOnePinned.mgr 0).2 = .ok (2, false) ∧
    ((allocBuf memFile poolOnePinned).1.mgr.desc 0).refbit = false ∧
    (allocBuf memFile poolOnePinned).1.mgr.bufStats.accesses
      = poolOnePinned.mgr.bufStats.accesses + 1 :=
  ⟨by decide, by decide, by decide, by decide, by decide,
    (failed_search_effects memFile poolOnePinned (by decide) (by decide) (by decide)).1,
    (failed_search_effects memFile poolOnePinned (by decide) (by decide) (by decide)).2.1,
    (failed_search_effects memFile poolOnePinned (by decide) (by decide) (by decide)).2.2.1 0,
    (failed_search_effects memFile poolOnePinned (by decide) (by decide) (by decide)).2.2.2.1⟩

theorem atVisit_succ (m : BufMgr) (p : Nat) : atVisit m (p + 1) = atVisit (passOver m) p := by
  simp only [atVisit, Function.iterate_succ_apply]

theorem passOver_refbit (m : BufMgr)
    (hv : ((advanceClock m).desc (advanceClock m).clockHand).valid = true)
    (hr : ((advanceClock m).desc (advanceClock m).clockHand).refbit = true) :
    passOver m = clearRefbit (advanceClock m) := by
  simp only [passOver]
  rw [if_pos ⟨hv, hr⟩]
  rfl

theorem passOver_pinned (m : BufMgr)
    (hr : ¬ ((advanceClock m).desc (advanceClock m).clockHand).refbit = true) :
    passOver m = advanceClock m := by
  simp only [passOver]
  rw [if_neg (fun h => hr h.2)]

/-- The loop against the reference sweep: when the loop stops on a frame it
can hand out, that frame is the first one that would stop the reference
sweep at the moment of its visit, and the state is the one of that visit up
to the index entry removed. -/
theorem allocBufLoop_first (fuel : Nat) (m : BufMgr) (n : Nat) (m2 : BufMgr) (n2 : Nat)
    (avail : Bool) (h : allocBufLoop fuel m n = (m2, .ok (n2, avail)))
    (hstop : avail = true ∨ (m2.desc m2.clockHand).valid = false) :
    ∃ p, n2 = n + p + 1 ∧
      (atVisit m p).Stoppable (atVisit m p).clockHand ∧
      (∀ j, j < p → ¬ (atVisit m j).Stoppable (atVisit m j).clockHand) ∧
      m2 = { atVisit m p with hashTable := m2.hashTable } := by
  induction fuel generalizing m n with
  | zero => simp [allocBufLoop] at h
  | succ fuel ih =>
    have hgo : ∀ m1 : BufMgr, passOver m = m1 →
        ((advanceClock m).desc (advanceClock m).clockHand).valid = true →
        (((advanceClock m).desc (advanceClock m).clockHand).refbit = false →
          ((advanceClock m).desc (advanceClock m).clockHand).pinCnt ≠ 0) →
        allocBufLoop fuel m1 (n + 1) = (m2, .ok (n2, avail)) →
        ∃ p, n2 = n + p + 1 ∧
          (atVisit m p).Stoppable (atVisit m p).clockHand ∧
          (∀ j, j < p → ¬ (atVisit m j).Stoppable (atVisit m j).clockHand) ∧
          m2 = { atVisit m p with hashTable := m2.hashTable } := by
      intro m1 hpass hval hpin hloop
      obtain ⟨p, hp1, hp2, hp3, hp4⟩ := ih m1 (n + 1) hloop
      refine ⟨p + 1, by omega, ?_, ?_, ?_⟩
      · rw [atVisit_succ, hpass]; exact hp2
      · intro j hj
        cases j with
        | zero =>
          show ¬ (advanceClock m).Stoppable (advanceClock m).clockHand
          rintro (hc | ⟨hc1, hc2⟩)
          · rw [hval] at hc; exact absurd hc (by decide)
          · exact hpin hc1 hc2
        | succ j =>
          rw [atVisit_succ, hpass]
          exact hp3 j (by omega)
      · rw [atVisit_succ, hpass]; exact hp4
    simp only [allocBufLoop] at h
    split_ifs at h with h1 h2 h3 h4 h5
    · simp only [Prod.mk.injEq, Outcome.ok.injEq] at h
      obtain ⟨rfl, rfl, rfl⟩ := h
      exact ⟨0, rfl, Or.inl h1, fun j hj => absurd hj (Nat.not_lt_zero j), rfl⟩
    · have hv : ((advanceClock m).desc (advanceClock m).clockHand).valid = true := by
        simpa using h1
      exact hgo _ (passOver_refbit m hv h2) hv (fun hc => by rw [h2] at hc; exact absurd hc (by decide)) h
    · have hv : ((advanceClock m).desc (advanceClock m).clockHand).valid = true := by
        simpa using h1
      have hlen := valid_lt_length _ _ hv
      simp only [Prod.mk.injEq, Outcome.ok.injEq] at h
      obtain ⟨rfl, rfl, rfl⟩ := h
      rcases hstop with hc | hc
      · exact absurd hc (by decide)
      · have : ((clearRefbit (advanceClock m)).desc (advanceClock m).clockHand).valid = false := hc
        rw [desc_clearRefbit_self _ hlen] at this
        rw [hv] at this
        exact absurd this (by decide)
    · split at h
      · simp at h
      · simp only [Prod.mk.injEq, Outcome.ok.injEq] at h
        obtain ⟨rfl, rfl, rfl⟩ := h
        exact ⟨0, rfl, Or.inr ⟨by simpa using h2, h4⟩,
          fun j hj => absurd hj (Nat.not_lt_zero j), rfl⟩
    · exact hgo _ (passOver_pinned m h2) (by simpa using h1) (fun _ => h4) h
    · simp only [Prod.mk.injEq, Outcome.ok.injEq] at h
      obtain ⟨rfl, rfl, rfl⟩ := h
      rcases hstop with hc | hc
      · exact absurd hc (by decide)
      · have : ((advanceClock m).desc (advanceClock m).clockHand).valid = false := hc
        exact absurd this h1

theorem passOver_hand (m : BufMgr) :
    (passOver m).clockHand = (m.clockHand + 1) % m.numBufs ∧
    (passOver m).numBufs = m.numBufs ∧ (passOver m).hashTable = m.hashTable := by
  simp only [passOver]
  split_ifs <;> exact ⟨rfl, rfl, rfl⟩

/-- The visits of the reference sweep are at positions `hand + 1`,
`hand + 2`, ... modulo `numBufs`, and leave the index alone. -/
theorem atVisit_hand (m : BufMgr) (p : Nat) :
    (atVisit m p).clockHand = (m.clockHand + (p + 1)) % m.numBufs ∧
    (atVisit m p).hashTable = m.hashTable := by
  induction p generalizing m with
  | zero => exact ⟨rfl, rfl⟩
  | succ p ih =>
    obtain ⟨a1, a2, a3⟩ := passOver_hand m
    rw [atVisit_succ, (ih (passOver m)).1, (ih (passOver m)).2, a1, a2, a3, hand_step]
    exact ⟨rfl, rfl⟩

/-- What a successful `allocBuf` leaves of the state at the exit of its
loop: everything but the descriptor of the frame returned, `diskwrites`, the
file store and the log. -/
theorem allocBuf_ok_loop {D : Type} (fl : FileLayer D) (w : World D) (f : Nat)
    (h : (allocBuf fl w).2 = .ok f) :
    ∃ m1 n avail, allocBufLoop (2 * w.mgr.numBufs + 1) w.mgr 0 = (m1, .ok (n, avail)) ∧
      (n < 2 * m1.numBufs ∨ avail = true) ∧ m1.clockHand = f ∧
      (allocBuf fl w).1.mgr.clockHand = f ∧
      (allocBuf fl w).1.mgr.hashTable = m1.hashTable ∧
      (allocBuf fl w).1.mgr.bufStats.accesses = m1.bufStats.accesses ∧
      ∀ i, i ≠ f → (allocBuf fl w).1.mgr.desc i = m1.desc i := by
  obtain ⟨m1, lr, hl, hc⟩ := allocBuf_cases fl w
  rcases hc with ⟨e, _, h2⟩ | ⟨n, _, _, h2⟩ | ⟨n, avail, hlr, hsel, _, h2⟩ |
    ⟨n, avail, _, _, _, _, h2⟩ | ⟨n, avail, disk1, hlr, hsel, _, _, h2⟩
  · rw [h2] at h; simp at h
  · rw [h2] at h; simp at h
  · rw [h2] at h ⊢
    simp only [Outcome.ok.injEq] at h
    subst h
    subst hlr
    exact ⟨m1, n, avail, hl, hsel, rfl, rfl, rfl, rfl,
      fun i hi => desc_setDesc_ne m1 m1.clockHand i _ (Ne.symm hi)⟩
  · rw [h2] at h; simp at h
  · rw [h2] at h ⊢
    simp only [Outcome.ok.injEq] at h
    subst h
    subst hlr
    exact ⟨m1, n, avail, hl, hsel, rfl, rfl, rfl, rfl,
      fun i hi => desc_setDesc_ne _ m1.clockHand i _ (Ne.symm hi)⟩

/-- C19. The clock sweep selects the reference victim.  When `allocBuf`
returns frame `f`, the reference sweep (visit positions `hand + 1`,
`hand + 2`, ... modulo `N`; pass over a valid frame with refbit set after
clearing the refbit and counting one access; pass over a valid frame with
refbit clear and `pinCnt > 0` unchanged) meets `f` after passing over
`p < 2 * N` frames, `f` is at that moment invalid or has refbit clear and
`pinCnt = 0`, no frame visited before was, the state `allocBuf` leaves is
the one of that visit outside the descriptor of `f`: the index is the one
before the call with the entry of a valid victim removed, and the hand is
on `f`.  Scenario S2: with pages 10 (clean) and 20 (dirty) unpinned in a
pool of two frames, `readPage(F, 30)` clears both refbits, takes frame 0 at
the third advance, evicts page 10 only, and calls no `writePage`. -/
theorem clock_sweep_reference_victim {D : Type} (fl : FileLayer D) (w : World D)
    (hS : w.mgr.SizeOK) (f : Nat) (hok : (allocBuf fl w).2 = .ok f) :
    (∃ p, p < 2 * w.mgr.numBufs ∧
      f = (w.mgr.clockHand + (p + 1)) % w.mgr.numBufs ∧
      (atVisit w.mgr p).clockHand = f ∧
      (atVisit w.mgr p).Stoppable f ∧
      (∀ j, j < p → (atVisit w.mgr j).clockHand = (w.mgr.clockHand + (j + 1)) % w.mgr.numBufs ∧
        ¬ (atVisit w.mgr j).Stoppable (atVisit w.mgr j).clockHand) ∧
      (((atVisit w.mgr p).desc f).valid = true →
        w.mgr.hashTable.remove ((atVisit w.mgr p).desc f).file ((atVisit w.mgr p).desc f).pageNo
          = some (allocBuf fl w).1.mgr.hashTable) ∧
      (((atVisit w.mgr p).desc f).valid = false →
        (allocBuf fl w).1.mgr.hashTable = w.mgr.hashTable) ∧
      (allocBuf fl w).1.mgr.bufStats.accesses = (atVisit w.mgr p).bufStats.accesses ∧
      (∀ i, i ≠ f → (allocBuf fl w).1.mgr.desc i = (atVisit w.mgr p).desc i)) ∧
    (allocBuf fl w).1.mgr.clockHand = f ∧
    ((allocBufLoop (2 * poolS2.mgr.numBufs + 1) poolS2.mgr 0).2 = .ok (3, true) ∧
      ((atVisit poolS2.mgr 0).desc 0).refbit = true ∧
      ((atVisit poolS2.mgr 1).desc 1).refbit = true ∧
      (readPage memFile poolS2 1 30).2 = .ok 0 ∧
      ((readPage memFile poolS2 1 30).1.mgr.desc 1).refbit = false ∧
      (readPage memFile poolS2 1 30).1.mgr.hashTable.lookup 1 10 = none ∧
      (readPage memFile poolS2 1 30).1.mgr.hashTable.lookup 1 20 = some 1 ∧
      (readPage memFile poolS2 1 30).1.mgr.hashTable.lookup 1 30 = some 0 ∧
      (readPage memFile poolS2 1 30).1.calls = poolS2.calls ++ [FileCall.readPage 1 30]) := by
  obtain ⟨hN, hlen, _⟩ := hS
  obtain ⟨m1, n, avail, hloop, hsel, hhand, hres1, hres2, hres3, hres4⟩ :=
    allocBuf_ok_loop fl w f hok
  obtain ⟨_, hlt, hremoved, hkept⟩ := allocBufLoop_ok _ _ _ _ _ _ hN hloop
  have hnb : m1.numBufs = w.mgr.numBufs := by
    have := allocBufLoop_sweepRel (2 * w.mgr.numBufs + 1) w.mgr 0
    rw [hloop] at this
    exact this.1
  have hstop : avail = true ∨ (m1.desc m1.clockHand).valid = false := by
    cases avail with
    | true => exact Or.inl rfl
    | false =>
      rcases (hkept rfl).2 with hv | hv
      · exact Or.inr hv
      · rcases hsel with hc | hc
        · rw [hnb] at hc; omega
        · exact absurd hc (by decide)
  obtain ⟨p, hp1, hp2, hp3, hp4⟩ := allocBufLoop_first _ _ _ _ _ _ hloop hstop
  have hcount := (allocBufLoop_hand _ _ _ _ _ _ hloop).2.2 (by omega)
  have hdesc : ∀ i, m1.desc i = (atVisit w.mgr p).desc i := by
    intro i; rw [hp4]; rfl
  have hacc : m1.bufStats.accesses = (atVisit w.mgr p).bufStats.accesses := by
    rw [hp4]
  have hvh : (atVisit w.mgr p).clockHand = f := by
    rw [← hhand, hp4]
  refine ⟨⟨p, by omega, ?_, hvh, ?_, ?_, ?_, ?_, ?_, ?_⟩, hres1,
    by decide, by decide, by decide, by decide, by decide, by decide, by decide, by decide,
    by decide⟩
  · rw [← hvh]; exact (atVisit_hand w.mgr p).1
  · rw [← hvh]; exact hp2
  · exact fun j hj => ⟨(atVisit_hand w.mgr j).1, hp3 j hj⟩
  · intro hv
    have hav : avail = true := by
      rcases hstop with hc | hc
      · exact hc
      · rw [hhand, hdesc f, hv] at hc
        exact absurd hc (by decide)
    have := (hremoved hav).2.2.2
    rw [hhand, hdesc f] at this
    rw [hres2]
    exact this
  · intro hv
    cases avail with
    | true =>
      have := (hremoved rfl).1
      rw [hhand, hdesc f, hv] at this
      exact absurd this (by decide)
    | false => rw [hres2]; exact (hkept rfl).1
  · rw [hres3, hacc]
  · intro i hi
    rw [hres4 i hi, hdesc i]

/-- C19 on scenario S2: the sweep passes over frames 0 and 1, whose refbits
are set, and takes frame 0 at its second visit. -/
theorem clock_sweep_reference_victim_witness :
    poolS2.mgr.SizeOK ∧ (allocBuf memFile poolS2).2 = .ok 0 ∧
    (∃ p, p < 2 * poolS2.mgr.numBufs ∧
      0 = (poolS2.mgr.clockHand + (p + 1)) % poolS2.mgr.numBufs ∧
      (atVisit poolS2.mgr p).clockHand = 0 ∧
      (atVisit poolS2.mgr p).Stoppable 0 ∧
      (∀ j, j < p →
        (atVisit poolS2.mgr j).clockHand
          = (poolS2.mgr.clockHand + (j + 1)) % poolS2.mgr.numBufs ∧
        ¬ (atVisit poolS2.mgr j).Stoppable (atVisit poolS2.mgr j).clockHand) ∧
      (((atVisit poolS2.mgr p).desc 0).valid = true →
        poolS2.mgr.hashTable.remove ((atVisit poolS2.mgr p).desc 0).file
            ((atVisit poolS2.mgr p).desc 0).pageNo
          = some (allocBuf memFile poolS2).1.mgr.hashTable) ∧
      (((atVisit poolS2.mgr p).desc 0).valid = false →
        (allocBuf memFile poolS2).1.mgr.hashTable = poolS2.mgr.hashTable) ∧
      (allocBuf memFile poolS2).1.mgr.bufStats.accesses
        = (atVisit poolS2.mgr p).bufStats.accesses ∧
      (∀ i, i ≠ 0 → (allocBuf memFile poolS2).1.mgr.desc i = (atVisit poolS2.mgr p).desc i)) ∧
    (atVisit poolS2.mgr 2).Stoppable 0 ∧
    (allocBuf memFile poolS2).1.mgr.bufStats.accesses = poolS2.mgr.bufStats.accesses + 2 :=
  ⟨by decide, by decide,
    (clock_sweep_reference_victim memFile poolS2 (by decide) 0 (by decide)).1,
    by decide, by decide⟩

/-- C16. Index/descriptor consistency does not survive a failed victim
writeback.  One frame over a store whose writes fail: after `readPage(F, 1)`
and `unPinPage(F, 1, true)` the index is consistent; `readPage(F, 2)` then
picks frame 0, removes its index entry, and fails in `writePage`: the call
ends in the File error with frame 0 still valid, dirty and holding page 1,
and no index entry naming it.  Every later `readPage` that misses then fails
with `HashNotFound`. -/
theorem failed_writeback_orphans_frame :
    (World.new 1 diskF).mgr.IndexConsistent ∧
    poolDirtyUnwritable.mgr.IndexConsistent ∧
    (readPage readOnlyFile poolDirtyUnwritable 1 2).2 = .raise .FileFailure ∧
    ¬ (readPage readOnlyFile poolDirtyUnwritable 1 2).1.mgr.IndexConsistent ∧
    (readPage readOnlyFile poolDirtyUnwritable 1 2).1.mgr.desc 0
      = ⟨1, 1, 0, 0, true, true, false⟩ ∧
    (readPage readOnlyFile poolDirtyUnwritable 1 2).1.mgr.hashTable = [] ∧
    (readPage readOnlyFile poolDirtyUnwritable 1 2).1.calls
      = [FileCall.readPage 1 1, FileCall.writePage 1 ⟨1, [11]⟩] ∧
    (readPage readOnlyFile (readPage readOnlyFile poolDirtyUnwritable 1 2).1 1 2).2
      = .raise .HashNotFound ∧
    (readPage readOnlyFile (readPage readOnlyFile poolDirtyUnwritable 1 2).1 1 1).2
      = .raise .HashNotFound := by
  decide

/-- C17. Key uniqueness does not survive a failed victim writeback.  Two
frames over a store whose writes fail, no `allocPage` call: page 1 dirty and
unpinned in frame 0, page 2 in frame 1; `readPage(F, 10)` removes the index
entry of page 1 and fails in `writePage`, leaving frame 0 valid; after
`unPinPage(F, 2, false)`, `readPage(F, 1)` misses in the index and loads
page 1 into frame 1: frames 0 and 1 are both valid with key `(F, 1)`. -/
theorem failed_writeback_duplicates_key :
    poolTwoUnwritable.mgr.UniqueKeys ∧
    (readPage readOnlyFile poolTwoUnwritable 1 10).2 = .raise .FileFailure ∧
    poolAfterFailedWriteback.mgr.UniqueKeys ∧
    poolAfterFailedWriteback.mgr.hashTable.lookup 1 1 = none ∧
    (readPage readOnlyFile poolAfterFailedWriteback 1 1).2 = .ok 1 ∧
    ¬ (readPage readOnlyFile poolAfterFailedWriteback 1 1).1.mgr.UniqueKeys ∧
    (readPage readOnlyFile poolAfterFailedWriteback 1 1).1.mgr.desc 0
      = ⟨1, 1, 0, 0, true, true, false⟩ ∧
    (readPage readOnlyFile poolAfterFailedWriteback 1 1).1.mgr.desc 1
      = ⟨1, 1, 1, 1, false, true, true⟩ ∧
    (readPage readOnlyFile poolAfterFailedWriteback 1 1).1.calls
      = [FileCall.readPage 1 1, FileCall.readPage 1 2, FileCall.writePage 1 ⟨1, [11]⟩,
          FileCall.readPage 1 1] := by
  decide

/-- C1. A pinned frame can lose its index entry to the sweep.  Two frames
over a store whose writes fail at first: after the failed writeback of
page 1 and the second load of page 1 (the sequence of the key-uniqueness
defect), frame 0 holds page 1 unpinned and unindexed and frame 1 holds
page 1 pinned, with the index entry `(F, 1) -> 1`.  `readPage(F, 2)`, once
writes succeed again, takes frame 0 and returns it, and the `remove` of the
victim's key has deleted the entry of pinned frame 1: frame 1 is still valid
with `pinCnt = 1`, the index no longer holds its entry, `lookup(F, 1)`
misses.  While writes still fail the same call ends in the File error with
the entry of frame 1 removed all the same. -/
theorem pinned_frame_loses_index_entry :
    poolDuplicateKey.mgr.SizeOK ∧ poolDuplicateKey.mgr.Inv1 ∧
    ¬ poolDuplicateKey.mgr.UniqueKeys ∧
    poolDuplicateKey.mgr.Pinned 1 ∧
    (⟨1, 1, 1⟩ : HashEntry) ∈ poolDuplicateKey.mgr.hashTable ∧
    poolDuplicateKey.mgr.hashTable.lookup 1 1 = some 1 ∧
    poolDuplicateKey.mgr.hashTable.lookup 1 2 = none ∧
    (readPage memFile poolDuplicateKey 1 2).2 = .ok 0 ∧
    (allocBuf memFile poolDuplicateKey).2 = .ok 0 ∧
    poolDuplicateKey.mgr.Evictable 0 ∧
    (readPage memFile poolDuplicateKey 1 2).1.mgr.desc 1 = poolDuplicateKey.mgr.desc 1 ∧
    ((readPage memFile poolDuplicateKey 1 2).1.mgr.desc 1).pinCnt = 1 ∧
    (⟨1, 1, 1⟩ : HashEntry) ∉ (readPage memFile poolDuplicateKey 1 2).1.mgr.hashTable ∧
    (readPage memFile poolDuplicateKey 1 2).1.mgr.hashTable.lookup 1 1 = none ∧
    ¬ poolDuplicateKey.mgr.Kept (readPage memFile poolDuplicateKey 1 2).1.mgr 1 ∧
    ¬ poolDuplicateKey.mgr.StillMapped (readPage memFile poolDuplicateKey 1 2).1.mgr 1 ∧
    ¬ poolDuplicateKey.mgr.Kept (allocBuf memFile poolDuplicateKey).1.mgr 1 ∧
    (readPage readOnlyFile poolDuplicateKey 1 2).2 = .raise .FileFailure ∧
    ((readPage readOnlyFile poolDuplicateKey 1 2).1.mgr.desc 1).pinCnt = 1 ∧
    (readPage readOnlyFile poolDuplicateKey 1 2).1.mgr.hashTable = [] ∧
    ¬ poolDuplicateKey.mgr.Kept (readPage readOnlyFile poolDuplicateKey 1 2).1.mgr 1 := by
  decide

/-- C13, as first stated, fails: a pinned frame of the file does not always
make `flushFile` raise `PagePinned`.  Page 1 dirty and unpinned in frame 0,
page 2 pinned in frame 1: over a store whose writes fail, `flushFile(F)`
ends in the File error of the writeback of frame 0; and in the state left by
a failed victim writeback, where frame 0 is valid without an index entry,
`flushFile(F)` writes frame 0 and ends in `HashNotFound`, frame 0 still
valid. -/
theorem flushFile_pinned_other_error :
    ((poolDirtyThenPinned.mgr.desc 1).valid = true ∧
      (poolDirtyThenPinned.mgr.desc 1).file = 1 ∧
      0 < (poolDirtyThenPinned.mgr.desc 1).pinCnt ∧
      (flushFile readOnlyFile poolDirtyThenPinned 1).2 = .raise .FileFailure) ∧
    ((poolOrphanThenPinned.mgr.desc 1).valid = true ∧
      (poolOrphanThenPinned.mgr.desc 1).file = 1 ∧
      0 < (poolOrphanThenPinned.mgr.desc 1).pinCnt ∧
      (poolOrphanThenPinned.mgr.desc 0).valid = true ∧
      poolOrphanThenPinned.mgr.hashTable.lookup 1 1 = none ∧
      ¬ poolOrphanThenPinned.mgr.Coherent ∧
      (flushFile memFile poolOrphanThenPinned 1).2 = .raise .HashNotFound ∧
      ((flushFile memFile poolOrphanThenPinned 1).1.mgr.desc 0).valid = true) := by
  decide

end BadgerDB
